import Mathlib

/-!
# GeneticAlgorithm: a shallow embedding of the optimisation core

The C++ classes `IModel`, `IFigureOfMerit`, `IPopulation`,
`ParametricModelPopulation` and `GeneticAlgorithm` are embedded as Lean
structures holding the member variables; every member function becomes a
function from the state before the call to the outcome of the call.

* `double` is an arbitrary type `S` carrying the operations the code uses.
* A `throw std::runtime_error` is `Except.error` with one constructor of
  `Error` per message.
* The pseudo random generator `TRandom3` and the formula class `TF1` belong to
  the ROOT library; they enter as parameters.
* The rejection loops of `selectParents` and the generation loop of `optimize`
  take a bound on the number of iterations of each loop; reaching the bound is
  the outcome `Error.outOfFuel`.
-/

namespace GA

/-! ## Outcomes -/

/-- The ways a call can fail to return. The first three are the
`std::runtime_error`s thrown by the code on values of the types of the
embedding, `unboundPopulation` and
`indexOutOfRange` stand for the undefined behaviour of dereferencing a pointer
never assigned and of indexing a vector outside its bounds, and `outOfFuel`
says that a loop used up the iteration bound given to the embedding. -/
inductive Error where
  | figureOfMeritNotAssigned
  | rankOutOfRange
  | rateOutOfRange
  | unboundPopulation
  | indexOutOfRange
  | outOfFuel
  deriving DecidableEq, Repr

/-- Equality of outcomes is decidable. -/
instance decEqExcept {ε α : Type} [DecidableEq ε] [DecidableEq α] : DecidableEq (Except ε α)
  | Except.ok a, Except.ok b =>
    if h : a = b then isTrue (by rw [h]) else isFalse (fun h2 => h (Except.ok.inj h2))
  | Except.error a, Except.error b =>
    if h : a = b then isTrue (by rw [h]) else isFalse (fun h2 => h (Except.error.inj h2))
  | Except.ok _, Except.error _ => isFalse (fun h => Except.noConfusion h)
  | Except.error _, Except.ok _ => isFalse (fun h => Except.noConfusion h)

/-! ## IModel -/

/-- The class `IModel`: the score, and the members `derived` that a concrete
subclass adds (`ParametricModel` adds its formula). -/
structure IModel (S D : Type) where
  m_score : S
  derived : D

/-- The body of `IModel::getScore`. -/
def IModel.getScore {S D : Type} (m : IModel S D) : S := m.m_score

/-- The body of `IModel::setScore`. -/
def IModel.setScore {S D : Type} (m : IModel S D) (score : S) : IModel S D :=
  { m with m_score := score }

/-! ## IFigureOfMerit -/

/-- The class `IFigureOfMerit`. The pure virtual `evaluate` and the virtual
`isBetterThan(double, double)` are the two methods that the classes of the
repository override, so they are fields; `isBetterThanScore` is
`IFigureOfMerit.defaultIsBetterThan` for the base class and
`Chi2FitFigureOfMerit.isBetterThan` for the chi-square class. -/
structure IFigureOfMerit (S D : Type) where
  m_acceptThreshold : S
  evaluate : IModel S D → S
  isBetterThanScore : S → S → Bool

/-- The body of `IFigureOfMerit::isBetterThan(double, double)`. -/
def IFigureOfMerit.defaultIsBetterThan {S : Type} [LT S] [DecidableRel (fun a b : S => a < b)]
    (scoreToTest referenceScore : S) : Bool :=
  decide (scoreToTest > referenceScore)

/-- The body of `Chi2FitFigureOfMerit::isBetterThan(double, double)`. -/
def Chi2FitFigureOfMerit.isBetterThan {S : Type} [LT S] [DecidableRel (fun a b : S => a < b)]
    (scoreToTest referenceScore : S) : Bool :=
  decide (scoreToTest < referenceScore)

/-- The body of `IFigureOfMerit::accept(double)`. -/
def IFigureOfMerit.acceptScore {S D : Type} (fom : IFigureOfMerit S D) (score : S) : Bool :=
  fom.isBetterThanScore score fom.m_acceptThreshold

/-- The body of `IFigureOfMerit::accept(IModel*)`. -/
def IFigureOfMerit.accept {S D : Type} (fom : IFigureOfMerit S D) (model : IModel S D) : Bool :=
  fom.acceptScore model.getScore

/-- The body of `IFigureOfMerit::isBetterThan(IModel*, IModel*)`. -/
def IFigureOfMerit.isBetterThan {S D : Type} (fom : IFigureOfMerit S D)
    (modelToTest referenceModel : IModel S D) : Bool :=
  fom.isBetterThanScore modelToTest.getScore referenceModel.getScore

/-- The constructor `IFigureOfMerit::IFigureOfMerit()` of a class that derives
from `IFigureOfMerit` by implementing `evaluate` only: the threshold is 0 and
the comparator is the one of the base class. -/
def IFigureOfMerit.construct {S D : Type} [Zero S] [LT S] [DecidableRel (fun a b : S => a < b)]
    (evaluate : IModel S D → S) : IFigureOfMerit S D where
  m_acceptThreshold := 0
  evaluate := evaluate
  isBetterThanScore := IFigureOfMerit.defaultIsBetterThan

/-- The body of `IFigureOfMerit::setAcceptThreshold`. -/
def IFigureOfMerit.setAcceptThreshold {S D : Type} (fom : IFigureOfMerit S D) (threshold : S) :
    IFigureOfMerit S D :=
  { fom with m_acceptThreshold := threshold }

/-- The body of `IFigureOfMerit::getAcceptThreshold`. -/
def IFigureOfMerit.getAcceptThreshold {S D : Type} (fom : IFigureOfMerit S D) : S :=
  fom.m_acceptThreshold

/-- A comparator is a strict weak order: irreflexive, transitive, and with a
transitive incomparability relation. -/
structure StrictWeakOrder {α : Type} (better : α → α → Bool) : Prop where
  irrefl : ∀ a, better a a = false
  trans : ∀ a b c, better a b = true → better b c = true → better a c = true
  incomp_trans : ∀ a b c, better a b = false → better b a = false →
    better b c = false → better c b = false → better a c = false ∧ better c a = false

/-! ## The exchange sort of `IPopulation::sort` -/

/-- The `for (int i = 1; i <= n-1; i++)` loop of `IPopulation::sort`, entered
at index `i` with `steps = n - i` iterations left; `newn` is the local variable
of that name. It returns the vector and `newn` at the exit of the loop. -/
def sortFor {α : Type} (better : α → α → Bool) : Nat → Nat → Nat → List α → List α × Nat
  | 0, _, newn, xs => (xs, newn)
  | steps + 1, i, newn, xs =>
    match xs[i]?, xs[i - 1]? with
    | some a, some b =>
      if better a b then sortFor better steps (i + 1) i ((xs.set i b).set (i - 1) a)
      else sortFor better steps (i + 1) newn xs
    | _, _ => sortFor better steps (i + 1) newn xs

/-- The `while (n > 0)` loop of `IPopulation::sort`. Every pass ends with
`newn <= n - 1`, so the first argument, an upper bound of `n`, is the
structural recursion argument; with `n <= bound` the loop is left only through
its own test `n > 0`. -/
def sortWhile {α : Type} (better : α → α → Bool) : Nat → Nat → List α → List α
  | 0, _, xs => xs
  | bound + 1, n, xs =>
    if n > 0 then sortWhile better bound (sortFor better (n - 1) 1 0 xs).2 (sortFor better (n - 1) 1 0 xs).1
    else xs


/-! ## The ROOT library -/

/-- The member functions of the generator class `TRandom3` that the code
calls, acting on a generator state of type `G`, and `sqrt` of the C library.
`Integer g imax` is `m_random->Integer(imax)`, `Uniform g a b` is
`m_random->Uniform(a, b)`, `Gaus g mean sigma` is `m_random->Gaus(mean, sigma)`;
each returns the value drawn and the state of the generator after the draw. -/
structure Externals (G S : Type) where
  Integer : G → Nat → Nat × G
  Uniform : G → S → S → S × G
  Gaus : G → S → S → S × G
  SetSeed : G → Int → G
  sqrt : S → S

/-- The state of a `TF1` formula object as far as the code observes it: the
parameter values, their limits `(pmin, pmax)`, and the function computed by
`EvalPar` from the parameter values and a point. -/
structure TF1 (S : Type) where
  fParams : List S
  fParLimits : List (S × S)
  fEval : List S → List S → S

/-- The call `formula->GetNpar()`. -/
def TF1.GetNpar {S : Type} (f : TF1 S) : Nat := f.fParams.length

/-- The call `formula->GetParameter(p)`. -/
def TF1.GetParameter {S : Type} [Zero S] (f : TF1 S) (p : Nat) : S := f.fParams.getD p 0

/-- The call `formula->SetParameter(p, value)`. -/
def TF1.SetParameter {S : Type} (f : TF1 S) (p : Nat) (value : S) : TF1 S :=
  { f with fParams := f.fParams.set p value }

/-- The call `formula->GetParLimits(p, pmin, pmax)`, returning `(pmin, pmax)`. -/
def TF1.GetParLimits {S : Type} [Zero S] (f : TF1 S) (p : Nat) : S × S := f.fParLimits.getD p (0, 0)

/-- The call `formula->EvalPar(x)`. -/
def TF1.EvalPar {S : Type} (f : TF1 S) (x : List S) : S := f.fEval f.fParams x

/-! ## IPopulation -/

/-- The member variables of `IPopulation`. `m_fom` is `none` for the null
pointer. A group of `m_parents` holds the individuals its pointers designate,
as they are when `crossOver` fills the buffer. -/
structure IPopulation (S D G : Type) where
  m_mutateRate : S
  m_sorted : Bool
  m_individuals : List (IModel S D)
  m_fom : Option (IFigureOfMerit S D)
  m_random : G
  m_scoreMean : S
  m_scoreRMS : S
  m_parents : List (List (IModel S D))

/-- The three pure virtual methods of `IPopulation`. A hook reads and writes
the individuals and the generator: `doInitialize n` and `doCrossOver parents`
map the vector of individuals and the generator state before the call to those
after it, `doMutate` does so for the model it is given. -/
structure Hooks (S D G : Type) where
  doInitialize : Int → List (IModel S D) → G → List (IModel S D) × G
  doCrossOver : List (List (IModel S D)) → List (IModel S D) → G → List (IModel S D) × G
  doMutate : IModel S D → G → IModel S D × G

section Population

variable {S D G : Type}

/-- The body of `IPopulation::size`. -/
def IPopulation.size (p : IPopulation S D G) : Nat := p.m_individuals.length

/-- The body of `IPopulation::setFigureOfMerit`. -/
def IPopulation.setFigureOfMerit (p : IPopulation S D G) (fom : Option (IFigureOfMerit S D)) :
    IPopulation S D G :=
  { p with m_fom := fom }

/-- The body of `IPopulation::getFigureOfMerit`. -/
def IPopulation.getFigureOfMerit (p : IPopulation S D G) : Option (IFigureOfMerit S D) := p.m_fom

/-- The body of `IPopulation::checkFigureOfMerit`. -/
def IPopulation.checkFigureOfMerit (p : IPopulation S D G) : Except Error Unit :=
  match p.m_fom with
  | none => Except.error Error.figureOfMeritNotAssigned
  | some _ => Except.ok ()

/-- The body of `IPopulation::sort`: the outcome of the call and the
population after it. -/
def IPopulation.sort (p : IPopulation S D G) : Except Error Unit × IPopulation S D G :=
  if p.m_sorted then (Except.ok (), p)
  else
    match p.m_fom with
    | none => (Except.error Error.figureOfMeritNotAssigned, p)
    | some fom =>
      if p.size ≤ 1 then (Except.ok (), { p with m_sorted := true })
      else
        (Except.ok (),
          { p with
            m_sorted := true
            m_individuals := sortWhile fom.isBetterThan p.size p.size p.m_individuals })

/-- The body of `IPopulation::initialize(n)`. -/
def IPopulation.initializeN (hooks : Hooks S D G) (p : IPopulation S D G) (n : Int) :
    IPopulation S D G :=
  { p with
    m_individuals := (hooks.doInitialize n p.m_individuals p.m_random).1
    m_random := (hooks.doInitialize n p.m_individuals p.m_random).2
    m_sorted := false }

/-- The `for` loop of `IPopulation::score`, over the individuals not yet
visited; the accumulators are `m_scoreMean` and `m_scoreRMS`. -/
def scoreFor [Add S] [Mul S] (fom : IFigureOfMerit S D) :
    List (IModel S D) → S → S → List (IModel S D) × S × S
  | [], mean, rms => ([], mean, rms)
  | m :: rest, mean, rms =>
    let score := fom.evaluate m
    let r := scoreFor fom rest (mean + score) (rms + score * score)
    (m.setScore score :: r.1, r.2.1, r.2.2)

/-- The body of `IPopulation::score`. -/
def IPopulation.score [Zero S] [Add S] [Sub S] [Mul S] [Div S] [NatCast S] [LT S]
    [DecidableRel (fun a b : S => a < b)] (ext : Externals G S) (p : IPopulation S D G) :
    Except Error Unit × IPopulation S D G :=
  match p.m_fom with
  | none => (Except.error Error.figureOfMeritNotAssigned, p)
  | some fom =>
    if p.size = 0 then (Except.ok (), p)
    else
      let r := scoreFor fom p.m_individuals 0 0
      let mean := r.2.1 / (p.size : S)
      let rms := r.2.2 / (p.size : S) - mean * mean
      let rms := if rms < 0 then 0 else rms
      IPopulation.sort
        { p with m_individuals := r.1, m_scoreMean := mean, m_scoreRMS := ext.sqrt rms }

/-- The body of `IPopulation::getBestFitted(rank)`: the outcome of the call,
the model returned when there is one, and the population after it. -/
def IPopulation.getBestFitted (p : IPopulation S D G) (rank : Int) :
    Except Error (IModel S D) × IPopulation S D G :=
  if rank < 0 ∨ rank ≥ (p.size : Int) then (Except.error Error.rankOutOfRange, p)
  else
    match p.sort with
    | (Except.error e, p1) => (Except.error e, p1)
    | (Except.ok _, p1) =>
      match p1.m_individuals[rank.toNat]? with
      | some m => (Except.ok m, p1)
      | none => (Except.error Error.indexOutOfRange, p1)

/-- The first `do ... while` loop of `IPopulation::selectParents`, run for at
most `fuel` iterations on a population of size `n`: the last `(f1, p1)` drawn
and the generator state. -/
def selectFirst (ext : Externals G S) (n : Nat) : Nat → G → Except Error (Nat × Nat) × G
  | 0, g => (Except.error Error.outOfFuel, g)
  | fuel + 1, g =>
    let f1 := ext.Integer g n
    let p1 := ext.Integer f1.2 n
    if p1.1 > f1.1 then selectFirst ext n fuel p1.2 else (Except.ok (f1.1, p1.1), p1.2)

/-- The second `do ... while` loop of `IPopulation::selectParents`: the last
`(f2, p2)` drawn and the generator state. -/
def selectSecond (ext : Externals G S) (n p1 : Nat) : Nat → G → Except Error (Nat × Nat) × G
  | 0, g => (Except.error Error.outOfFuel, g)
  | fuel + 1, g =>
    let f2 := ext.Integer g n
    let p2 := ext.Integer f2.2 n
    if p1 = p2.1 ∨ p2.1 > f2.1 then selectSecond ext n p1 fuel p2.2
    else (Except.ok (f2.1, p2.1), p2.2)

/-- The body of `IPopulation::selectParents` with its local variables: the
values of `((f1, p1), (f2, p2))` at the exit and the generator state. -/
def selectParentsLocals (ext : Externals G S) (n fuel : Nat) (g : G) :
    Except Error ((Nat × Nat) × (Nat × Nat)) × G :=
  match selectFirst ext n fuel g with
  | (Except.error e, g1) => (Except.error e, g1)
  | (Except.ok fp1, g1) =>
    match selectSecond ext n fp1.2 fuel g1 with
    | (Except.error e, g2) => (Except.error e, g2)
    | (Except.ok fp2, g2) => (Except.ok (fp1, fp2), g2)

/-- The call `selectParents(p1, p2)`: the pair `(p1, p2)` and the generator
state. The method is virtual; no class of the repository overrides it, so
`crossOver` calls this body. -/
def IPopulation.selectParents (ext : Externals G S) (n fuel : Nat) (g : G) :
    Except Error (Nat × Nat) × G :=
  match selectParentsLocals ext n fuel g with
  | (Except.error e, g1) => (Except.error e, g1)
  | (Except.ok r, g1) => (Except.ok (r.1.2, r.2.2), g1)

/-- The `for` loop of `IPopulation::crossOver` that fills `m_parents`, entered
at slot `i` with `steps = size() - i` slots left: the groups of the slots from
`i` on and the generator state. -/
def parentsFor (ext : Externals G S) (fuel : Nat) (individuals : List (IModel S D)) :
    Nat → Nat → G → Except Error (List (List (IModel S D))) × G
  | 0, _, g => (Except.ok [], g)
  | steps + 1, i, g =>
    if i = 0 then
      match individuals[0]? with
      | none => (Except.error Error.indexOutOfRange, g)
      | some best =>
        match parentsFor ext fuel individuals steps (i + 1) g with
        | (Except.error e, g1) => (Except.error e, g1)
        | (Except.ok groups, g1) => (Except.ok ([best] :: groups), g1)
    else
      match IPopulation.selectParents ext individuals.length fuel g with
      | (Except.error e, g1) => (Except.error e, g1)
      | (Except.ok p12, g1) =>
        match individuals[p12.1]?, individuals[p12.2]? with
        | some parent1, some parent2 =>
          match parentsFor ext fuel individuals steps (i + 1) g1 with
          | (Except.error e, g2) => (Except.error e, g2)
          | (Except.ok groups, g2) => (Except.ok ([parent1, parent2] :: groups), g2)
        | _, _ => (Except.error Error.indexOutOfRange, g1)

/-- The body of `IPopulation::crossOver`. -/
def IPopulation.crossOver (ext : Externals G S) (hooks : Hooks S D G) (fuel : Nat)
    (p : IPopulation S D G) : Except Error Unit × IPopulation S D G :=
  match p.sort with
  | (Except.error e, p1) => (Except.error e, p1)
  | (Except.ok _, p1) =>
    match parentsFor ext fuel p1.m_individuals p1.size 0 p1.m_random with
    | (Except.error e, g) => (Except.error e, { p1 with m_random := g })
    | (Except.ok groups, g) =>
      (Except.ok (),
        { p1 with
          m_parents := groups
          m_individuals := (hooks.doCrossOver groups p1.m_individuals g).1
          m_random := (hooks.doCrossOver groups p1.m_individuals g).2
          m_sorted := false })

/-- The `for` loop of `IPopulation::mutate`, over the individuals not yet
visited. -/
def mutateFor [Zero S] [One S] [LT S] [DecidableRel (fun a b : S => a < b)]
    (ext : Externals G S) (hooks : Hooks S D G) (m_mutateRate : S) :
    List (IModel S D) → G → List (IModel S D) × G
  | [], g => ([], g)
  | m :: rest, g =>
    let f := ext.Uniform g 0 1
    if f.1 < m_mutateRate then
      let r := hooks.doMutate m f.2
      ((r.1 :: (mutateFor ext hooks m_mutateRate rest r.2).1),
        (mutateFor ext hooks m_mutateRate rest r.2).2)
    else
      ((m :: (mutateFor ext hooks m_mutateRate rest f.2).1),
        (mutateFor ext hooks m_mutateRate rest f.2).2)

/-- The body of `IPopulation::mutate`. -/
def IPopulation.mutate [Zero S] [One S] [LT S] [DecidableRel (fun a b : S => a < b)]
    (ext : Externals G S) (hooks : Hooks S D G) (p : IPopulation S D G) : IPopulation S D G :=
  { p with
    m_individuals := (mutateFor ext hooks p.m_mutateRate p.m_individuals p.m_random).1
    m_random := (mutateFor ext hooks p.m_mutateRate p.m_individuals p.m_random).2
    m_sorted := false }

/-- The body of `IPopulation::setMutateRate`: the outcome of the call and the
population after it. -/
def IPopulation.setMutateRate [Zero S] [One S] [LT S] [DecidableRel (fun a b : S => a < b)]
    (p : IPopulation S D G) (rate : S) : Except Error Unit × IPopulation S D G :=
  if rate < 0 ∨ rate > 1 then (Except.error Error.rateOutOfRange, p)
  else (Except.ok (), { p with m_mutateRate := rate })

/-- The body of `IPopulation::setRandomSeed`. -/
def IPopulation.setRandomSeed (ext : Externals G S) (p : IPopulation S D G) (seed : Int) :
    IPopulation S D G :=
  { p with m_random := ext.SetSeed p.m_random seed }

/-- The body of `IPopulation::getScoreMean`. -/
def IPopulation.getScoreMean (p : IPopulation S D G) : S := p.m_scoreMean

/-- The body of `IPopulation::getScoreRMS`. -/
def IPopulation.getScoreRMS (p : IPopulation S D G) : S := p.m_scoreRMS

/-- The body of `IPopulation::clear`. -/
def IPopulation.clear (p : IPopulation S D G) : IPopulation S D G :=
  { p with m_individuals := [] }

end Population

/-! ## ParametricModelPopulation -/

/-- The member variables that `ParametricModelPopulation` adds to
`IPopulation`. Its individuals are `ParametricModel`s, that is `IModel`s whose
derived part is the formula they own, so the `dynamic_cast`s of the hooks
succeed. -/
structure ParametricModelPopulation (S : Type) where
  m_formula : TF1 S
  m_mutationSize : S

section Parametric

variable {S G : Type}

/-- The loop over the parameters in `ParametricModelPopulation::doInitialize`,
entered at parameter `p` with `steps = GetNpar() - p` parameters left. -/
def initializeParameters [Zero S] [LT S] [DecidableRel (fun a b : S => a < b)]
    (ext : Externals G S) : Nat → Nat → TF1 S → G → TF1 S × G
  | 0, _, formula, g => (formula, g)
  | steps + 1, p, formula, g =>
    let lim := formula.GetParLimits p
    if lim.1 < lim.2 then
      let par := ext.Uniform g lim.1 lim.2
      initializeParameters ext steps (p + 1) (formula.SetParameter p par.1) par.2
    else initializeParameters ext steps (p + 1) formula g

/-- The loop over the individuals in `ParametricModelPopulation::doInitialize`
with `count` individuals still to create. A new `ParametricModel` has score 0
and owns a clone of the formula of the population. -/
def doInitializeFor [Zero S] [LT S] [DecidableRel (fun a b : S => a < b)]
    (ext : Externals G S) (m_formula : TF1 S) : Nat → G → List (IModel S (TF1 S)) × G
  | 0, g => ([], g)
  | count + 1, g =>
    let model := initializeParameters ext m_formula.GetNpar 0 m_formula g
    let rest := doInitializeFor ext m_formula count model.2
    ({ m_score := 0, derived := model.1 } :: rest.1, rest.2)

/-- The body of `ParametricModelPopulation::doInitialize`: `clear()`, then the
loop. -/
def ParametricModelPopulation.doInitialize [Zero S] [LT S] [DecidableRel (fun a b : S => a < b)]
    (ext : Externals G S) (self : ParametricModelPopulation S) (n : Int)
    (_individuals : List (IModel S (TF1 S))) (g : G) : List (IModel S (TF1 S)) × G :=
  doInitializeFor ext self.m_formula n.toNat g

/-- The loop of `doCrossOver` for a group of one parent, entered at parameter
`p` with `steps` parameters left: the values pushed to `offspring`. -/
def copyGenes [Zero S] (formula : TF1 S) : Nat → Nat → List S
  | 0, _ => []
  | steps + 1, p => formula.GetParameter p :: copyGenes formula steps (p + 1)

/-- The loop of `doCrossOver` for a group of two parents. -/
def mixGenes [Zero S] (ext : Externals G S) (formula1 formula2 : TF1 S) :
    Nat → Nat → G → List S × G
  | 0, _, g => ([], g)
  | steps + 1, p, g =>
    let coin := ext.Integer g 2
    let rest := mixGenes ext formula1 formula2 steps (p + 1) coin.2
    ((if coin.1 ≠ 0 then formula1.GetParameter p else formula2.GetParameter p) :: rest.1, rest.2)

/-- The body of the first loop of `doCrossOver` for one slot: the vector
`offspring` computed from the parent group of the slot. -/
def offspringOf [Zero S] (ext : Externals G S) (group : List (IModel S (TF1 S))) (g : G) :
    List S × G :=
  match group with
  | [parent] => (copyGenes parent.derived parent.derived.GetNpar 0, g)
  | [parent1, parent2] => mixGenes ext parent1.derived parent2.derived parent1.derived.GetNpar 0 g
  | _ => ([], g)

/-- The first loop of `doCrossOver`, with `steps` slots left and the parent
groups of those slots: the vectors pushed to `offspringGenes`. -/
def offspringGenesFor [Zero S] (ext : Externals G S) :
    Nat → List (List (IModel S (TF1 S))) → G → List (List S) × G
  | 0, _, g => ([], g)
  | _ + 1, [], g => ([], g)
  | steps + 1, group :: parents, g =>
    let offspring := offspringOf ext group g
    let rest := offspringGenesFor ext steps parents offspring.2
    (offspring.1 :: rest.1, rest.2)

/-- The inner loop of the second loop of `doCrossOver`: `SetParameter(p, ...)`
for the genes from index `p` on. -/
def setGenes : Nat → List S → TF1 S → TF1 S
  | _, [], formula => formula
  | p, value :: genes, formula => setGenes (p + 1) genes (formula.SetParameter p value)

/-- The second loop of `doCrossOver`, over the individuals and the vectors of
`offspringGenes` not yet visited. -/
def applyOffspring : List (IModel S (TF1 S)) → List (List S) → List (IModel S (TF1 S))
  | [], _ => []
  | models, [] => models
  | model :: models, genes :: offspringGenes =>
    { model with derived := setGenes 0 genes model.derived } :: applyOffspring models offspringGenes

/-- The body of `ParametricModelPopulation::doCrossOver`. -/
def ParametricModelPopulation.doCrossOver [Zero S] (ext : Externals G S)
    (parents : List (List (IModel S (TF1 S)))) (individuals : List (IModel S (TF1 S))) (g : G) :
    List (IModel S (TF1 S)) × G :=
  let offspringGenes := offspringGenesFor ext individuals.length parents g
  (applyOffspring individuals offspringGenes.1, offspringGenes.2)

/-- The body of `ParametricModelPopulation::doMutate`. -/
def ParametricModelPopulation.doMutate [Zero S] [Add S] [Mul S] [LT S]
    [DecidableRel (fun a b : S => a < b)] [DecidableEq S]
    (ext : Externals G S) (self : ParametricModelPopulation S) (model : IModel S (TF1 S)) (g : G) :
    IModel S (TF1 S) × G :=
  let p := ext.Integer g model.derived.GetNpar
  let lim := model.derived.GetParLimits p.1
  if lim.1 < lim.2 then
    let par := model.derived.GetParameter p.1
    let noise := ext.Gaus p.2 0 (if par = 0 then self.m_mutationSize else par * self.m_mutationSize)
    ({ model with derived := model.derived.SetParameter p.1 (par + noise.1) }, noise.2)
  else (model, p.2)

/-- The virtual methods of a `ParametricModelPopulation`. -/
def ParametricModelPopulation.hooks [Zero S] [Add S] [Mul S] [LT S]
    [DecidableRel (fun a b : S => a < b)] [DecidableEq S]
    (ext : Externals G S) (self : ParametricModelPopulation S) : Hooks S (TF1 S) G where
  doInitialize := ParametricModelPopulation.doInitialize ext self
  doCrossOver := ParametricModelPopulation.doCrossOver ext
  doMutate := ParametricModelPopulation.doMutate ext self

end Parametric

/-! ## Chi2FitFigureOfMerit -/

/-- The member variables of `Chi2FitFigureOfMerit`: the threshold inherited
from `IFigureOfMerit` and the three vectors of the data points. -/
structure Chi2FitFigureOfMerit (S : Type) where
  m_acceptThreshold : S
  m_x : List (List S)
  m_y : List S
  m_ey : List S

section Chi2

variable {S : Type}

/-- The constructor `Chi2FitFigureOfMerit::Chi2FitFigureOfMerit()`. -/
def Chi2FitFigureOfMerit.construct [OfScientific S] : Chi2FitFigureOfMerit S where
  m_acceptThreshold := 0.1
  m_x := []
  m_y := []
  m_ey := []

/-- The body of `Chi2FitFigureOfMerit::addData`. -/
def Chi2FitFigureOfMerit.addData (self : Chi2FitFigureOfMerit S) (x : List S) (y ey : S) :
    Chi2FitFigureOfMerit S :=
  { self with m_x := self.m_x ++ [x], m_y := self.m_y ++ [y], m_ey := self.m_ey ++ [ey] }

/-- The body of `Chi2FitFigureOfMerit::clearData`. -/
def Chi2FitFigureOfMerit.clearData (self : Chi2FitFigureOfMerit S) : Chi2FitFigureOfMerit S :=
  { self with m_x := [], m_y := [], m_ey := [] }

/-- The `for` loop of `Chi2FitFigureOfMerit::evaluate` over the data points not
yet visited; the accumulators are the locals `chi2` and `ndf`. -/
def chi2For [Zero S] [Add S] [Sub S] [Mul S] [Div S] [DecidableEq S] (formula : TF1 S) :
    List (List S) → List S → List S → S → Nat → S × Nat
  | x :: xs, y :: ys, ey :: eys, chi2, ndf =>
    if y = 0 then chi2For formula xs ys eys chi2 ndf
    else
      chi2For formula xs ys eys
        (chi2 + (formula.EvalPar x - y) * (formula.EvalPar x - y) / (ey * ey)) (ndf + 1)
  | _, _, _, chi2, ndf => (chi2, ndf)

/-- The body of `Chi2FitFigureOfMerit::evaluate` on a `ParametricModel`. -/
def Chi2FitFigureOfMerit.evaluate [Zero S] [Add S] [Sub S] [Mul S] [Div S] [NatCast S]
    [DecidableEq S] (self : Chi2FitFigureOfMerit S) (imodel : IModel S (TF1 S)) : S :=
  if self.m_x.length = 0 then 0
  else
    (chi2For imodel.derived self.m_x self.m_y self.m_ey 0 0).1
      / ((chi2For imodel.derived self.m_x self.m_y self.m_ey 0 0).2 : S)

/-- The chi-square per degree of freedom as the documentation of the class
`Chi2FitFigureOfMerit` defines it: `1/N` times the sum over all `N` data points
of `(y_i - f(x_i))^2 / sigma_i^2`. -/
def Chi2FitFigureOfMerit.documentedChi2 [Zero S] [One S] [Add S] [Sub S] [Mul S] [Div S]
    [NatCast S] (self : Chi2FitFigureOfMerit S) (imodel : IModel S (TF1 S)) : S :=
  1 / (self.m_x.length : S) *
    ((self.m_x.zip (self.m_y.zip self.m_ey)).map
      (fun pt => (pt.2.1 - imodel.derived.EvalPar pt.1) * (pt.2.1 - imodel.derived.EvalPar pt.1)
        / (pt.2.2 * pt.2.2))).sum

/-- A `Chi2FitFigureOfMerit` seen through the interface `IFigureOfMerit`: its
`evaluate` and its `isBetterThan(double, double)` override the base class. -/
def Chi2FitFigureOfMerit.toFigureOfMerit [Zero S] [Add S] [Sub S] [Mul S] [Div S] [NatCast S]
    [DecidableEq S] [LT S] [DecidableRel (fun a b : S => a < b)]
    (self : Chi2FitFigureOfMerit S) : IFigureOfMerit S (TF1 S) where
  m_acceptThreshold := self.m_acceptThreshold
  evaluate := self.evaluate
  isBetterThanScore := Chi2FitFigureOfMerit.isBetterThan

end Chi2

/-! ## GeneticAlgorithm -/

/-- The member variables of `GeneticAlgorithm`. The population is an object of
the caller, so the member functions take and return it next to the algorithm
object; `m_population` records whether the pointer has been bound to it. -/
structure GeneticAlgorithm where
  m_generationsMax : Int
  m_populationSize : Int
  m_currentGeneration : Int
  m_population : Bool

section Algorithm

variable {S D G : Type} [Zero S] [One S] [Add S] [Sub S] [Mul S] [Div S] [NatCast S] [LT S]
  [DecidableRel (fun a b : S => a < b)]

/-- The body of `GeneticAlgorithm::setNGenerationsMax`. -/
def GeneticAlgorithm.setNGenerationsMax (ga : GeneticAlgorithm) (generationsMax : Int) :
    GeneticAlgorithm :=
  { ga with m_generationsMax := generationsMax }

/-- The body of `GeneticAlgorithm::setPopulationSize`. -/
def GeneticAlgorithm.setPopulationSize (ga : GeneticAlgorithm) (populationSize : Int) :
    GeneticAlgorithm :=
  { ga with m_populationSize := populationSize }

/-- The body of `GeneticAlgorithm::getCurrentGeneration`. -/
def GeneticAlgorithm.getCurrentGeneration (ga : GeneticAlgorithm) : Int := ga.m_currentGeneration

/-- The body of `GeneticAlgorithm::initialize`. -/
def GeneticAlgorithm.initializeRun (ext : Externals G S) (hooks : Hooks S D G)
    (ga : GeneticAlgorithm) (population : IPopulation S D G) :
    Except Error Unit × GeneticAlgorithm × IPopulation S D G :=
  match (population.initializeN hooks ga.m_populationSize).score ext with
  | (Except.error e, p) => (Except.error e, ga, p)
  | (Except.ok _, p) => (Except.ok (), { ga with m_currentGeneration := 0, m_population := true }, p)

/-- The body of `GeneticAlgorithm::nextGeneration`, applied to the algorithm
object and the population it points to. -/
def GeneticAlgorithm.nextGeneration (ext : Externals G S) (hooks : Hooks S D G) (fuel : Nat)
    (ga : GeneticAlgorithm) (population : IPopulation S D G) :
    Except Error Bool × GeneticAlgorithm × IPopulation S D G :=
  if ga.m_population = false then (Except.error Error.unboundPopulation, ga, population)
  else
    match population.getBestFitted 0 with
    | (Except.error e, p) => (Except.error e, ga, p)
    | (Except.ok best, p) =>
      match p.getFigureOfMerit with
      | none => (Except.error Error.figureOfMeritNotAssigned, ga, p)
      | some fom =>
        if fom.accept best then (Except.ok false, ga, p)
        else if ga.m_currentGeneration > ga.m_generationsMax then (Except.ok false, ga, p)
        else
          match p.crossOver ext hooks fuel with
          | (Except.error e, p1) =>
            (Except.error e, { ga with m_currentGeneration := ga.m_currentGeneration + 1 }, p1)
          | (Except.ok _, p1) =>
            match (p1.mutate ext hooks).score ext with
            | (Except.error e, p2) =>
              (Except.error e, { ga with m_currentGeneration := ga.m_currentGeneration + 1 }, p2)
            | (Except.ok _, p2) =>
              (Except.ok true, { ga with m_currentGeneration := ga.m_currentGeneration + 1 }, p2)

/-- The loop `while(nextGeneration());` of `GeneticAlgorithm::optimize`, run
for at most `fuel` calls. -/
def optimizeWhile (ext : Externals G S) (hooks : Hooks S D G) (fuel : Nat) :
    Nat → GeneticAlgorithm → IPopulation S D G →
      Except Error Unit × GeneticAlgorithm × IPopulation S D G
  | 0, ga, population => (Except.error Error.outOfFuel, ga, population)
  | calls + 1, ga, population =>
    match GeneticAlgorithm.nextGeneration ext hooks fuel ga population with
    | (Except.error e, ga1, p1) => (Except.error e, ga1, p1)
    | (Except.ok true, ga1, p1) => optimizeWhile ext hooks fuel calls ga1 p1
    | (Except.ok false, ga1, p1) => (Except.ok (), ga1, p1)

/-- The body of `GeneticAlgorithm::optimize`. -/
def GeneticAlgorithm.optimize (ext : Externals G S) (hooks : Hooks S D G) (fuel : Nat)
    (ga : GeneticAlgorithm) (population : IPopulation S D G) :
    Except Error (IModel S D) × GeneticAlgorithm × IPopulation S D G :=
  match GeneticAlgorithm.initializeRun ext hooks ga population with
  | (Except.error e, ga1, p1) => (Except.error e, ga1, p1)
  | (Except.ok _, ga1, p1) =>
    match optimizeWhile ext hooks fuel fuel ga1 p1 with
    | (Except.error e, ga2, p2) => (Except.error e, ga2, p2)
    | (Except.ok _, ga2, p2) =>
      match p2.getBestFitted 0 with
      | (Except.error e, p3) => (Except.error e, ga2, p3)
      | (Except.ok best, p3) => (Except.ok best, ga2, p3)

/-- The state reached by a caller that drives the loop by hand:
`initialize(population)` followed by `calls` calls of `nextGeneration()`. The
first component is the outcome of the last call (`true` after `initialize`). -/
def GeneticAlgorithm.generations (ext : Externals G S) (hooks : Hooks S D G) (fuel : Nat)
    (ga : GeneticAlgorithm) (population : IPopulation S D G) :
    Nat → Except Error Bool × GeneticAlgorithm × IPopulation S D G
  | 0 =>
    match GeneticAlgorithm.initializeRun ext hooks ga population with
    | (Except.error e, ga1, p1) => (Except.error e, ga1, p1)
    | (Except.ok _, ga1, p1) => (Except.ok true, ga1, p1)
  | calls + 1 =>
    match GeneticAlgorithm.generations ext hooks fuel ga population calls with
    | (Except.error e, ga1, p1) => (Except.error e, ga1, p1)
    | (Except.ok _, ga1, p1) => GeneticAlgorithm.nextGeneration ext hooks fuel ga1 p1

end Algorithm

/-! ## Concrete instances

A generator that reads its draws from a tape, a one-parameter formula and a
figure of merit over the integers, on which the definitions above can be run. -/

/-- The integer square root: the largest `r` with `r * r <= n`. -/
def isqrt (n : Nat) : Nat :=
  ((List.range (n + 1)).filter (fun r => r * r ≤ n)).length - 1

/-- A generator whose state is the list of the raw draws still to come:
`Integer(imax)` reduces the next raw draw modulo `imax`, `Uniform(a, b)` maps
it into `[a, b)`, `Gaus(mean, sigma)` returns `mean + sigma * (raw - 2)`. -/
def tapeExternals : Externals (List Nat) Int where
  Integer := fun g imax => ((g.headD 0) % imax, g.tail)
  Uniform := fun g a b => (a + (g.headD 0 : Int) % (b - a), g.tail)
  Gaus := fun g mean sigma => (mean + sigma * ((g.headD 0 : Int) - 2), g.tail)
  SetSeed := fun g _ => g
  sqrt := fun x => (isqrt x.toNat : Int)

/-- The formula `f(x) = [0]` with one parameter of limits `(0, 10)`. -/
def constantFormula : TF1 Int where
  fParams := [0]
  fParLimits := [(0, 10)]
  fEval := fun params _ => params.getD 0 0

/-- A figure of merit with the comparator of the base class and threshold
`100`: the score of a model is the value of its formula. -/
def valueFigureOfMerit : IFigureOfMerit Int (TF1 Int) where
  m_acceptThreshold := 100
  evaluate := fun model => model.derived.EvalPar []
  isBetterThanScore := IFigureOfMerit.defaultIsBetterThan

/-- A `ParametricModelPopulation` over `constantFormula`. -/
def constantPopulation : ParametricModelPopulation Int where
  m_formula := constantFormula
  m_mutationSize := 1

/-- An empty population reading the generator tape `tape`, with
`valueFigureOfMerit` set and the mutation rate `rate`. -/
def emptyPopulation (tape : List Nat) (rate : Int) : IPopulation Int (TF1 Int) (List Nat) where
  m_mutateRate := rate
  m_sorted := false
  m_individuals := []
  m_fom := some valueFigureOfMerit
  m_random := tape
  m_scoreMean := 0
  m_scoreRMS := 0
  m_parents := []

/-- A model of score `score` whose formula is `constantFormula` with the
parameter set to `par`. -/
def constantModel (score par : Int) : IModel Int (TF1 Int) where
  m_score := score
  derived := constantFormula.SetParameter 0 par

/-- The population after `initialize(2); getBestFitted(0)` on
`emptyPopulation [1, 2] 0`. -/
def rankedBeforeScoring : IPopulation Int (TF1 Int) (List Nat) :=
  (((emptyPopulation [1, 2] 0).initializeN
    (constantPopulation.hooks tapeExternals) 2).getBestFitted 0).2

/-- A population of three models of scores `1, 3, 2`, flagged unsorted. -/
def unsortedPopulation : IPopulation Int (TF1 Int) (List Nat) :=
  { emptyPopulation [] 0 with
    m_individuals := [constantModel 1 1, constantModel 3 3, constantModel 2 2] }

/-- The population `unsortedPopulation` with the generator tape `tape` and the
mutation rate `rate`. -/
def tapePopulation (tape : List Nat) (rate : Int) : IPopulation Int (TF1 Int) (List Nat) :=
  { unsortedPopulation with m_random := tape, m_mutateRate := rate }

/-- The virtual methods of `constantPopulation` on the tape generator. -/
def constantHooks : Hooks Int (TF1 Int) (List Nat) := constantPopulation.hooks tapeExternals

/-- A `GeneticAlgorithm` object after `setNGenerationsMax(generationsMax)` and
`setPopulationSize(populationSize)`, before `initialize`. -/
def configured (generationsMax populationSize : Int) : GeneticAlgorithm where
  m_generationsMax := generationsMax
  m_populationSize := populationSize
  m_currentGeneration := 0
  m_population := false

/-- A run on one individual with mutation rate 1: `initialize` draws the
parameter 5, and the mutation of the first generation adds the noise `-10`. -/
def mutatingRun (calls : Nat) :
    Except Error Bool × GeneticAlgorithm × IPopulation Int (TF1 Int) (List Nat) :=
  GeneticAlgorithm.generations tapeExternals constantHooks 2 (configured 10 1)
    (emptyPopulation [5, 0, 0, 0] 1) calls

/-- A run on two individuals with mutation rate 0: `initialize` draws the
parameters 3 and 7, and the other draws serve the first generation. -/
def elitistRun (generationsMax : Int) (calls : Nat) :
    Except Error Bool × GeneticAlgorithm × IPopulation Int (TF1 Int) (List Nat) :=
  GeneticAlgorithm.generations tapeExternals constantHooks 2 (configured generationsMax 2)
    (emptyPopulation [3, 7, 1, 0, 1, 1, 1, 0, 0] 0) calls

/-- A run with `setPopulationSize(0)`: the population stays empty. -/
def emptyRun (generationsMax : Int) (calls : Nat) :
    Except Error Bool × GeneticAlgorithm × IPopulation Int (TF1 Int) (List Nat) :=
  GeneticAlgorithm.generations tapeExternals constantHooks 2 (configured generationsMax 0)
    (emptyPopulation [] 0) calls

/-- The tape generator over the rationals, with the rational square root
(exact on squares of rationals). -/
def rationalExternals : Externals (List Nat) ℚ where
  Integer := fun g imax => ((g.headD 0) % imax, g.tail)
  Uniform := fun g a b => (a + (b - a) * ((g.headD 0 % 10 : Nat) : ℚ) / 10, g.tail)
  Gaus := fun g mean sigma => (mean + sigma * (((g.headD 0 : Nat) : ℚ) - 2), g.tail)
  SetSeed := fun g _ => g
  sqrt := Rat.sqrt

/-- A population of two models whose derived part is a rational number, `1`
and `3`, with a figure of merit of the base class that scores a model by that
number. -/
def rationalPopulation : IPopulation ℚ ℚ (List Nat) where
  m_mutateRate := 0
  m_sorted := false
  m_individuals := [{ m_score := 0, derived := 1 }, { m_score := 0, derived := 3 }]
  m_fom := some (IFigureOfMerit.construct (fun m => m.derived))
  m_random := []
  m_scoreMean := 0
  m_scoreRMS := 0
  m_parents := []

/-- A model of score 0 whose formula is `f(x) = x[0]`, without parameters. -/
def identityModel : IModel ℚ (TF1 ℚ) where
  m_score := 0
  derived := { fParams := [], fParLimits := [], fEval := fun _ x => x.headD 0 }

/-- The data points `(x, y, sigma) = ([2], 1, 1)` and `([0], 1, 1)`: the model
`identityModel` predicts `2` and `0` where `y` is `1`. -/
def twoPoints : Chi2FitFigureOfMerit ℚ :=
  (Chi2FitFigureOfMerit.construct.addData [2] 1 1).addData [0] 1 1

/-- The data points `([1], 0, 1)` and `([3], 1, 1)`: the first has `y = 0`. -/
def zeroPoint : Chi2FitFigureOfMerit ℚ :=
  (Chi2FitFigureOfMerit.construct.addData [1] 0 1).addData [3] 1 1

/-! ## Counting the draws of the first rejection loop

`Integer(n)` is uniform on `[0, n)` and the draws are independent, so all the
sequences of `2 * m` draws below `n` are equally likely; probabilities of
events decided by the first `m` iterations of a loop are ratios of counts of
such sequences. -/

/-- All the pairs `(f1, p1)` of draws below `n`. -/
def drawPairs (n : Nat) : List (Nat × Nat) :=
  (List.range n).flatMap (fun f => (List.range n).map (fun p => (f, p)))

/-- All the tapes of `m` pairs of draws below `n`. -/
def drawTapes (n : Nat) : Nat → List (List Nat)
  | 0 => [[]]
  | m + 1 => (drawPairs n).flatMap (fun fp => (drawTapes n m).map (fun rest => fp.1 :: fp.2 :: rest))

/-- The `p1` that the first loop of `selectParents` returns when the generator
reads the tape `tape`, if it returns within `fuel` iterations. -/
def firstParentOn (n fuel : Nat) (tape : List Nat) : Option Nat :=
  match (selectFirst tapeExternals n fuel tape).1 with
  | Except.ok fp => some fp.2
  | Except.error _ => none

/-- The number of tapes of `m` pairs of draws on which the first loop of
`selectParents` returns `p1 = k` within `m` iterations. -/
def countFirstParent (n m k : Nat) : Nat :=
  (drawTapes n m).countP (fun tape => decide (firstParentOn n m tape = some k))

/-- The number of tapes of `m` pairs of draws on which the first loop of
`selectParents` returns within `m` iterations. -/
def countReturned (n m : Nat) : Nat :=
  (drawTapes n m).countP (fun tape => (firstParentOn n m tape).isSome)

/-- The data points `([1], 0, 1)` and `([3], 0, 1)`: every point has `y = 0`. -/
def zeroPoints : Chi2FitFigureOfMerit ℚ :=
  (Chi2FitFigureOfMerit.construct.addData [1] 0 1).addData [3] 0 1

/-! ## The calls made on the generator -/

/-- A call on the generator `TRandom3`, with its arguments. -/
inductive Draw (S : Type) where
  | integer (imax : Nat)
  | uniform (a b : S)
  | gaus (mean sigma : S)
  deriving DecidableEq, Repr

/-- The generator `ext` with a record of the draws: the state is the state of
`ext` together with the list of the calls `Integer`, `Uniform` and `Gaus` made
so far, oldest first. The values drawn are those of `ext`. -/
def Externals.recording {G S : Type} (ext : Externals G S) : Externals (G × List (Draw S)) S where
  Integer := fun g imax =>
    ((ext.Integer g.1 imax).1, (ext.Integer g.1 imax).2, g.2 ++ [Draw.integer imax])
  Uniform := fun g a b =>
    ((ext.Uniform g.1 a b).1, (ext.Uniform g.1 a b).2, g.2 ++ [Draw.uniform a b])
  Gaus := fun g mean sigma =>
    ((ext.Gaus g.1 mean sigma).1, (ext.Gaus g.1 mean sigma).2, g.2 ++ [Draw.gaus mean sigma])
  SetSeed := fun g seed => (ext.SetSeed g.1 seed, g.2)
  sqrt := ext.sqrt

/-! ## The macro `testParentSelection.C` -/

namespace TestParentSelection

variable {G S : Type}

/-- The first `do ... while` loop of the function
`selectParents(random, p1, p2, N)` of the macro, run for at most `fuel`
iterations: the last `(f1, p1)` drawn and the generator state. -/
def selectParentsFirst (ext : Externals G S) (N : Nat) : Nat → G → Except Error (Nat × Nat) × G
  | 0, random => (Except.error Error.outOfFuel, random)
  | fuel + 1, random =>
    let f1 := ext.Integer random N
    let p1 := ext.Integer f1.2 N
    if p1.1 > f1.1 then selectParentsFirst ext N fuel p1.2 else (Except.ok (f1.1, p1.1), p1.2)

/-- The second `do ... while` loop of the function `selectParents` of the
macro: the last `(f2, p2)` drawn and the generator state. -/
def selectParentsSecond (ext : Externals G S) (N p1 : Nat) :
    Nat → G → Except Error (Nat × Nat) × G
  | 0, random => (Except.error Error.outOfFuel, random)
  | fuel + 1, random =>
    let f2 := ext.Integer random N
    let p2 := ext.Integer f2.2 N
    if p1 = p2.1 ∨ p2.1 > f2.1 then selectParentsSecond ext N p1 fuel p2.2
    else (Except.ok (f2.1, p2.1), p2.2)

/-- The function `selectParents(random, p1, p2, N)` of the macro: the pair
`(p1, p2)` and the generator state. -/
def selectParents (ext : Externals G S) (N fuel : Nat) (random : G) :
    Except Error (Nat × Nat) × G :=
  match selectParentsFirst ext N fuel random with
  | (Except.error e, random1) => (Except.error e, random1)
  | (Except.ok fp1, random1) =>
    match selectParentsSecond ext N fp1.2 fuel random1 with
    | (Except.error e, random2) => (Except.error e, random2)
    | (Except.ok fp2, random2) => (Except.ok (fp1.2, fp2.2), random2)

end TestParentSelection

/-! ## The cost of the exchange sort -/

/-- The number of calls of `isBetterThan` made by the `for` loop of
`IPopulation::sort`, counted along `sortFor`: one call in each iteration. -/
def sortForCalls {α : Type} (better : α → α → Bool) : Nat → Nat → List α → Nat
  | 0, _, _ => 0
  | steps + 1, i, xs =>
    match xs[i]?, xs[i - 1]? with
    | some a, some b =>
      if better a b then sortForCalls better steps (i + 1) ((xs.set i b).set (i - 1) a) + 1
      else sortForCalls better steps (i + 1) xs + 1
    | _, _ => sortForCalls better steps (i + 1) xs

/-- The `while (n > 0)` loop of `IPopulation::sort` run for at most `bound`
passes, counted along `sortWhile`: `none` when the test `n > 0` still holds
after `bound` passes, otherwise the number of passes made and the number of
calls of `isBetterThan` made. -/
def sortWhileCount {α : Type} (better : α → α → Bool) : Nat → Nat → List α → Option (Nat × Nat)
  | 0, n, _ => if n > 0 then none else some (0, 0)
  | bound + 1, n, xs =>
    if n > 0 then
      match sortWhileCount better bound (sortFor better (n - 1) 1 0 xs).2
          (sortFor better (n - 1) 1 0 xs).1 with
      | some c => some (c.1 + 1, c.2 + sortForCalls better (n - 1) 1 xs)
      | none => none
    else some (0, 0)

/-- A comparator on models that is not transitive: `a` is better than `b` when
the score of `a` is the score of `b` plus one, modulo 3. -/
def cyclicBetter (a b : IModel Int (TF1 Int)) : Bool :=
  decide (a.m_score % 3 = (b.m_score + 1) % 3)

/-- Two elements of equal rank for the comparator `better`: neither is better
than the other. -/
def equalRank {α : Type} (better : α → α → Bool) (a b : α) : Bool :=
  !better a b && !better b a

/-- A population of four models of scores `1, 2, 1, 2`, whose parameters
`10, 20, 30, 40` tell the models of equal score apart, flagged unsorted. -/
def tiedPopulation : IPopulation Int (TF1 Int) (List Nat) :=
  { emptyPopulation [] 0 with
    m_individuals :=
      [constantModel 1 10, constantModel 2 20, constantModel 1 30, constantModel 2 40] }

/-- The formula `f(x) = [0] + [1] * x` with two parameters: the first of
limits `(0, 10)` and value 1, the second fixed (limits `(5, 5)`) of value 7. -/
def lineFormula : TF1 Int where
  fParams := [1, 7]
  fParLimits := [(0, 10), (5, 5)]
  fEval := fun params x => params.getD 0 0 + params.getD 1 0 * x.headD 0

/-- A `ParametricModelPopulation` over `lineFormula`. -/
def linePopulation : ParametricModelPopulation Int where
  m_formula := lineFormula
  m_mutationSize := 1

/-- A model of score `score` whose formula is `lineFormula` with the
parameters set to `a` and `b`. -/
def lineModel (score a b : Int) : IModel Int (TF1 Int) where
  m_score := score
  derived := (lineFormula.SetParameter 0 a).SetParameter 1 b

/-- The generator state that the loop over the parameters of one new
individual of `doInitialize` leaves, entered with the state `g`. -/
def nextIndividualState {S G : Type} [Zero S] [LT S] [DecidableRel (fun a b : S => a < b)]
    (ext : Externals G S) (m_formula : TF1 S) (g : G) : G :=
  (initializeParameters ext m_formula.GetNpar 0 m_formula g).2

/-- A population of three models of parameters `(5, 6)`, `(3, 4)`, `(1, 2)`,
scored by `valueFigureOfMerit` (the score is the first parameter), flagged
unsorted, on a generator tape that serves one `crossOver()`. -/
def crossingPopulation : IPopulation Int (TF1 Int) (List Nat) :=
  { emptyPopulation [2, 2, 2, 0, 1, 1, 0, 0, 1, 1, 1, 1] 0 with
    m_individuals := [lineModel 5 5 6, lineModel 3 3 4, lineModel 1 1 2] }

/-- The generator state after one coin draw `Integer(2)` of `doCrossOver`. -/
def afterCoin {S G : Type} (ext : Externals G S) (g : G) : G := (ext.Integer g 2).2

/-- A population of two models of parameters 7 and 3 carrying the scores 7
and 3, with the mutation rate `rate`, on the recording tape generator that
reads `tape` and has recorded no call. -/
def recordingPopulation (tape : List Nat) (rate : Int) :
    IPopulation Int (TF1 Int) (List Nat × List (Draw Int)) where
  m_mutateRate := rate
  m_sorted := false
  m_individuals := [constantModel 7 7, constantModel 3 3]
  m_fom := some valueFigureOfMerit
  m_random := (tape, [])
  m_scoreMean := 0
  m_scoreRMS := 0
  m_parents := []

/-- The `GeneticAlgorithm` object after `initialize` in a run of at most 10
generations on two individuals. -/
def boundAlgorithm : GeneticAlgorithm :=
  { configured 10 2 with m_population := true }

/-- The body shared by the two `do ... while` loops of
`IPopulation::selectParents`: the two calls `Integer(size())`. It returns the
pair `(f, p)` drawn and the generator state. -/
def drawPair {S G : Type} (ext : Externals G S) (n : Nat) (g : G) : (Nat × Nat) × G :=
  (((ext.Integer g n).1, (ext.Integer (ext.Integer g n).2 n).1),
    (ext.Integer (ext.Integer g n).2 n).2)

/-- The generator state after one iteration of a loop of `selectParents`. -/
def afterPair {S G : Type} (ext : Externals G S) (n : Nat) (g : G) : G := (drawPair ext n g).2

/-! # Theorems -/

section SortLemmas

variable {α : Type}

theorem StrictWeakOrder.asymm {better : α → α → Bool} (h : StrictWeakOrder better) (a b : α)
    (hab : better a b = true) : better b a = false := by
  cases hba : better b a with
  | false => rfl
  | true =>
    have := h.trans a b a hab hba
    rw [h.irrefl a] at this
    exact this.symm

theorem StrictWeakOrder.neg_trans {better : α → α → Bool} (h : StrictWeakOrder better) (a b c : α)
    (hab : better a b = false) (hbc : better b c = false) : better a c = false := by
  cases hac : better a c with
  | false => rfl
  | true =>
    have hba : better b a = false := by
      cases hba : better b a with
      | false => rfl
      | true => rw [h.trans b a c hba hac] at hbc; exact hbc
    have hcb : better c b = false := by
      cases hcb : better c b with
      | false => rfl
      | true => rw [h.trans a c b hac hcb] at hab; exact hab
    have := (h.incomp_trans a b c hab hba hbc hcb).1
    rw [hac] at this
    exact this

theorem getElem?_after (L : List α) (c a : α) (post : List α) :
    (L ++ c :: a :: post)[L.length + 1]? = some a := by
  rw [List.getElem?_append_right (by omega)]
  simp

theorem getElem?_at (L : List α) (c : α) (post : List α) :
    (L ++ c :: post)[L.length]? = some c := by
  rw [List.getElem?_append_right (by omega)]
  simp

theorem set_set_adjacent (L : List α) (c a : α) (post : List α) :
    ((L ++ c :: a :: post).set (L.length + 1) c).set L.length a = L ++ a :: c :: post := by
  rw [List.set_append_right _ _ (by omega)]
  rw [List.set_append_right _ _ (by omega)]
  simp

/-- One iteration of the `for` loop of `sort` at the boundary between the
prefix `L ++ [c]` already visited and the rest `a :: post`. -/
theorem sortFor_step (better : α → α → Bool) (steps newn : Nat) (L : List α) (c a : α)
    (post : List α) :
    sortFor better (steps + 1) (L.length + 1) newn (L ++ c :: a :: post) =
      if better a c then sortFor better steps (L.length + 2) (L.length + 1) (L ++ a :: c :: post)
      else sortFor better steps (L.length + 2) newn (L ++ c :: a :: post) := by
  rw [sortFor, getElem?_after, show L.length + 1 - 1 = L.length from rfl, getElem?_at]
  simp only [set_set_adjacent]

/-- A pass of `sort` entered with the vector `P ++ Q ++ c :: post`, where `P`
has `newn` elements, `c` is at the index before `i`, `c` is not better than any
element before it, and no element of `Q` is better than an element before it:
the pass leaves `P2 ++ Q2 ++ (the part it did not visit)` with `newn` the length
of `P2`, where `Q2` is not empty and no element of `Q2` is better than an
element before it. -/
theorem sortFor_spec (better : α → α → Bool)
    (hA : ∀ a b, better a b = true → better b a = false)
    (hN : ∀ a b c, better a b = false → better b c = false → better a c = false) :
    ∀ (steps : Nat) (P Q : List α) (c : α) (post : List α), steps ≤ post.length →
      (∀ x ∈ P, better c x = false) → (∀ x ∈ Q, better c x = false) →
      Q.Pairwise (fun x y => better y x = false) →
      (∀ x ∈ P, ∀ y ∈ Q, better y x = false) →
      ∃ P2 Q2 : List α,
        sortFor better steps ((P ++ Q).length + 1) P.length ((P ++ Q) ++ c :: post)
          = (P2 ++ Q2 ++ post.drop steps, P2.length)
        ∧ (P2 ++ Q2).Perm ((P ++ Q) ++ c :: post.take steps)
        ∧ Q2 ≠ []
        ∧ Q2.Pairwise (fun x y => better y x = false)
        ∧ (∀ x ∈ P2, ∀ y ∈ Q2, better y x = false) := by
  intro steps
  induction steps with
  | zero =>
    intro P Q c post _ h1 h2 h3 h4
    refine ⟨P, Q ++ [c], ?_, ?_, ?_, ?_, ?_⟩
    · simp [sortFor]
    · simp
    · simp
    · rw [List.pairwise_append]
      refine ⟨h3, List.pairwise_singleton _ _, ?_⟩
      intro x hx y hy
      rw [List.mem_singleton] at hy
      subst hy
      exact h2 x hx
    · intro x hx y hy
      rw [List.mem_append, List.mem_singleton] at hy
      rcases hy with hy | hy
      · exact h4 x hx y hy
      · subst hy; exact h1 x hx
  | succ k ih =>
    intro P Q c post hle h1 h2 h3 h4
    cases post with
    | nil => simp at hle
    | cons a post =>
      have hle2 : k ≤ post.length := by simpa using hle
      rw [sortFor_step]
      by_cases hb : better a c = true
      · rw [if_pos hb]
        have hc : ∀ x ∈ P ++ Q ++ [a], better c x = false := by
          intro x hx
          rw [List.mem_append, List.mem_singleton, List.mem_append] at hx
          rcases hx with (hx | hx) | hx
          · exact h1 x hx
          · exact h2 x hx
          · subst hx; exact hA _ _ hb
        obtain ⟨P2, Q2, he, hp, hne, hpw, hcr⟩ :=
          ih (P ++ Q ++ [a]) [] c post hle2 hc (by simp) List.Pairwise.nil (by simp)
        refine ⟨P2, Q2, ?_, ?_, hne, hpw, hcr⟩
        · simpa [Nat.add_assoc] using he
        · refine hp.trans ?_
          simp only [List.append_nil, List.append_assoc, List.singleton_append, List.take_succ_cons]
          exact List.Perm.append_left _ (List.Perm.append_left _ (List.Perm.swap c a _))
      · rw [if_neg hb]
        have hb2 : better a c = false := by simpa using hb
        have hc1 : ∀ x ∈ P, better a x = false := fun x hx => hN a c x hb2 (h1 x hx)
        have hc2 : ∀ x ∈ Q ++ [c], better a x = false := by
          intro x hx
          rw [List.mem_append, List.mem_singleton] at hx
          rcases hx with hx | hx
          · exact hN a c x hb2 (h2 x hx)
          · subst hx; exact hb2
        have hpw2 : (Q ++ [c]).Pairwise (fun x y => better y x = false) := by
          rw [List.pairwise_append]
          refine ⟨h3, List.pairwise_singleton _ _, ?_⟩
          intro x hx y hy
          rw [List.mem_singleton] at hy
          subst hy
          exact h2 x hx
        have hcr2 : ∀ x ∈ P, ∀ y ∈ Q ++ [c], better y x = false := by
          intro x hx y hy
          rw [List.mem_append, List.mem_singleton] at hy
          rcases hy with hy | hy
          · exact h4 x hx y hy
          · subst hy; exact h1 x hx
        obtain ⟨P2, Q2, he, hp, hne, hpw, hcr⟩ := ih P (Q ++ [c]) a post hle2 hc1 hc2 hpw2 hcr2
        refine ⟨P2, Q2, ?_, ?_, hne, hpw, hcr⟩
        · simpa [Nat.add_assoc] using he
        · refine hp.trans ?_
          simp

/-- The `while` loop of `sort` entered with bound `n` on the vector `A ++ B`,
where `A` has `n` elements and no element of `B` is better than an element
before it: the loop leaves a permutation in which no element is better than an
element before it. -/
theorem sortWhile_spec (better : α → α → Bool)
    (hA : ∀ a b, better a b = true → better b a = false)
    (hN : ∀ a b c, better a b = false → better b c = false → better a c = false) :
    ∀ (bound n : Nat) (A B : List α), A.length = n → n ≤ bound →
      B.Pairwise (fun x y => better y x = false) →
      (∀ x ∈ A, ∀ y ∈ B, better y x = false) →
      (sortWhile better bound n (A ++ B)).Perm (A ++ B) ∧
        (sortWhile better bound n (A ++ B)).Pairwise (fun x y => better y x = false) := by
  intro bound
  induction bound with
  | zero =>
    intro n A B hlen hn hB _
    have hA0 : A = [] := List.length_eq_zero.mp (by omega)
    subst hA0
    simpa [sortWhile] using hB
  | succ b ih =>
    intro n A B hlen hn hB hcr
    rw [sortWhile]
    cases A with
    | nil =>
      have hn0 : n = 0 := by simpa using hlen.symm
      subst hn0
      simpa using hB
    | cons c A1 =>
      have hn1 : n = A1.length + 1 := by simpa using hlen.symm
      subst hn1
      obtain ⟨P2, Q2, he, hp, hne, hpw, hcr2⟩ :=
        sortFor_spec better hA hN A1.length [] [] c (A1 ++ B) (by simp) (by simp) (by simp)
          List.Pairwise.nil (by simp)
      simp only [List.append_nil, List.length_nil, List.nil_append, Nat.zero_add,
        List.drop_left, List.take_left] at he hp
      have he2 : sortFor better (A1.length + 1 - 1) 1 0 (c :: A1 ++ B)
          = (P2 ++ Q2 ++ B, P2.length) := by
        simpa using he
      rw [if_pos (by omega), he2]
      have hlen2 : P2.length + Q2.length = A1.length + 1 := by
        have := hp.length_eq
        simpa using this
      have hQ2 : 0 < Q2.length := List.length_pos.mpr hne
      have hmem : ∀ x, x ∈ P2 ++ Q2 → x ∈ c :: A1 := fun x hx => hp.mem_iff.mp hx
      have hB2 : (Q2 ++ B).Pairwise (fun x y => better y x = false) := by
        rw [List.pairwise_append]
        refine ⟨hpw, hB, ?_⟩
        intro x hx y hy
        exact hcr x (hmem x (List.mem_append_right _ hx)) y hy
      have hcr3 : ∀ x ∈ P2, ∀ y ∈ Q2 ++ B, better y x = false := by
        intro x hx y hy
        rw [List.mem_append] at hy
        rcases hy with hy | hy
        · exact hcr2 x hx y hy
        · exact hcr x (hmem x (List.mem_append_left _ hx)) y hy
      have := ih P2.length P2 (Q2 ++ B) rfl (by omega) hB2 hcr3
      rw [List.append_assoc]
      refine ⟨this.1.trans ?_, this.2⟩
      rw [← List.append_assoc]
      exact List.Perm.append_right B hp

/-- The exchange sort of `sort` on a whole vector: a permutation in which no
element is better than an element before it. -/
theorem sortWhile_sorted_perm (better : α → α → Bool) (h : StrictWeakOrder better)
    (xs : List α) :
    (sortWhile better xs.length xs.length xs).Perm xs ∧
      (sortWhile better xs.length xs.length xs).Pairwise (fun x y => better y x = false) := by
  have := sortWhile_spec better h.asymm h.neg_trans xs.length xs.length xs [] rfl (Nat.le_refl _)
    List.Pairwise.nil (by simp)
  simpa using this

theorem split_adjacent (xs : List α) (i : Nat) (hi : 1 ≤ i) (a b : α)
    (ha : xs[i]? = some a) (hb : xs[i - 1]? = some b) :
    ∃ L post : List α, L.length + 1 = i ∧ xs = L ++ b :: a :: post := by
  obtain ⟨hi1, ea⟩ := List.getElem?_eq_some.mp ha
  obtain ⟨hi0, eb⟩ := List.getElem?_eq_some.mp hb
  refine ⟨xs.take (i - 1), xs.drop (i + 1), ?_, ?_⟩
  · rw [List.length_take]; omega
  · have h1 : xs.drop (i - 1) = xs[i - 1] :: xs.drop (i - 1 + 1) := List.drop_eq_getElem_cons hi0
    have h2 : xs.drop i = xs[i] :: xs.drop (i + 1) := List.drop_eq_getElem_cons hi1
    have h3 : i - 1 + 1 = i := by omega
    rw [h3] at h1
    rw [h2, eb, ea] at h1
    rw [← h1, List.take_append_drop]

/-- A pass of `sort` permutes the vector, whatever the comparator. -/
theorem sortFor_perm (better : α → α → Bool) :
    ∀ (steps i newn : Nat) (xs : List α), 1 ≤ i → (sortFor better steps i newn xs).1.Perm xs := by
  intro steps
  induction steps with
  | zero => intro i newn xs _; simp [sortFor]
  | succ k ih =>
    intro i newn xs hi
    rw [sortFor]
    split
    · rename_i a b ha hb
      obtain ⟨L, post, hL, hxs⟩ := split_adjacent xs i hi a b ha hb
      split
      · refine (ih (i + 1) i _ (by omega)).trans ?_
        subst hxs
        have e : i - 1 = L.length := by omega
        rw [e, ← hL, set_set_adjacent]
        exact List.Perm.append_left _ (List.Perm.swap b a _)
      · exact ih (i + 1) newn xs (by omega)
    · exact ih (i + 1) newn xs (by omega)

/-- The `while` loop of `sort` permutes the vector, whatever the comparator. -/
theorem sortWhile_perm (better : α → α → Bool) :
    ∀ (bound n : Nat) (xs : List α), (sortWhile better bound n xs).Perm xs := by
  intro bound
  induction bound with
  | zero => intro n xs; simp [sortWhile]
  | succ b ih =>
    intro n xs
    rw [sortWhile]
    split
    · exact (ih _ _).trans (sortFor_perm better _ 1 0 xs (Nat.le_refl 1))
    · exact List.Perm.refl _

theorem head?_set_succ (xs : List α) (k : Nat) (v : α) : (xs.set (k + 1) v).head? = xs.head? := by
  cases xs <;> rfl

/-- From index 2 on, a pass of `sort` does not touch position 0. -/
theorem sortFor_head_of_two_le (better : α → α → Bool) :
    ∀ (steps i newn : Nat) (xs : List α), 2 ≤ i →
      (sortFor better steps i newn xs).1.head? = xs.head? := by
  intro steps
  induction steps with
  | zero => intro i newn xs _; rfl
  | succ k ih =>
    intro i newn xs hi
    rw [sortFor]
    split
    · split
      · rw [ih (i + 1) i _ (by omega)]
        obtain ⟨j, hj⟩ : ∃ j, i = j + 2 := ⟨i - 2, by omega⟩
        subst hj
        rw [show j + 2 - 1 = j + 1 from rfl, head?_set_succ, head?_set_succ]
      · exact ih (i + 1) newn xs (by omega)
    · exact ih (i + 1) newn xs (by omega)

/-- After a pass of `sort`, position 0 holds the element it held before, or an
element better than that one. -/
theorem sortFor_head (better : α → α → Bool) (steps newn : Nat) (x : α) (rest : List α) :
    ∃ h, (sortFor better steps 1 newn (x :: rest)).1.head? = some h ∧
      (h = x ∨ better h x = true) := by
  cases steps with
  | zero => exact ⟨x, rfl, Or.inl rfl⟩
  | succ k =>
    rw [sortFor]
    cases rest with
    | nil =>
      refine ⟨x, ?_, Or.inl rfl⟩
      simp only [List.getElem?_cons_succ, List.getElem?_nil]
      rw [sortFor_head_of_two_le better k 2 newn [x] (Nat.le_refl 2)]
      rfl
    | cons a r =>
      simp only [List.getElem?_cons_succ, List.getElem?_cons_zero, Nat.sub_self, List.set_cons_succ,
        List.set_cons_zero]
      by_cases hb : better a x = true
      · rw [if_pos hb, sortFor_head_of_two_le better k 2 1 _ (Nat.le_refl 2)]
        exact ⟨a, rfl, Or.inr hb⟩
      · rw [if_neg hb, sortFor_head_of_two_le better k 2 newn _ (Nat.le_refl 2)]
        exact ⟨x, rfl, Or.inl rfl⟩

/-- After the `while` loop of `sort` with a transitive comparator, position 0
holds the element it held before, or an element better than that one. -/
theorem sortWhile_head (better : α → α → Bool)
    (htrans : ∀ a b c, better a b = true → better b c = true → better a c = true) :
    ∀ (bound n : Nat) (xs : List α) (x : α), xs.head? = some x →
      ∃ h, (sortWhile better bound n xs).head? = some h ∧ (h = x ∨ better h x = true) := by
  intro bound
  induction bound with
  | zero => intro n xs x hx; exact ⟨x, hx, Or.inl rfl⟩
  | succ b ih =>
    intro n xs x hx
    rw [sortWhile]
    split
    · cases xs with
      | nil => simp at hx
      | cons y rest =>
        simp only [List.head?_cons, Option.some.injEq] at hx
        subst hx
        obtain ⟨h1, hh1, hrel1⟩ := sortFor_head better (n - 1) 0 y rest
        obtain ⟨h2, hh2, hrel2⟩ := ih (sortFor better (n - 1) 1 0 (y :: rest)).2
          (sortFor better (n - 1) 1 0 (y :: rest)).1 h1 hh1
        refine ⟨h2, hh2, ?_⟩
        rcases hrel2 with e2 | b2
        · subst e2; exact hrel1
        · rcases hrel1 with e1 | b1
          · subst e1; exact Or.inr b2
          · exact Or.inr (htrans _ _ _ b2 b1)
    · exact ⟨x, hx, Or.inl rfl⟩

end SortLemmas

section PopulationLemmas

variable {S D G : Type}

theorem isBetterThan_strictWeakOrder (fom : IFigureOfMerit S D)
    (h : StrictWeakOrder fom.isBetterThanScore) :
    StrictWeakOrder (fun a b : IModel S D => fom.isBetterThan a b) where
  irrefl := fun _ => h.irrefl _
  trans := fun _ _ _ => h.trans _ _ _
  incomp_trans := fun _ _ _ => h.incomp_trans _ _ _

theorem defaultIsBetterThan_strictWeakOrder {T : Type} [LinearOrder T] :
    StrictWeakOrder (fun a b : T => IFigureOfMerit.defaultIsBetterThan a b) where
  irrefl := fun a => by simp [IFigureOfMerit.defaultIsBetterThan]
  trans := fun a b c h1 h2 => by
    simp only [IFigureOfMerit.defaultIsBetterThan, gt_iff_lt, decide_eq_true_eq] at *
    exact lt_trans h2 h1
  incomp_trans := fun a b c h1 h2 h3 h4 => by
    simp only [IFigureOfMerit.defaultIsBetterThan, gt_iff_lt, decide_eq_false_iff_not,
      not_lt] at *
    exact ⟨le_trans h1 h3, le_trans h4 h2⟩

theorem chi2IsBetterThan_strictWeakOrder {T : Type} [LinearOrder T] :
    StrictWeakOrder (fun a b : T => Chi2FitFigureOfMerit.isBetterThan a b) where
  irrefl := fun a => by simp [Chi2FitFigureOfMerit.isBetterThan]
  trans := fun a b c h1 h2 => by
    simp only [Chi2FitFigureOfMerit.isBetterThan, decide_eq_true_eq] at *
    exact lt_trans h1 h2
  incomp_trans := fun a b c h1 h2 h3 h4 => by
    simp only [Chi2FitFigureOfMerit.isBetterThan, decide_eq_false_iff_not, not_lt] at *
    exact ⟨le_trans h3 h1, le_trans h2 h4⟩

theorem sort_of_sorted (p : IPopulation S D G) (h : p.m_sorted = true) :
    p.sort = (Except.ok (), p) := by
  simp [IPopulation.sort, h]

theorem sort_of_unsorted (p : IPopulation S D G) (fom : IFigureOfMerit S D)
    (hs : p.m_sorted = false) (hf : p.m_fom = some fom) :
    p.sort = (Except.ok (), { p with
      m_sorted := true
      m_individuals := if p.size ≤ 1 then p.m_individuals
        else sortWhile fom.isBetterThan p.size p.size p.m_individuals }) := by
  unfold IPopulation.sort
  rw [if_neg (by simp [hs])]
  by_cases h : p.size ≤ 1 <;> simp [hf, h]

theorem sort_perm (p : IPopulation S D G) : p.sort.2.m_individuals.Perm p.m_individuals := by
  unfold IPopulation.sort
  split
  · exact List.Perm.refl _
  · split
    · exact List.Perm.refl _
    · split
      · exact List.Perm.refl _
      · exact sortWhile_perm _ _ _ _

theorem sort_size (p : IPopulation S D G) : p.sort.2.size = p.size :=
  (sort_perm p).length_eq

theorem sort_frame (p : IPopulation S D G) :
    p.sort.2.m_fom = p.m_fom ∧ p.sort.2.m_random = p.m_random ∧
      p.sort.2.m_mutateRate = p.m_mutateRate ∧ p.sort.2.m_scoreMean = p.m_scoreMean ∧
      p.sort.2.m_scoreRMS = p.m_scoreRMS ∧ p.sort.2.m_parents = p.m_parents := by
  unfold IPopulation.sort
  split
  · simp
  · split
    · simp
    · split <;> simp

theorem sort_ok (p : IPopulation S D G) (fom : IFigureOfMerit S D) (h : p.m_fom = some fom) :
    p.sort.1 = Except.ok () := by
  unfold IPopulation.sort
  split
  · rfl
  · rw [h]
    dsimp only
    split <;> rfl

theorem sort_flag (p : IPopulation S D G) (h : p.sort.1 = Except.ok ()) :
    p.sort.2.m_sorted = true := by
  by_cases hs : p.m_sorted = true
  · rw [sort_of_sorted p hs]; exact hs
  · cases hf : p.m_fom with
    | none => simp [IPopulation.sort, hs, hf] at h
    | some fom =>
      rw [sort_of_unsorted p fom (by simpa using hs) hf]

theorem sort_error (p : IPopulation S D G) (e : Error) (h : p.sort.1 = Except.error e) :
    p.sort.2 = p := by
  by_cases hs : p.m_sorted = true
  · rw [sort_of_sorted p hs]
  · cases hf : p.m_fom with
    | none => simp [IPopulation.sort, hs, hf]
    | some fom =>
      rw [sort_ok p fom hf] at h
      cases h

/-- After `sort()` with a transitive score comparator, position 0 holds the
individual it held before or one with a better score. -/
theorem sort_head (p : IPopulation S D G) (fom : IFigureOfMerit S D) (hfom : p.m_fom = some fom)
    (htrans : ∀ a b c, fom.isBetterThanScore a b = true → fom.isBetterThanScore b c = true →
      fom.isBetterThanScore a c = true)
    (x : IModel S D) (hx : p.m_individuals[0]? = some x) :
    ∃ h, p.sort.2.m_individuals[0]? = some h ∧
      (h = x ∨ fom.isBetterThanScore h.m_score x.m_score = true) := by
  by_cases hs : p.m_sorted = true
  · rw [sort_of_sorted p hs]
    exact ⟨x, hx, Or.inl rfl⟩
  · rw [sort_of_unsorted p fom (by simpa using hs) hfom]
    simp only
    split
    · exact ⟨x, hx, Or.inl rfl⟩
    · rw [← List.head?_eq_getElem?] at hx ⊢
      exact sortWhile_head (fun a b : IModel S D => fom.isBetterThan a b)
        (fun a b c => htrans _ _ _) _ _ _ x hx

theorem getBestFitted_of_sorted (p : IPopulation S D G) (hs : p.m_sorted = true)
    (best : IModel S D) (hbest : p.m_individuals[0]? = some best) :
    p.getBestFitted 0 = (Except.ok best, p) := by
  have hlt := (List.getElem?_eq_some.mp hbest).1
  unfold IPopulation.getBestFitted
  rw [if_neg (by simp only [IPopulation.size]; omega), sort_of_sorted p hs]
  simp only [Int.toNat_zero, hbest]

theorem scoreFor_fst [Add S] [Mul S] (fom : IFigureOfMerit S D) :
    ∀ (xs : List (IModel S D)) (mean rms : S),
      (scoreFor fom xs mean rms).1 = xs.map (fun m => m.setScore (fom.evaluate m)) := by
  intro xs
  induction xs with
  | nil => intro mean rms; rfl
  | cons m rest ih =>
    intro mean rms
    simp only [scoreFor, List.map_cons, ih]

theorem getBestFitted_out_of_range (p : IPopulation S D G) (rank : Int)
    (h : rank < 0 ∨ rank ≥ (p.size : Int)) :
    p.getBestFitted rank = (Except.error Error.rankOutOfRange, p) := by
  unfold IPopulation.getBestFitted
  rw [if_pos h]

theorem getBestFitted_in_range (p : IPopulation S D G) (fom : IFigureOfMerit S D)
    (hfom : p.m_fom = some fom) (rank : Int) (h : ¬ (rank < 0 ∨ rank ≥ (p.size : Int))) :
    ∃ m, p.sort.2.m_individuals[rank.toNat]? = some m ∧
      p.getBestFitted rank = (Except.ok m, p.sort.2) := by
  have hok := sort_ok p fom hfom
  have hsz := sort_size p
  unfold IPopulation.getBestFitted
  rw [if_neg h]
  rcases hq : p.sort with ⟨r, q⟩
  rw [hq] at hok hsz
  simp only at hok hsz
  subst hok
  have hlt : rank.toNat < q.m_individuals.length := by
    simp only [IPopulation.size] at hsz h
    omega
  refine ⟨q.m_individuals[rank.toNat], List.getElem?_eq_getElem hlt, ?_⟩
  simp only [List.getElem?_eq_getElem hlt]

theorem score_of_fom [Zero S] [Add S] [Sub S] [Mul S] [Div S] [NatCast S] [LT S]
    [DecidableRel (fun a b : S => a < b)] (ext : Externals G S) (p : IPopulation S D G)
    (fom : IFigureOfMerit S D) (hfom : p.m_fom = some fom) (hsz : p.size ≠ 0) :
    ∃ mean rms : S, p.score ext = IPopulation.sort { p with
      m_individuals := p.m_individuals.map (fun m => m.setScore (fom.evaluate m))
      m_scoreMean := mean
      m_scoreRMS := rms } := by
  unfold IPopulation.score
  rw [hfom]
  simp only
  rw [if_neg hsz, scoreFor_fst]
  exact ⟨_, _, rfl⟩

/-- With a figure of merit and at least one individual, `score()` is `sort()`
applied to the population in which every individual carries its new score. -/
theorem score_as_sort [Zero S] [Add S] [Sub S] [Mul S] [Div S] [NatCast S] [LT S]
    [DecidableRel (fun a b : S => a < b)] (ext : Externals G S) (p : IPopulation S D G)
    (fom : IFigureOfMerit S D) (hfom : p.m_fom = some fom) (hsz : p.size ≠ 0) :
    ∃ q : IPopulation S D G, p.score ext = q.sort ∧ q.m_fom = p.m_fom ∧
      q.m_sorted = p.m_sorted ∧ q.m_mutateRate = p.m_mutateRate ∧ q.m_random = p.m_random ∧
      q.m_parents = p.m_parents ∧
      q.m_individuals = p.m_individuals.map (fun m => m.setScore (fom.evaluate m)) := by
  obtain ⟨mean, rms, h⟩ := score_of_fom ext p fom hfom hsz
  exact ⟨_, h, rfl, rfl, rfl, rfl, rfl, rfl⟩

theorem score_flag [Zero S] [Add S] [Sub S] [Mul S] [Div S] [NatCast S] [LT S]
    [DecidableRel (fun a b : S => a < b)] (ext : Externals G S) (p : IPopulation S D G)
    (fom : IFigureOfMerit S D) (hfom : p.m_fom = some fom) (hsz : p.size ≠ 0) :
    (p.score ext).1 = Except.ok () ∧ (p.score ext).2.m_sorted = true ∧
      (p.score ext).2.m_fom = some fom ∧ (p.score ext).2.size = p.size := by
  obtain ⟨mean, rms, e⟩ := score_of_fom ext p fom hfom hsz
  rw [e]
  have hok := sort_ok { p with
      m_individuals := p.m_individuals.map (fun m => m.setScore (fom.evaluate m))
      m_scoreMean := mean
      m_scoreRMS := rms } fom hfom
  refine ⟨hok, sort_flag _ hok, ?_, ?_⟩
  · rw [(sort_frame _).1]; exact hfom
  · rw [sort_size]; simp [IPopulation.size]

/-- What the first rejection loop of `selectParents` returns is the last pair
drawn, and that pair was accepted. -/
theorem selectFirst_spec (ext : Externals G S) (n : Nat) :
    ∀ (fuel : Nat) (g : G) (f1 p1 : Nat) (g1 : G),
      selectFirst ext n fuel g = (Except.ok (f1, p1), g1) →
      p1 ≤ f1 ∧ ∃ g0 : G, f1 = (ext.Integer g0 n).1 ∧
        p1 = (ext.Integer (ext.Integer g0 n).2 n).1 ∧
        g1 = (ext.Integer (ext.Integer g0 n).2 n).2 := by
  intro fuel
  induction fuel with
  | zero => intro g f1 p1 g1 h; simp [selectFirst] at h
  | succ k ih =>
    intro g f1 p1 g1 h
    rw [selectFirst] at h
    split at h
    · exact ih _ _ _ _ h
    · rename_i hle
      simp only [Prod.mk.injEq, Except.ok.injEq] at h
      obtain ⟨⟨hf, hp⟩, hg⟩ := h
      refine ⟨by omega, g, hf.symm, hp.symm, hg.symm⟩

/-- What the second rejection loop of `selectParents` returns is the last pair
drawn, and that pair was accepted: `p2` differs from `p1` and `p2 <= f2`. -/
theorem selectSecond_spec (ext : Externals G S) (n p1 : Nat) :
    ∀ (fuel : Nat) (g : G) (f2 p2 : Nat) (g2 : G),
      selectSecond ext n p1 fuel g = (Except.ok (f2, p2), g2) →
      p1 ≠ p2 ∧ p2 ≤ f2 ∧ ∃ g0 : G, f2 = (ext.Integer g0 n).1 ∧
        p2 = (ext.Integer (ext.Integer g0 n).2 n).1 ∧
        g2 = (ext.Integer (ext.Integer g0 n).2 n).2 := by
  intro fuel
  induction fuel with
  | zero => intro g f2 p2 g2 h; simp [selectSecond] at h
  | succ k ih =>
    intro g f2 p2 g2 h
    rw [selectSecond] at h
    split at h
    · exact ih _ _ _ _ h
    · rename_i hle
      simp only [Prod.mk.injEq, Except.ok.injEq] at h
      obtain ⟨⟨hf, hp⟩, hg⟩ := h
      refine ⟨by omega, by omega, g, hf.symm, hp.symm, hg.symm⟩

/-- The locals of `selectParents` at a normal exit. -/
theorem selectParentsLocals_spec (ext : Externals G S) (n fuel : Nat) (g : G)
    (f1 p1 f2 p2 : Nat) (g2 : G)
    (h : selectParentsLocals ext n fuel g = (Except.ok ((f1, p1), (f2, p2)), g2)) :
    ∃ g1 : G, selectFirst ext n fuel g = (Except.ok (f1, p1), g1) ∧
      selectSecond ext n p1 fuel g1 = (Except.ok (f2, p2), g2) := by
  unfold selectParentsLocals at h
  rcases h1 : selectFirst ext n fuel g with ⟨r1, g1⟩
  rw [h1] at h
  cases r1 with
  | error e => simp at h
  | ok fp1 =>
    simp only at h
    rcases h2 : selectSecond ext n fp1.2 fuel g1 with ⟨r2, g3⟩
    rw [h2] at h
    cases r2 with
    | error e => simp at h
    | ok fp2 =>
      simp only [Prod.mk.injEq, Except.ok.injEq] at h
      obtain ⟨⟨hfp1, hfp2⟩, hg⟩ := h
      subst hfp1 hfp2 hg
      exact ⟨g1, rfl, h2⟩

/-- A normal exit of `selectParents` is a normal exit of its two loops. -/
theorem selectParents_ok (ext : Externals G S) (n fuel : Nat) (g : G) (p1 p2 : Nat) (g2 : G)
    (h : IPopulation.selectParents ext n fuel g = (Except.ok (p1, p2), g2)) :
    ∃ f1 f2 : Nat, selectParentsLocals ext n fuel g = (Except.ok ((f1, p1), (f2, p2)), g2) := by
  unfold IPopulation.selectParents at h
  rcases h1 : selectParentsLocals ext n fuel g with ⟨r, g1⟩
  rw [h1] at h
  cases r with
  | error e => simp at h
  | ok r =>
    simp only [Prod.mk.injEq, Except.ok.injEq] at h
    obtain ⟨⟨hp1, hp2⟩, hg⟩ := h
    subst hp1 hp2 hg
    exact ⟨r.1.1, r.2.1, rfl⟩

/-- The groups that the parent loop of `crossOver` builds for the slots
`i, i + 1, ...`: one group per slot, a single parent `individuals[0]` for slot 0
and two parents at distinct indices for every other slot. -/
theorem parentsFor_spec (ext : Externals G S) (fuel : Nat) (individuals : List (IModel S D)) :
    ∀ (steps i : Nat) (g : G) (groups : List (List (IModel S D))) (g1 : G),
      parentsFor ext fuel individuals steps i g = (Except.ok groups, g1) →
      groups.length = steps ∧
        ∀ (k : Nat) (group : List (IModel S D)), groups[k]? = some group →
          (i + k = 0 → ∃ m, group = [m] ∧ individuals[0]? = some m) ∧
          (1 ≤ i + k → ∃ (p1 p2 : Nat) (m1 m2 : IModel S D), p1 ≠ p2 ∧
            individuals[p1]? = some m1 ∧ individuals[p2]? = some m2 ∧ group = [m1, m2]) := by
  intro steps
  induction steps with
  | zero =>
    intro i g groups g1 h
    simp only [parentsFor, Prod.mk.injEq, Except.ok.injEq] at h
    obtain ⟨hg, _⟩ := h
    subst hg
    simp
  | succ s ih =>
    intro i g groups g1 h
    rw [parentsFor] at h
    split at h
    · rename_i hi0
      split at h
      · simp at h
      · rename_i best hbest
        rcases hrec : parentsFor ext fuel individuals s (i + 1) g with ⟨r, g3⟩
        rw [hrec] at h
        cases r with
        | error e => simp at h
        | ok rest =>
          simp only [Prod.mk.injEq, Except.ok.injEq] at h
          obtain ⟨hgr, hg⟩ := h
          subst hgr
          obtain ⟨hlen, hrest⟩ := ih (i + 1) g rest g3 hrec
          refine ⟨by simp [hlen], ?_⟩
          intro k group hk
          cases k with
          | zero =>
            simp only [List.getElem?_cons_zero, Option.some.injEq] at hk
            subst hk
            exact ⟨fun _ => ⟨best, rfl, hbest⟩, fun h1 => by omega⟩
          | succ k =>
            simp only [List.getElem?_cons_succ] at hk
            obtain ⟨_, h2⟩ := hrest k group hk
            exact ⟨fun h0 => by omega, fun _ => h2 (by omega)⟩
    · rename_i hi0
      rcases hsel : IPopulation.selectParents ext individuals.length fuel g with ⟨r, g2⟩
      rw [hsel] at h
      cases r with
      | error e => simp at h
      | ok p12 =>
        simp only at h
        split at h
        · rename_i parent1 parent2 hp1 hp2
          rcases hrec : parentsFor ext fuel individuals s (i + 1) g2 with ⟨r, g3⟩
          rw [hrec] at h
          cases r with
          | error e => simp at h
          | ok rest =>
            simp only [Prod.mk.injEq, Except.ok.injEq] at h
            obtain ⟨hgr, hg⟩ := h
            subst hgr
            obtain ⟨hlen, hrest⟩ := ih (i + 1) g2 rest g3 hrec
            obtain ⟨f1, f2, hloc⟩ := selectParents_ok ext individuals.length fuel g p12.1 p12.2 g2 hsel
            obtain ⟨gm, _, hsec⟩ := selectParentsLocals_spec ext _ fuel g f1 p12.1 f2 p12.2 g2 hloc
            obtain ⟨hne, _⟩ := selectSecond_spec ext _ p12.1 fuel gm f2 p12.2 g2 hsec
            refine ⟨by simp [hlen], ?_⟩
            intro k group hk
            cases k with
            | zero =>
              simp only [List.getElem?_cons_zero, Option.some.injEq] at hk
              subst hk
              exact ⟨fun h0 => by omega,
                fun _ => ⟨p12.1, p12.2, parent1, parent2, hne, hp1, hp2, rfl⟩⟩
            | succ k =>
              simp only [List.getElem?_cons_succ] at hk
              obtain ⟨_, h2⟩ := hrest k group hk
              exact ⟨fun h0 => by omega, fun _ => h2 (by omega)⟩
        · simp at h

/-- A normal return of `crossOver`: `sort()` returned, the parent loop built
the groups, and the hook received them. -/
theorem crossOver_ok (ext : Externals G S) (hooks : Hooks S D G) (fuel : Nat)
    (p p1 : IPopulation S D G) (h : p.crossOver ext hooks fuel = (Except.ok (), p1)) :
    p.sort.1 = Except.ok () ∧
      ∃ (groups : List (List (IModel S D))) (g : G),
        parentsFor ext fuel p.sort.2.m_individuals p.sort.2.size 0 p.sort.2.m_random
          = (Except.ok groups, g) ∧
        p1 = { p.sort.2 with
          m_parents := groups
          m_individuals := (hooks.doCrossOver groups p.sort.2.m_individuals g).1
          m_random := (hooks.doCrossOver groups p.sort.2.m_individuals g).2
          m_sorted := false } := by
  unfold IPopulation.crossOver at h
  rcases hs : p.sort with ⟨r, q⟩
  rw [hs] at h
  cases r with
  | error e => simp at h
  | ok u =>
    simp only at h
    rcases hp : parentsFor ext fuel q.m_individuals q.size 0 q.m_random with ⟨r2, g⟩
    rw [hp] at h
    cases r2 with
    | error e => simp at h
    | ok groups =>
      simp only [Prod.mk.injEq, true_and] at h
      exact ⟨rfl, groups, g, rfl, h.symm⟩

theorem applyOffspring_length {T : Type} :
    ∀ (models : List (IModel T (TF1 T))) (offspringGenes : List (List T)),
      (applyOffspring models offspringGenes).length = models.length := by
  intro models
  induction models with
  | nil => intro genes; simp [applyOffspring]
  | cons m rest ih =>
    intro genes
    cases genes with
    | nil => simp [applyOffspring]
    | cons gs genes => simp [applyOffspring, ih]

/-- The crossover hook of `ParametricModelPopulation` keeps the number of
individuals. -/
theorem parametric_doCrossOver_length {T : Type} [Zero T] (ext : Externals G T)
    (parents : List (List (IModel T (TF1 T)))) (individuals : List (IModel T (TF1 T))) (g : G) :
    (ParametricModelPopulation.doCrossOver ext parents individuals g).1.length
      = individuals.length := by
  simp [ParametricModelPopulation.doCrossOver, applyOffspring_length]

/-- A normal return of `getBestFitted`: the rank is in range, `sort()`
returned, and the model is the one at position `rank` of the sorted vector. -/
theorem getBestFitted_ok (p q : IPopulation S D G) (rank : Int) (best : IModel S D)
    (h : p.getBestFitted rank = (Except.ok best, q)) :
    q = p.sort.2 ∧ p.sort.1 = Except.ok () ∧ q.m_individuals[rank.toNat]? = some best := by
  unfold IPopulation.getBestFitted at h
  split at h
  · simp at h
  · rcases hs : p.sort with ⟨r, q1⟩
    rw [hs] at h
    cases r with
    | error e => simp at h
    | ok u =>
      simp only at h
      split at h
      · rename_i m hm
        simp only [Prod.mk.injEq, Except.ok.injEq] at h
        obtain ⟨hb, hq⟩ := h
        subst hb hq
        exact ⟨rfl, rfl, hm⟩
      · simp at h

theorem crossOver_m_fom (ext : Externals G S) (hooks : Hooks S D G) (fuel : Nat)
    (p : IPopulation S D G) : (p.crossOver ext hooks fuel).2.m_fom = p.m_fom := by
  unfold IPopulation.crossOver
  rcases hs : p.sort with ⟨r, q⟩
  have hf := (sort_frame p).1
  rw [hs] at hf
  simp only at hf
  cases r with
  | error e => exact hf
  | ok u =>
    simp only
    rcases hp : parentsFor ext fuel q.m_individuals q.size 0 q.m_random with ⟨r2, g⟩
    cases r2 with
    | error e => exact hf
    | ok groups => exact hf

theorem score_empty_with_fom [Zero S] [Add S] [Sub S] [Mul S] [Div S]
    [NatCast S] [LT S] [DecidableRel (fun a b : S => a < b)] (ext : Externals G S)
    (p : IPopulation S D G) (fom : IFigureOfMerit S D) (hfom : p.m_fom = some fom)
    (hz : p.size = 0) : p.score ext = (Except.ok (), p) := by
  simp [IPopulation.score, hfom, hz]

end PopulationLemmas

section AlgorithmLemmas

variable {S D G : Type} [Zero S] [One S] [Add S] [Sub S] [Mul S] [Div S] [NatCast S] [LT S]
  [DecidableRel (fun a b : S => a < b)]

/-- A call of `nextGeneration()` that returns false: the algorithm object is
unchanged, the population is the one `getBestFitted(0)` left, and the figure
of merit accepts the model at rank 0 or the counter is above the maximum. -/
theorem nextGeneration_false (ext : Externals G S) (hooks : Hooks S D G) (fuel : Nat)
    (ga ga2 : GeneticAlgorithm) (p p2 : IPopulation S D G)
    (h : ga.nextGeneration ext hooks fuel p = (Except.ok false, ga2, p2)) :
    ga2 = ga ∧ ∃ best fom, p.getBestFitted 0 = (Except.ok best, p2) ∧ p2.m_fom = some fom ∧
      (fom.accept best = true ∨ ga.m_currentGeneration > ga.m_generationsMax) := by
  unfold GeneticAlgorithm.nextGeneration at h
  split at h
  · simp at h
  · rcases hg : p.getBestFitted 0 with ⟨r, q⟩
    rw [hg] at h
    cases r with
    | error e => simp at h
    | ok best =>
      simp only at h
      cases hf : q.getFigureOfMerit with
      | none => rw [hf] at h; simp at h
      | some fom =>
        rw [hf] at h
        simp only at h
        split at h
        · rename_i hacc
          simp only [Prod.mk.injEq, true_and] at h
          obtain ⟨hga, hp⟩ := h
          subst hga hp
          exact ⟨rfl, best, fom, rfl, hf, Or.inl hacc⟩
        · split at h
          · rename_i hmax
            simp only [Prod.mk.injEq, true_and] at h
            obtain ⟨hga, hp⟩ := h
            subst hga hp
            exact ⟨rfl, best, fom, rfl, hf, Or.inr hmax⟩
          · rcases hc : q.crossOver ext hooks fuel with ⟨rc, p1⟩
            rw [hc] at h
            cases rc with
            | error e => simp at h
            | ok u =>
              simp only at h
              rcases hsc : (p1.mutate ext hooks).score ext with ⟨rs, p3⟩
              rw [hsc] at h
              cases rs with
              | error e => simp at h
              | ok u2 => simp at h

/-- A normal exit of the loop of `optimize`: its last call of
`nextGeneration()` returned false. -/
theorem optimizeWhile_ok (ext : Externals G S) (hooks : Hooks S D G) (fuel : Nat) :
    ∀ (calls : Nat) (ga ga2 : GeneticAlgorithm) (p p2 : IPopulation S D G) (u : Unit),
      optimizeWhile ext hooks fuel calls ga p = (Except.ok u, ga2, p2) →
      ∃ (ga1 : GeneticAlgorithm) (p1 : IPopulation S D G),
        ga1.nextGeneration ext hooks fuel p1 = (Except.ok false, ga2, p2) := by
  intro calls
  induction calls with
  | zero => intro ga ga2 p p2 u h; simp [optimizeWhile] at h
  | succ k ih =>
    intro ga ga2 p p2 u h
    rw [optimizeWhile] at h
    rcases hn : ga.nextGeneration ext hooks fuel p with ⟨r, ga1, p1⟩
    rw [hn] at h
    cases r with
    | error e => simp at h
    | ok b =>
      cases b with
      | true =>
        simp only at h
        exact ih ga1 ga2 p1 p2 u h
      | false =>
        simp only [Prod.mk.injEq, true_and] at h
        obtain ⟨hga, hp⟩ := h
        subst hga hp
        exact ⟨ga, p, hn⟩

end AlgorithmLemmas

section NumericLemmas

variable {T D G : Type} [LinearOrderedField T]

/-- The accumulators of the loop of `score`: the sum of the scores and the
sum of their squares, added to the values at entry. -/
theorem scoreFor_sums (fom : IFigureOfMerit T D) :
    ∀ (xs : List (IModel T D)) (mean rms : T),
      (scoreFor fom xs mean rms).2.1 = mean + (xs.map fom.evaluate).sum ∧
      (scoreFor fom xs mean rms).2.2
        = rms + (xs.map (fun m => fom.evaluate m * fom.evaluate m)).sum := by
  intro xs
  induction xs with
  | nil => intro mean rms; simp [scoreFor]
  | cons m rest ih =>
    intro mean rms
    obtain ⟨h1, h2⟩ := ih (mean + fom.evaluate m) (rms + fom.evaluate m * fom.evaluate m)
    simp only [scoreFor, List.map_cons, List.sum_cons]
    rw [h1, h2]
    exact ⟨by ring, by ring⟩

theorem sum_map_const (f : IModel T D → T) (c : T) :
    ∀ xs : List (IModel T D), (∀ m ∈ xs, f m = c) → (xs.map f).sum = (xs.length : T) * c := by
  intro xs
  induction xs with
  | nil => intro _; simp
  | cons m rest ih =>
    intro h
    simp only [List.map_cons, List.sum_cons, List.length_cons]
    rw [ih (fun x hx => h x (List.mem_cons_of_mem _ hx)), h m (List.mem_cons_self _ _)]
    push_cast
    ring

/-- The mean and the RMS that `score()` stores on a population with a figure
of merit and at least one individual, and the vector it ranks. -/
theorem score_stores (ext : Externals G T) (p : IPopulation T D G) (fom : IFigureOfMerit T D)
    (hfom : p.m_fom = some fom) (hsz : p.size ≠ 0) :
    (p.score ext).2.m_individuals.Perm
        (p.m_individuals.map (fun m => m.setScore (fom.evaluate m))) ∧
      (p.score ext).2.m_scoreMean = (p.m_individuals.map fom.evaluate).sum / (p.size : T) ∧
      (p.score ext).2.m_scoreRMS = ext.sqrt (max 0
        ((p.m_individuals.map (fun m => fom.evaluate m * fom.evaluate m)).sum / (p.size : T)
          - (p.m_individuals.map fom.evaluate).sum / (p.size : T)
            * ((p.m_individuals.map fom.evaluate).sum / (p.size : T)))) := by
  have hs := scoreFor_sums fom p.m_individuals 0 0
  simp only [zero_add] at hs
  have e : p.score ext = IPopulation.sort { p with
      m_individuals := p.m_individuals.map (fun m => m.setScore (fom.evaluate m))
      m_scoreMean := (p.m_individuals.map fom.evaluate).sum / (p.size : T)
      m_scoreRMS := ext.sqrt (max 0
        ((p.m_individuals.map (fun m => fom.evaluate m * fom.evaluate m)).sum / (p.size : T)
          - (p.m_individuals.map fom.evaluate).sum / (p.size : T)
            * ((p.m_individuals.map fom.evaluate).sum / (p.size : T)))) } := by
    unfold IPopulation.score
    rw [hfom]
    simp only
    rw [if_neg hsz, scoreFor_fst, hs.1, hs.2]
    congr 3
    split
    · rename_i hneg
      exact (max_eq_left (le_of_lt hneg)).symm
    · rename_i hneg
      exact (max_eq_right (not_lt.mp hneg)).symm
  rw [e]
  exact ⟨sort_perm _, (sort_frame _).2.2.2.1, (sort_frame _).2.2.2.2.1⟩

/-- The accumulators of the loop of `Chi2FitFigureOfMerit::evaluate`: over the
data points with `y != 0`, the sum of the weighted squared residuals and the
number of points, added to the values at entry. -/
theorem chi2For_sums (formula : TF1 T) :
    ∀ (xs : List (List T)) (ys eys : List T) (chi2 : T) (ndf : Nat),
      chi2For formula xs ys eys chi2 ndf =
        (chi2 + (((xs.zip (ys.zip eys)).filter (fun pt => decide (pt.2.1 ≠ 0))).map
            (fun pt => (formula.EvalPar pt.1 - pt.2.1) * (formula.EvalPar pt.1 - pt.2.1)
              / (pt.2.2 * pt.2.2))).sum,
          ndf + ((xs.zip (ys.zip eys)).filter (fun pt => decide (pt.2.1 ≠ 0))).length) := by
  intro xs
  induction xs with
  | nil => intro ys eys chi2 ndf; simp [chi2For]
  | cons x xs ih =>
    intro ys eys chi2 ndf
    cases ys with
    | nil => simp [chi2For]
    | cons y ys =>
      cases eys with
      | nil => simp [chi2For]
      | cons ey eys =>
        rw [chi2For]
        by_cases hy : y = 0
        · rw [if_pos hy, ih]
          simp [hy]
        · rw [if_neg hy, ih]
          simp only [List.zip_cons_cons, ne_eq, hy, not_false_eq_true, decide_True,
            List.filter_cons_of_pos, List.map_cons, List.sum_cons, List.length_cons, Prod.mk.injEq]
          exact ⟨by ring, by omega⟩

end NumericLemmas

section CountingLemmas

/-- One iteration of the first loop of `selectParents` on a tape that starts
with two draws below `n`. -/
theorem firstParentOn_step (n m f p : Nat) (rest : List Nat) (hf : f < n) (hp : p < n) :
    firstParentOn n (m + 1) (f :: p :: rest)
      = if p > f then firstParentOn n m rest else some p := by
  have hstep : selectFirst tapeExternals n (m + 1) (f :: p :: rest)
      = if p > f then selectFirst tapeExternals n m rest else (Except.ok (f, p), rest) := by
    rw [selectFirst]
    simp only [tapeExternals, List.headD_cons, List.tail_cons, Nat.mod_eq_of_lt hf,
      Nat.mod_eq_of_lt hp]
  unfold firstParentOn
  rw [hstep]
  by_cases h : p > f
  · rw [if_pos h, if_pos h]
  · rw [if_neg h, if_neg h]

theorem firstParentOn_zero (n : Nat) (tape : List Nat) : firstParentOn n 0 tape = none := rfl

theorem mem_drawPairs (n : Nat) (fp : Nat × Nat) (h : fp ∈ drawPairs n) : fp.1 < n ∧ fp.2 < n := by
  simp only [drawPairs, List.mem_flatMap, List.mem_range, List.mem_map] at h
  obtain ⟨f, hf, p, hp, e⟩ := h
  subst e
  exact ⟨hf, hp⟩

/-- A count over the tapes of `m + 1` pairs is the sum, over the first pair,
of the counts over the tapes of `m` pairs. -/
theorem countP_drawTapes_succ (n m : Nat) (q : List Nat → Bool) :
    (drawTapes n (m + 1)).countP q
      = ((drawPairs n).map
          (fun fp => (drawTapes n m).countP (fun rest => q (fp.1 :: fp.2 :: rest)))).sum := by
  rw [drawTapes, List.countP_flatMap]
  congr 1
  apply List.map_congr_left
  intro fp _
  simp only [Function.comp_apply, List.countP_map]
  rfl

/-- A sum over pairs of a value chosen among `x`, `y` and 0 by two tests. -/
theorem sum_map_ite (l : List (Nat × Nat)) (r a : Nat × Nat → Bool) (x y : Nat) :
    (l.map (fun fp => if r fp = true then x else if a fp = true then y else 0)).sum
      = l.countP r * x + l.countP (fun fp => !r fp && a fp) * y := by
  induction l with
  | nil => simp
  | cons fp rest ih =>
    simp only [List.map_cons, List.sum_cons, ih, List.countP_cons]
    cases hr : r fp <;> cases ha : a fp <;> simp <;> ring

theorem decide_le_eq_not_lt (f p : Nat) : decide (p ≤ f) = !decide (f < p) := by
  rcases Nat.lt_or_ge f p with h | h
  · have h2 : ¬ p ≤ f := by omega
    simp [h, h2]
  · have h2 : ¬ f < p := by omega
    simp [h, h2]

theorem countP_le_and_eq (f k : Nat) :
    ∀ j : Nat, (List.range j).countP (fun p => decide (p ≤ f) && decide (p = k))
      = if k ≤ f ∧ k < j then 1 else 0 := by
  intro j
  induction j with
  | zero => simp
  | succ j ih =>
    rw [List.range_succ, List.countP_append, ih]
    simp only [List.countP_cons, List.countP_nil, Nat.zero_add]
    by_cases h3 : j = k
    · subst h3
      by_cases h1 : j ≤ f <;> simp [h1]
    · have h4 : k < j + 1 ↔ k < j := by omega
      simp [h3, h4]

theorem countP_le (f : Nat) :
    ∀ j : Nat, (List.range j).countP (fun p => decide (p ≤ f)) = min j (f + 1) := by
  intro j
  induction j with
  | zero => simp
  | succ j ih =>
    rw [List.range_succ, List.countP_append, ih]
    simp only [List.countP_cons, List.countP_nil, Nat.zero_add]
    by_cases h1 : j ≤ f <;> simp [h1] <;> omega

/-- Among the pairs of draws below `n`, those accepted with `p1 = k`. -/
theorem countP_accepted_with (n k : Nat) (hk : k < n) :
    (drawPairs n).countP (fun fp => !decide (fp.2 > fp.1) && decide (fp.2 = k)) = n - k := by
  have inner : ∀ f : Nat,
      ((fun fp : Nat × Nat => !decide (fp.2 > fp.1) && decide (fp.2 = k)) ∘ fun p => (f, p))
        = fun p => decide (p ≤ f) && decide (p = k) := by
    intro f
    funext p
    simp only [Function.comp_apply, gt_iff_lt, decide_le_eq_not_lt]
  have outer : ∀ j : Nat,
      ((List.range j).map (fun f => if k ≤ f ∧ k < n then 1 else 0)).sum = j - k := by
    intro j
    induction j with
    | zero => simp
    | succ j ih =>
      rw [List.sum_range_succ, ih]
      by_cases h : k ≤ j <;> simp [h, hk] <;> omega
  rw [drawPairs, List.countP_flatMap]
  simp only [Function.comp_def, List.countP_map]
  simp only [Function.comp_def] at inner
  simp only [inner, countP_le_and_eq]
  exact outer n

/-- Among the pairs of draws below `n`, twice the number of accepted ones. -/
theorem countP_accepted (n : Nat) :
    2 * (drawPairs n).countP (fun fp => !decide (fp.2 > fp.1)) = n * (n + 1) := by
  have inner : ∀ f : Nat,
      ((fun fp : Nat × Nat => !decide (fp.2 > fp.1)) ∘ fun p => (f, p))
        = fun p => decide (p ≤ f) := by
    intro f
    funext p
    simp only [Function.comp_apply, gt_iff_lt, decide_le_eq_not_lt]
  have outer : ∀ j : Nat, j ≤ n →
      2 * ((List.range j).map (fun f => min n (f + 1))).sum = j * (j + 1) := by
    intro j
    induction j with
    | zero => simp
    | succ j ih =>
      intro hj
      rw [List.sum_range_succ, Nat.mul_add, ih (by omega), Nat.min_eq_right (by omega)]
      ring
  rw [drawPairs, List.countP_flatMap]
  simp only [Function.comp_def, List.countP_map]
  simp only [Function.comp_def] at inner
  simp only [inner, countP_le]
  exact outer n (Nat.le_refl n)

theorem drawTapes_length_pos (n : Nat) (hn : 1 ≤ n) : ∀ m : Nat, 0 < (drawTapes n m).length := by
  intro m
  induction m with
  | zero => simp [drawTapes]
  | succ m ih =>
    obtain ⟨t, ht⟩ := List.exists_mem_of_length_pos ih
    apply List.length_pos_of_mem (a := 0 :: 0 :: t)
    simp only [drawTapes, drawPairs, List.mem_flatMap, List.mem_map, List.mem_range]
    exact ⟨(0, 0), ⟨0, by omega, 0, by omega, rfl⟩, t, ht, rfl⟩

/-- The recurrence of the counts: a tape of `m + 1` pairs returns `p1 = k`
when its first pair is accepted with `p1 = k`, or is rejected and the rest of
the tape returns `p1 = k`. -/
theorem countFirstParent_succ (n m k : Nat) :
    countFirstParent n (m + 1) k
      = (drawPairs n).countP (fun fp => decide (fp.2 > fp.1)) * countFirstParent n m k
        + (drawPairs n).countP (fun fp => !decide (fp.2 > fp.1) && decide (fp.2 = k))
          * (drawTapes n m).length := by
  unfold countFirstParent
  rw [countP_drawTapes_succ, ← sum_map_ite]
  congr 1
  apply List.map_congr_left
  intro fp hfp
  obtain ⟨hf, hp⟩ := mem_drawPairs n fp hfp
  simp only [firstParentOn_step n m fp.1 fp.2 _ hf hp]
  by_cases h1 : fp.2 > fp.1
  · simp only [if_pos h1, decide_eq_true h1, if_true]
  · by_cases h2 : fp.2 = k
    · subst h2
      simp only [if_neg h1, decide_eq_false h1, Bool.false_eq_true, if_false, decide_True,
        if_true]
      simp
    · simp only [if_neg h1, decide_eq_false h1, Bool.false_eq_true, if_false,
        Option.some.injEq, decide_eq_false h2]
      simp

theorem countReturned_succ (n m : Nat) :
    countReturned n (m + 1)
      = (drawPairs n).countP (fun fp => decide (fp.2 > fp.1)) * countReturned n m
        + (drawPairs n).countP (fun fp => !decide (fp.2 > fp.1)) * (drawTapes n m).length := by
  have hs := sum_map_ite (drawPairs n) (fun fp => decide (fp.2 > fp.1)) (fun _ => true)
    (countReturned n m) (drawTapes n m).length
  simp only [Bool.and_true] at hs
  rw [← hs]
  unfold countReturned
  rw [countP_drawTapes_succ]
  congr 1
  apply List.map_congr_left
  intro fp hfp
  obtain ⟨hf, hp⟩ := mem_drawPairs n fp hfp
  simp only [firstParentOn_step n m fp.1 fp.2 _ hf hp]
  by_cases h1 : fp.2 > fp.1
  · simp only [if_pos h1, decide_eq_true h1, if_true]
  · simp only [if_neg h1, decide_eq_false h1, Bool.false_eq_true, if_false, Option.isSome_some,
      if_true]
    simp

/-- The counts after `m` iterations share a factor `c`: `(n - k) * c` tapes
return `p1 = k`, and twice the number of tapes that return is
`n * (n + 1) * c`. -/
theorem counts_proportional (n : Nat) (hn : 1 ≤ n) :
    ∀ m : Nat, ∃ c : Nat, (1 ≤ m → 0 < c) ∧
      (∀ k, k < n → countFirstParent n m k = (n - k) * c) ∧
      2 * countReturned n m = n * (n + 1) * c := by
  intro m
  induction m with
  | zero =>
    refine ⟨0, by omega, ?_, ?_⟩
    · intro k _
      simp [countFirstParent, firstParentOn_zero]
    · simp [countReturned, firstParentOn_zero]
  | succ m ih =>
    obtain ⟨c, _, hk, hr⟩ := ih
    refine ⟨(drawPairs n).countP (fun fp => decide (fp.2 > fp.1)) * c + (drawTapes n m).length,
      fun _ => ?_, ?_, ?_⟩
    · have := drawTapes_length_pos n hn m
      omega
    · intro k hkn
      rw [countFirstParent_succ, hk k hkn, countP_accepted_with n k hkn]
      ring
    · rw [countReturned_succ, Nat.mul_add, ← Nat.mul_assoc, Nat.mul_comm 2, Nat.mul_assoc, hr,
        ← Nat.mul_assoc 2, countP_accepted n]
      ring

theorem drawPairs_length (n : Nat) : (drawPairs n).length = n * n := by
  simp [drawPairs, List.length_flatMap, Function.comp_def]

theorem drawTapes_one_length (n : Nat) : (drawTapes n 1).length = n * n := by
  simp [drawTapes, List.length_flatMap, Function.comp_def, drawPairs_length]

end CountingLemmas

section ParametricLemmas

variable {S G : Type}

theorem set_getElem_same {α : Type} (xs : List α) (i : Nat) (h : i < xs.length) :
    xs.set i xs[i] = xs := by
  apply List.ext_getElem?
  intro j
  rw [List.getElem?_set]
  split
  · rename_i hij
    subst hij
    rw [List.getElem?_eq_getElem h]
  · rfl

/-- Copying the parameters of a formula from index `p` to the last one gives
its parameter vector from `p` on. -/
theorem copyGenes_eq_drop [Zero S] (formula : TF1 S) :
    ∀ (steps p : Nat), p + steps = formula.fParams.length →
      copyGenes formula steps p = formula.fParams.drop p := by
  intro steps
  induction steps with
  | zero =>
    intro p hp
    rw [copyGenes, List.drop_of_length_le (by omega)]
  | succ k ih =>
    intro p hp
    have hlt : p < formula.fParams.length := by omega
    rw [copyGenes, ih (p + 1) (by omega), List.drop_eq_getElem_cons hlt]
    simp only [TF1.GetParameter, List.getD_eq_getElem _ _ hlt]

/-- Writing back to a formula its own parameters from index `p` on leaves the
formula as it is. -/
theorem setGenes_own (formula : TF1 S) :
    ∀ (steps p : Nat), p + steps = formula.fParams.length →
      setGenes p (formula.fParams.drop p) formula = formula := by
  intro steps
  induction steps with
  | zero =>
    intro p hp
    rw [List.drop_of_length_le (by omega), setGenes]
  | succ k ih =>
    intro p hp
    have hlt : p < formula.fParams.length := by omega
    rw [List.drop_eq_getElem_cons hlt, setGenes]
    have e : formula.SetParameter p formula.fParams[p] = formula := by
      simp only [TF1.SetParameter, set_getElem_same _ _ hlt]
    rw [e]
    exact ih (p + 1) (by omega)

/-- The crossover hook on a vector whose first individual is the single parent
of the first group: the first individual is left as it is. -/
theorem parametric_doCrossOver_head [Zero S] (ext : Externals G S)
    (best : IModel S (TF1 S)) (rest : List (IModel S (TF1 S)))
    (groups : List (List (IModel S (TF1 S)))) (g : G) :
    (ParametricModelPopulation.doCrossOver ext ([best] :: groups) (best :: rest) g).1[0]?
      = some best := by
  simp only [ParametricModelPopulation.doCrossOver, List.length_cons, offspringGenesFor,
    applyOffspring, offspringOf, List.getElem?_cons_zero, Option.some.injEq]
  have h1 := copyGenes_eq_drop best.derived best.derived.GetNpar 0 (by simp [TF1.GetNpar])
  rw [h1]
  have h2 := setGenes_own best.derived best.derived.fParams.length 0 (by simp)
  rw [h2]

/-- With gating draws that are never below the mutation rate, the loop of
`mutate` invokes the hook on nobody. -/
theorem mutateFor_none {D : Type} [Zero S] [One S] [LT S] [DecidableRel (fun a b : S => a < b)]
    (ext : Externals G S) (hooks : Hooks S D G) (rate : S)
    (hgate : ∀ g : G, ¬ (ext.Uniform g 0 1).1 < rate) :
    ∀ (models : List (IModel S D)) (g : G), (mutateFor ext hooks rate models g).1 = models := by
  intro models
  induction models with
  | nil => intro g; rfl
  | cons m rest ih =>
    intro g
    rw [mutateFor]
    simp only
    rw [if_neg (hgate g), ih]

/-- After a `crossOver()` of a `ParametricModelPopulation` of at least one
individual that returns, slot 0 holds the individual that `sort()` put at
position 0, the size and the mutation rate are unchanged and the figure of
merit is still set. -/
theorem parametric_crossOver_elite [Zero S] [Add S] [Mul S] [LT S]
    [DecidableRel (fun a b : S => a < b)] [DecidableEq S]
    (ext : Externals G S) (self : ParametricModelPopulation S) (fuel : Nat)
    (p : IPopulation S (TF1 S) G) (hsize : 1 ≤ p.size)
    (hcross : (p.crossOver ext (self.hooks ext) fuel).1 = Except.ok ()) :
    (p.crossOver ext (self.hooks ext) fuel).2.size = p.size ∧
      (p.crossOver ext (self.hooks ext) fuel).2.m_mutateRate = p.m_mutateRate ∧
      (p.crossOver ext (self.hooks ext) fuel).2.m_fom = p.m_fom ∧
      ∃ best, p.sort.2.m_individuals[0]? = some best ∧
        (p.crossOver ext (self.hooks ext) fuel).2.m_individuals[0]? = some best := by
  have h2 : p.crossOver ext (self.hooks ext) fuel
      = (Except.ok (), (p.crossOver ext (self.hooks ext) fuel).2) := by
    rw [← hcross]
  obtain ⟨_, groups, g, hgroups, hq⟩ := crossOver_ok ext (self.hooks ext) fuel p _ h2
  obtain ⟨hlen, hspec⟩ := parentsFor_spec ext fuel _ _ _ _ _ _ hgroups
  have hsz := sort_size p
  have hfr := sort_frame p
  rw [hq]
  have hpos : 0 < groups.length := by omega
  obtain ⟨group0, hgroup0⟩ : ∃ group0, groups[0]? = some group0 :=
    ⟨groups[0], List.getElem?_eq_getElem hpos⟩
  obtain ⟨best, hbest1, hbest2⟩ := (hspec 0 group0 hgroup0).1 rfl
  subst hbest1
  refine ⟨?_, hfr.2.2.1, hfr.1, best, hbest2, ?_⟩
  · simp only [IPopulation.size]
    show (ParametricModelPopulation.doCrossOver ext groups p.sort.2.m_individuals g).1.length = _
    rw [parametric_doCrossOver_length]
    exact hsz
  · show (ParametricModelPopulation.doCrossOver ext groups p.sort.2.m_individuals g).1[0]? = _
    cases hg : groups with
    | nil => rw [hg] at hgroup0; simp at hgroup0
    | cons gr gtail =>
      rw [hg] at hgroup0
      simp only [List.getElem?_cons_zero, Option.some.injEq] at hgroup0
      subst hgroup0
      cases hi : p.sort.2.m_individuals with
      | nil => rw [hi] at hbest2; simp at hbest2
      | cons m itail =>
        rw [hi] at hbest2
        simp only [List.getElem?_cons_zero, Option.some.injEq] at hbest2
        subst hbest2
        exact parametric_doCrossOver_head ext m itail gtail g

/-- One call of `nextGeneration()` on a `ParametricModelPopulation` with
mutation rate 0, gating draws that are not negative, a transitive score
comparator and a scorer that depends on the formula only, from a population
that is ranked and whose stored scores are those of the scorer: when the call
returns, the population is again such a population, and the score at rank 0 is
the score that was at rank 0 or a better one. -/
theorem nextGeneration_step [Zero S] [One S] [Add S] [Sub S] [Mul S] [Div S] [NatCast S] [LT S]
    [DecidableRel (fun a b : S => a < b)] [DecidableEq S]
    (ext : Externals G S) (self : ParametricModelPopulation S) (fuel : Nat)
    (ga ga2 : GeneticAlgorithm) (p p2 : IPopulation S (TF1 S) G) (fom : IFigureOfMerit S (TF1 S))
    (b : Bool) (hgate : ∀ g : G, ¬ (ext.Uniform g 0 1).1 < 0)
    (htrans : ∀ a b c, fom.isBetterThanScore a b = true → fom.isBetterThanScore b c = true →
      fom.isBetterThanScore a c = true)
    (hdet : ∀ m1 m2 : IModel S (TF1 S), m1.derived = m2.derived → fom.evaluate m1 = fom.evaluate m2)
    (hfom : p.m_fom = some fom) (hrate : p.m_mutateRate = 0)
    (hsorted : p.size ≠ 0 → p.m_sorted = true)
    (hscored : ∀ m ∈ p.m_individuals, m.m_score = fom.evaluate m)
    (hnext : ga.nextGeneration ext (self.hooks ext) fuel p = (Except.ok b, ga2, p2)) :
    (p2.m_fom = some fom ∧ p2.m_mutateRate = 0 ∧ (p2.size ≠ 0 → p2.m_sorted = true) ∧
        ∀ m ∈ p2.m_individuals, m.m_score = fom.evaluate m) ∧
      ∃ old new, p.m_individuals[0]? = some old ∧ p2.m_individuals[0]? = some new ∧
        (new.m_score = old.m_score ∨ fom.isBetterThanScore new.m_score old.m_score = true) := by
  unfold GeneticAlgorithm.nextGeneration at hnext
  split at hnext
  · simp at hnext
  · by_cases hsz : p.size = 0
    · rw [getBestFitted_out_of_range p 0 (by simp [hsz])] at hnext
      simp at hnext
    · have hs := hsorted hsz
      have hlt : 0 < p.m_individuals.length := by
        simp only [IPopulation.size] at hsz; omega
      have hbest : p.m_individuals[0]? = some p.m_individuals[0] := List.getElem?_eq_getElem hlt
      rw [getBestFitted_of_sorted p hs _ hbest] at hnext
      simp only [IPopulation.getFigureOfMerit, hfom] at hnext
      have hsame : ((Except.ok false, ga, p) : Except Error Bool × GeneticAlgorithm ×
          IPopulation S (TF1 S) G) = (Except.ok b, ga2, p2) →
          (p2.m_fom = some fom ∧ p2.m_mutateRate = 0 ∧ (p2.size ≠ 0 → p2.m_sorted = true) ∧
            ∀ m ∈ p2.m_individuals, m.m_score = fom.evaluate m) ∧
          ∃ old new, p.m_individuals[0]? = some old ∧ p2.m_individuals[0]? = some new ∧
            (new.m_score = old.m_score ∨
              fom.isBetterThanScore new.m_score old.m_score = true) := by
        intro h
        simp only [Prod.mk.injEq] at h
        obtain ⟨_, _, hp⟩ := h
        subst hp
        exact ⟨⟨hfom, hrate, hsorted, hscored⟩, _, _, hbest, hbest, Or.inl rfl⟩
      split at hnext
      · exact hsame hnext
      · split at hnext
        · exact hsame hnext
        · rcases hc : p.crossOver ext (self.hooks ext) fuel with ⟨rc, p1⟩
          rw [hc] at hnext
          cases rc with
          | error e => simp at hnext
          | ok u =>
            simp only at hnext
            have hc1 : (p.crossOver ext (self.hooks ext) fuel).1 = Except.ok () := by rw [hc]
            obtain ⟨hsz1, hrate1, hfom1, best, hb1, hb2⟩ :=
              parametric_crossOver_elite ext self fuel p (by omega) hc1
            rw [hc] at hsz1 hrate1 hfom1 hb2
            simp only at hsz1 hrate1 hfom1 hb2
            rw [sort_of_sorted p hs] at hb1
            simp only at hb1
            have hmut : (p1.mutate ext (self.hooks ext)).m_individuals = p1.m_individuals := by
              simp only [IPopulation.mutate]
              apply mutateFor_none
              rw [hrate1, hrate]
              exact hgate
            have hfom3 : (p1.mutate ext (self.hooks ext)).m_fom = some fom := by
              simp only [IPopulation.mutate]
              rw [hfom1]; exact hfom
            have hrate3 : (p1.mutate ext (self.hooks ext)).m_mutateRate = 0 := by
              simp only [IPopulation.mutate]
              rw [hrate1]; exact hrate
            have hsz3 : (p1.mutate ext (self.hooks ext)).size ≠ 0 := by
              simp only [IPopulation.size] at hsz1 hlt ⊢
              rw [hmut]
              omega
            have hsort3 : (p1.mutate ext (self.hooks ext)).m_sorted = false := rfl
            obtain ⟨q, hscore, hqfom, hqsorted, hqrate, _, _, hqind⟩ :=
              score_as_sort ext _ fom hfom3 hsz3
            rw [hfom3] at hqfom
            rw [hrate3] at hqrate
            rw [hmut] at hqind
            rcases hsc : (p1.mutate ext (self.hooks ext)).score ext with ⟨rs, p3⟩
            rw [hsc] at hnext hscore
            have hok := sort_ok q fom hqfom
            rw [← hscore] at hok
            simp only at hok
            subst hok
            simp only [Prod.mk.injEq] at hnext
            obtain ⟨_, _, hp⟩ := hnext
            subst hp
            have hp3 : p3 = q.sort.2 := by rw [← hscore]
            have hbs : best.m_score = fom.evaluate best :=
              hscored best (List.mem_iff_getElem?.mpr ⟨0, hb1⟩)
            refine ⟨⟨?_, ?_, fun _ => ?_, ?_⟩, best, ?_⟩
            · rw [hp3, (sort_frame _).1]; exact hqfom
            · rw [hp3, (sort_frame _).2.2.1]; exact hqrate
            · rw [hp3]; exact sort_flag q (sort_ok q fom hqfom)
            · intro m hm
              rw [hp3] at hm
              have hm2 := (sort_perm _).mem_iff.mp hm
              rw [hqind] at hm2
              simp only [List.mem_map] at hm2
              obtain ⟨m0, _, hm0⟩ := hm2
              subst hm0
              exact hdet _ _ rfl
            · have hx : q.m_individuals[0]? = some (best.setScore (fom.evaluate best)) := by
                rw [hqind]
                simp only [List.getElem?_map, hb2, Option.map_some']
              obtain ⟨h, hh, hrel⟩ := sort_head q fom hqfom htrans _ hx
              rw [← hp3] at hh
              refine ⟨h, hb1, hh, ?_⟩
              rcases hrel with e | bt
              · left
                rw [e, hbs]
                rfl
              · right
                rw [hbs]
                exact bt

/-- A `score()` that returns, on a population with a figure of merit whose
scorer depends on the derived part of a model only: the population is ranked
unless it is empty, and the stored scores are those of the scorer. -/
theorem score_establishes {D : Type} [Zero S] [Add S] [Sub S] [Mul S] [Div S] [NatCast S] [LT S]
    [DecidableRel (fun a b : S => a < b)] (ext : Externals G S) (p : IPopulation S D G)
    (fom : IFigureOfMerit S D) (hfom : p.m_fom = some fom)
    (hdet : ∀ m1 m2 : IModel S D, m1.derived = m2.derived → fom.evaluate m1 = fom.evaluate m2)
    (hscored : p.size = 0 → ∀ m ∈ p.m_individuals, m.m_score = fom.evaluate m) :
    (p.score ext).1 = Except.ok () ∧ (p.score ext).2.m_fom = some fom ∧
      (p.score ext).2.m_mutateRate = p.m_mutateRate ∧
      ((p.score ext).2.size ≠ 0 → (p.score ext).2.m_sorted = true) ∧
      ∀ m ∈ (p.score ext).2.m_individuals, m.m_score = fom.evaluate m := by
  by_cases hsz : p.size = 0
  · have e : p.score ext = (Except.ok (), p) := by
      simp [IPopulation.score, hfom, hsz]
    rw [e]
    exact ⟨rfl, hfom, rfl, fun h => absurd hsz h, hscored hsz⟩
  · obtain ⟨q, hscore, hqfom, _, hqrate, _, _, hqind⟩ := score_as_sort ext p fom hfom hsz
    rw [hfom] at hqfom
    rw [hscore]
    have hok := sort_ok q fom hqfom
    refine ⟨hok, ?_, ?_, fun _ => sort_flag q hok, ?_⟩
    · rw [(sort_frame q).1]; exact hqfom
    · rw [(sort_frame q).2.2.1]; exact hqrate
    · intro m hm
      have hm2 := (sort_perm q).mem_iff.mp hm
      rw [hqind] at hm2
      simp only [List.mem_map] at hm2
      obtain ⟨m0, _, hm0⟩ := hm2
      subst hm0
      exact hdet _ _ rfl

/-- Every state of a run by hand on a `ParametricModelPopulation` with
mutation rate 0 holds a population that is ranked unless it is empty and whose
stored scores are those of the scorer. -/
theorem generations_ranked_scored [Zero S] [One S] [Add S] [Sub S] [Mul S] [Div S] [NatCast S]
    [LT S] [DecidableRel (fun a b : S => a < b)] [DecidableEq S]
    (ext : Externals G S) (self : ParametricModelPopulation S) (fuel : Nat)
    (ga : GeneticAlgorithm) (population : IPopulation S (TF1 S) G)
    (fom : IFigureOfMerit S (TF1 S)) (hgate : ∀ g : G, ¬ (ext.Uniform g 0 1).1 < 0)
    (htrans : ∀ a b c, fom.isBetterThanScore a b = true → fom.isBetterThanScore b c = true →
      fom.isBetterThanScore a c = true)
    (hdet : ∀ m1 m2 : IModel S (TF1 S), m1.derived = m2.derived → fom.evaluate m1 = fom.evaluate m2)
    (hfom : population.m_fom = some fom) (hrate : population.m_mutateRate = 0) :
    ∀ (calls : Nat) (b : Bool),
      (ga.generations ext (self.hooks ext) fuel population calls).1 = Except.ok b →
      (ga.generations ext (self.hooks ext) fuel population calls).2.2.m_fom = some fom ∧
      (ga.generations ext (self.hooks ext) fuel population calls).2.2.m_mutateRate = 0 ∧
      ((ga.generations ext (self.hooks ext) fuel population calls).2.2.size ≠ 0 →
        (ga.generations ext (self.hooks ext) fuel population calls).2.2.m_sorted = true) ∧
      ∀ m ∈ (ga.generations ext (self.hooks ext) fuel population calls).2.2.m_individuals,
        m.m_score = fom.evaluate m := by
  intro calls
  induction calls with
  | zero =>
    intro b hb
    have hinit := score_establishes ext
      (population.initializeN (self.hooks ext) ga.m_populationSize) fom hfom hdet
      (fun h0 m hm => by
        simp only [IPopulation.size] at h0
        rw [List.length_eq_zero.mp h0] at hm
        simp at hm)
    simp only [GeneticAlgorithm.generations, GeneticAlgorithm.initializeRun] at hb ⊢
    rcases hsc : (population.initializeN (self.hooks ext) ga.m_populationSize).score ext
      with ⟨r, p1⟩
    rw [hsc] at hinit hb
    cases r with
    | error e => simp at hb
    | ok u =>
      simp only at hinit ⊢
      exact ⟨hinit.2.1, by rw [hinit.2.2.1]; exact hrate, hinit.2.2.2.1, hinit.2.2.2.2⟩
  | succ k ih =>
    intro b hb
    rw [GeneticAlgorithm.generations] at hb ⊢
    rcases hprev : ga.generations ext (self.hooks ext) fuel population k with ⟨r, ga1, p1⟩
    rw [hprev] at hb ih
    cases r with
    | error e => simp at hb
    | ok b1 =>
      simp only at hb ih ⊢
      obtain ⟨hf1, hr1, hs1, hsc1⟩ := ih b1 rfl
      rcases hnext : ga1.nextGeneration ext (self.hooks ext) fuel p1 with ⟨r2, ga2, p2⟩
      rw [hnext] at hb
      simp only at hb ⊢
      subst hb
      exact (nextGeneration_step ext self fuel ga1 ga2 p1 p2 fom b hgate htrans hdet hf1 hr1 hs1
        hsc1 hnext).1

/-- The gating draws of the tape generator are not negative. -/
theorem tape_gate : ∀ g : List Nat, ¬ (tapeExternals.Uniform g 0 1).1 < 0 := by
  intro g
  simp [tapeExternals]

/-- The scorer of `valueFigureOfMerit` depends on the formula only. -/
theorem value_deterministic (m1 m2 : IModel Int (TF1 Int)) (h : m1.derived = m2.derived) :
    valueFigureOfMerit.evaluate m1 = valueFigureOfMerit.evaluate m2 := by
  simp [valueFigureOfMerit, h]

/-- The loop of `mutate` visits the slots in order. There is a sequence `gs`
of generator states, one before each slot and one after the last: at slot `i`
one gating value is drawn from `gs[i]`; when it is below the rate the hook is
applied once to the individual of the slot, with the generator as the draw
left it, and otherwise the individual is kept and the generator is as the
draw left it. -/
theorem mutateFor_trace {D : Type} [Zero S] [One S] [LT S] [DecidableRel (fun a b : S => a < b)]
    (ext : Externals G S) (hooks : Hooks S D G) (rate : S) :
    ∀ (models : List (IModel S D)) (g : G),
      (mutateFor ext hooks rate models g).1.length = models.length ∧
      ∃ gs : List G, gs.length = models.length + 1 ∧ gs[0]? = some g ∧
        gs[models.length]? = some (mutateFor ext hooks rate models g).2 ∧
        ∀ (i : Nat) (m : IModel S D), models[i]? = some m →
          ∃ gi, gs[i]? = some gi ∧
            ((ext.Uniform gi 0 1).1 < rate →
              (mutateFor ext hooks rate models g).1[i]?
                  = some (hooks.doMutate m (ext.Uniform gi 0 1).2).1 ∧
                gs[i + 1]? = some (hooks.doMutate m (ext.Uniform gi 0 1).2).2) ∧
            (¬ (ext.Uniform gi 0 1).1 < rate →
              (mutateFor ext hooks rate models g).1[i]? = some m ∧
                gs[i + 1]? = some (ext.Uniform gi 0 1).2) := by
  intro models
  induction models with
  | nil =>
    intro g
    refine ⟨rfl, [g], rfl, rfl, rfl, ?_⟩
    intro i m hm
    simp at hm
  | cons m0 rest ih =>
    intro g
    by_cases hgate : (ext.Uniform g 0 1).1 < rate
    · obtain ⟨hlen, gs, hgl, hg0, hgn, hslots⟩ := ih (hooks.doMutate m0 (ext.Uniform g 0 1).2).2
      have e : mutateFor ext hooks rate (m0 :: rest) g
          = ((hooks.doMutate m0 (ext.Uniform g 0 1).2).1 ::
              (mutateFor ext hooks rate rest (hooks.doMutate m0 (ext.Uniform g 0 1).2).2).1,
            (mutateFor ext hooks rate rest (hooks.doMutate m0 (ext.Uniform g 0 1).2).2).2) := by
        rw [mutateFor]
        simp only [if_pos hgate]
      rw [e]
      refine ⟨by simp [hlen], g :: gs, by simp [hgl], by simp, by simpa using hgn, ?_⟩
      intro i m hm
      cases i with
      | zero =>
        simp only [List.getElem?_cons_zero, Option.some.injEq] at hm
        subst hm
        refine ⟨g, by simp, fun _ => ⟨by simp, by simpa using hg0⟩, fun h => absurd hgate h⟩
      | succ j =>
        simp only [List.getElem?_cons_succ] at hm
        obtain ⟨gi, hgi, h1, h2⟩ := hslots j m hm
        exact ⟨gi, by simpa using hgi, fun h => by simpa using h1 h, fun h => by simpa using h2 h⟩
    · obtain ⟨hlen, gs, hgl, hg0, hgn, hslots⟩ := ih (ext.Uniform g 0 1).2
      have e : mutateFor ext hooks rate (m0 :: rest) g
          = (m0 :: (mutateFor ext hooks rate rest (ext.Uniform g 0 1).2).1,
            (mutateFor ext hooks rate rest (ext.Uniform g 0 1).2).2) := by
        rw [mutateFor]
        simp only [if_neg hgate]
      rw [e]
      refine ⟨by simp [hlen], g :: gs, by simp [hgl], by simp, by simpa using hgn, ?_⟩
      intro i m hm
      cases i with
      | zero =>
        simp only [List.getElem?_cons_zero, Option.some.injEq] at hm
        subst hm
        refine ⟨g, by simp, fun h => absurd h hgate, fun _ => ⟨by simp, by simpa using hg0⟩⟩
      | succ j =>
        simp only [List.getElem?_cons_succ] at hm
        obtain ⟨gi, hgi, h1, h2⟩ := hslots j m hm
        exact ⟨gi, by simpa using hgi, fun h => by simpa using h1 h, fun h => by simpa using h2 h⟩

/-- With gating draws that are never below the mutation rate, the loop of
`mutate` leaves the generator as one gating draw per individual leaves it. -/
theorem mutateFor_none_random {D : Type} [Zero S] [One S] [LT S]
    [DecidableRel (fun a b : S => a < b)]
    (ext : Externals G S) (hooks : Hooks S D G) (rate : S)
    (hgate : ∀ g : G, ¬ (ext.Uniform g 0 1).1 < rate) :
    ∀ (models : List (IModel S D)) (g : G),
      (mutateFor ext hooks rate models g).2
        = (fun g0 => (ext.Uniform g0 0 1).2)^[models.length] g := by
  intro models
  induction models with
  | nil => intro g; rfl
  | cons m rest ih =>
    intro g
    rw [mutateFor]
    simp only [if_neg (hgate g), List.length_cons, Function.iterate_succ, Function.comp_apply]
    exact ih _

/-- The parameter loop of `doInitialize` changes parameter values only. -/
theorem initializeParameters_frame [Zero S] [LT S] [DecidableRel (fun a b : S => a < b)]
    (ext : Externals G S) :
    ∀ (steps p : Nat) (formula : TF1 S) (g : G),
      (initializeParameters ext steps p formula g).1.fParLimits = formula.fParLimits ∧
      (initializeParameters ext steps p formula g).1.fEval = formula.fEval ∧
      (initializeParameters ext steps p formula g).1.fParams.length = formula.fParams.length := by
  intro steps
  induction steps with
  | zero => intro p formula g; exact ⟨rfl, rfl, rfl⟩
  | succ k ih =>
    intro p formula g
    rw [initializeParameters]
    simp only
    split
    · obtain ⟨h1, h2, h3⟩ := ih (p + 1)
        (formula.SetParameter p (ext.Uniform g (formula.GetParLimits p).1
          (formula.GetParLimits p).2).1)
        (ext.Uniform g (formula.GetParLimits p).1 (formula.GetParLimits p).2).2
      refine ⟨h1, h2, ?_⟩
      rw [h3]
      simp [TF1.SetParameter]
    · exact ih (p + 1) formula g

/-- The loop of `doInitialize` creates `count` models, each of score 0 with a
clone of the formula of the population in which parameter values only may
differ. -/
theorem doInitializeFor_fresh [Zero S] [LT S] [DecidableRel (fun a b : S => a < b)]
    (ext : Externals G S) (m_formula : TF1 S) :
    ∀ (count : Nat) (g : G),
      (doInitializeFor ext m_formula count g).1.length = count ∧
      ∀ m ∈ (doInitializeFor ext m_formula count g).1,
        m.m_score = 0 ∧ m.derived.fParLimits = m_formula.fParLimits ∧
          m.derived.fEval = m_formula.fEval ∧
          m.derived.fParams.length = m_formula.fParams.length := by
  intro count
  induction count with
  | zero =>
    intro g
    refine ⟨rfl, ?_⟩
    intro m hm
    simp [doInitializeFor] at hm
  | succ k ih =>
    intro g
    rw [doInitializeFor]
    simp only [List.length_cons, List.mem_cons]
    obtain ⟨hlen, hall⟩ := ih (initializeParameters ext m_formula.GetNpar 0 m_formula g).2
    refine ⟨by rw [hlen], ?_⟩
    intro m hm
    rcases hm with hm | hm
    · subst hm
      exact ⟨rfl, initializeParameters_frame ext _ _ _ _⟩
    · exact hall m hm

end ParametricLemmas

section Claims

variable {S D G : Type}

/-- C1. For a population flagged unsorted whose figure of merit compares
scores by a strict weak order, `sort()` returns normally, sets the sorted flag,
leaves a permutation of the individuals, and in that permutation the individual
at position `j` is not better than the individual at position `i` whenever
`i < j`. -/
theorem sort_ranks_best_to_worst (p : IPopulation S D G) (fom : IFigureOfMerit S D)
    (hfom : p.m_fom = some fom) (hflag : p.m_sorted = false)
    (hswo : StrictWeakOrder fom.isBetterThanScore) :
    p.sort.1 = Except.ok () ∧ p.sort.2.m_sorted = true ∧
      p.sort.2.m_individuals.Perm p.m_individuals ∧
      ∀ (i j : Nat) (hi : i < p.sort.2.m_individuals.length)
        (hj : j < p.sort.2.m_individuals.length), i < j →
        fom.isBetterThan p.sort.2.m_individuals[j] p.sort.2.m_individuals[i] = false := by
  have hs := sortWhile_sorted_perm (fun a b : IModel S D => fom.isBetterThan a b)
    (isBetterThan_strictWeakOrder fom hswo) p.m_individuals
  by_cases hsz : p.size ≤ 1
  · have e : p.sort = (Except.ok (), { p with m_sorted := true }) := by
      simp [IPopulation.sort, hflag, hfom, hsz]
    rw [e]
    refine ⟨rfl, rfl, List.Perm.refl _, ?_⟩
    intro i j hi hj hij
    simp only [IPopulation.size] at hsz
    simp only at hj
    omega
  · have e : p.sort = (Except.ok (), { p with
        m_sorted := true
        m_individuals := sortWhile fom.isBetterThan p.size p.size p.m_individuals }) := by
      simp [IPopulation.sort, hflag, hfom, hsz]
    rw [e]
    refine ⟨rfl, rfl, hs.1, ?_⟩
    intro i j hi hj hij
    exact (List.pairwise_iff_getElem.mp hs.2) i j hi hj hij

/-- The hypotheses of C1 hold of `unsortedPopulation`, whose scores `1, 3, 2`
are rearranged by `sort()` into `3, 2, 1`. -/
theorem sort_ranks_best_to_worst_witness :
    (unsortedPopulation.m_fom = some valueFigureOfMerit ∧ unsortedPopulation.m_sorted = false) ∧
      unsortedPopulation.sort.2.m_individuals.map IModel.getScore = [3, 2, 1] ∧
      unsortedPopulation.sort.2.m_sorted = true ∧
      unsortedPopulation.sort.2.m_individuals.Perm unsortedPopulation.m_individuals :=
  ⟨⟨rfl, rfl⟩, by decide,
    (sort_ranks_best_to_worst unsortedPopulation valueFigureOfMerit rfl rfl
      defaultIsBetterThan_strictWeakOrder).2.1,
    (sort_ranks_best_to_worst unsortedPopulation valueFigureOfMerit rfl rfl
      defaultIsBetterThan_strictWeakOrder).2.2.1⟩

/-- C2, at the failing input. After `initialize(2); getBestFitted(0)` the
population is flagged sorted; `score()` then stores the scores `1, 2` and
returns with the individuals in that order, although under the comparator of
the figure of merit the score `2` at position 1 is better than the score `1`
at position 0. -/
theorem score_after_ranking_keeps_stale_order :
    rankedBeforeScoring.m_sorted = true ∧
      (rankedBeforeScoring.score tapeExternals).1 = Except.ok () ∧
      (rankedBeforeScoring.score tapeExternals).2.m_individuals.map IModel.getScore = [1, 2] ∧
      valueFigureOfMerit.isBetterThanScore 2 1 = true := by
  decide

/-- C3. With a figure of merit set, `getBestFitted(rank)` raises the range
error exactly when `rank < 0` or `rank >= size()`, and then leaves the
population as it was; otherwise it returns the individual at position `rank` of
the population as `sort()` leaves it, which is the population after the call.
On a non-empty population, `getBestFitted(0)` called right after `score()`
returns `individuals[0]` and changes nothing. -/
theorem getBestFitted_range_and_rank [Zero S] [Add S] [Sub S] [Mul S] [Div S] [NatCast S]
    [LT S] [DecidableRel (fun a b : S => a < b)] (ext : Externals G S)
    (p : IPopulation S D G) (fom : IFigureOfMerit S D) (hfom : p.m_fom = some fom)
    (rank : Int) :
    ((∃ e, (p.getBestFitted rank).1 = Except.error e) ↔ (rank < 0 ∨ rank ≥ (p.size : Int))) ∧
      ((rank < 0 ∨ rank ≥ (p.size : Int)) →
        p.getBestFitted rank = (Except.error Error.rankOutOfRange, p)) ∧
      (¬ (rank < 0 ∨ rank ≥ (p.size : Int)) →
        ∃ m, p.sort.2.m_individuals[rank.toNat]? = some m ∧
          p.getBestFitted rank = (Except.ok m, p.sort.2)) ∧
      (p.size ≠ 0 →
        ∃ m, (p.score ext).2.m_individuals[0]? = some m ∧
          (p.score ext).2.getBestFitted 0 = (Except.ok m, (p.score ext).2)) := by
  refine ⟨⟨?_, ?_⟩, getBestFitted_out_of_range p rank, getBestFitted_in_range p fom hfom rank, ?_⟩
  · rintro ⟨e, he⟩
    by_contra hin
    obtain ⟨m, _, hm⟩ := getBestFitted_in_range p fom hfom rank hin
    rw [hm] at he
    cases he
  · intro h
    exact ⟨Error.rankOutOfRange, by rw [getBestFitted_out_of_range p rank h]⟩
  · intro hsz
    obtain ⟨_, hflag, hfom2, hsize⟩ := score_flag ext p fom hfom hsz
    have hin : ¬ ((0 : Int) < 0 ∨ (0 : Int) ≥ (((p.score ext).2.size : Nat) : Int)) := by
      omega
    obtain ⟨m, hm, hget⟩ := getBestFitted_in_range (p.score ext).2 fom hfom2 0 hin
    rw [sort_of_sorted _ hflag] at hm hget
    exact ⟨m, hm, hget⟩

/-- The hypothesis of C3 holds of `unsortedPopulation`: rank 3 raises the range
error and leaves the flag and the order, rank 1 returns the model of score 2. -/
theorem getBestFitted_range_and_rank_witness :
    unsortedPopulation.m_fom = some valueFigureOfMerit ∧
      unsortedPopulation.getBestFitted 3 = (Except.error Error.rankOutOfRange, unsortedPopulation) ∧
      ((unsortedPopulation.getBestFitted 1).1.map IModel.getScore) = Except.ok 2 ∧
      ((∃ e, (unsortedPopulation.getBestFitted 1).1 = Except.error e) ↔
        ((1 : Int) < 0 ∨ (1 : Int) ≥ (unsortedPopulation.size : Int))) :=
  ⟨rfl,
    (getBestFitted_range_and_rank tapeExternals unsortedPopulation valueFigureOfMerit rfl 3).2.1
      (by decide),
    by decide,
    (getBestFitted_range_and_rank tapeExternals unsortedPopulation valueFigureOfMerit rfl 1).1⟩

/-- C10. For a population of size `n >= 2` and a generator whose `Integer(n)`
lies in `[0, n)`, whenever `selectParents` returns, with `(f1, p1)` and
`(f2, p2)` the last pairs drawn by its two loops, then `p1 < n`, `p2 < n`,
`p1 != p2`, `p1 <= f1` and `p2 <= f2`; each pair consists of two consecutive
draws of the generator, and `(p1, p2)` is what the call hands back. -/
theorem selectParents_distinct_in_range (ext : Externals G S) (n fuel : Nat) (g : G)
    (hn : 2 ≤ n) (hrange : ∀ (g0 : G) (imax : Nat), 0 < imax → (ext.Integer g0 imax).1 < imax)
    (f1 p1 f2 p2 : Nat) (g2 : G)
    (h : selectParentsLocals ext n fuel g = (Except.ok ((f1, p1), (f2, p2)), g2)) :
    p1 < n ∧ p2 < n ∧ p1 ≠ p2 ∧ p1 ≤ f1 ∧ p2 ≤ f2 ∧
      (∃ ga : G, f1 = (ext.Integer ga n).1 ∧ p1 = (ext.Integer (ext.Integer ga n).2 n).1) ∧
      (∃ gb : G, f2 = (ext.Integer gb n).1 ∧ p2 = (ext.Integer (ext.Integer gb n).2 n).1 ∧
        g2 = (ext.Integer (ext.Integer gb n).2 n).2) ∧
      IPopulation.selectParents ext n fuel g = (Except.ok (p1, p2), g2) := by
  obtain ⟨g1, h1, h2⟩ := selectParentsLocals_spec ext n fuel g f1 p1 f2 p2 g2 h
  obtain ⟨hle1, ga, hf1, hp1, _⟩ := selectFirst_spec ext n fuel g f1 p1 g1 h1
  obtain ⟨hne, hle2, gb, hf2, hp2, hg2⟩ := selectSecond_spec ext n p1 fuel g1 f2 p2 g2 h2
  have hlt1 : f1 < n := by rw [hf1]; exact hrange ga n (by omega)
  have hlt2 : f2 < n := by rw [hf2]; exact hrange gb n (by omega)
  refine ⟨by omega, by omega, hne, hle1, hle2, ⟨ga, hf1, hp1⟩, ⟨gb, hf2, hp2, hg2⟩, ?_⟩
  unfold IPopulation.selectParents
  rw [h]

/-- The hypotheses of C10 hold of the tape generator on a population of size 3:
the pair `(0, 1)` is rejected, `(2, 0)` gives `p1 = 0`, the pair `(1, 0)` is
rejected because `p2 = p1`, and `(2, 1)` gives `p2 = 1`. -/
theorem selectParents_distinct_in_range_witness :
    selectParentsLocals tapeExternals 3 5 [0, 1, 2, 0, 1, 0, 2, 1, 7]
        = (Except.ok ((2, 0), (2, 1)), [7]) ∧
      (0 < 3 ∧ 1 < 3 ∧ 0 ≠ 1 ∧ 0 ≤ 2 ∧ 1 ≤ 2) ∧
      IPopulation.selectParents tapeExternals 3 5 [0, 1, 2, 0, 1, 0, 2, 1, 7]
        = (Except.ok (0, 1), [7]) :=
  ⟨by decide, by decide,
    (selectParents_distinct_in_range tapeExternals 3 5 [0, 1, 2, 0, 1, 0, 2, 1, 7] (by decide)
      (fun g0 imax himax => Nat.mod_lt _ himax) 2 0 2 1 [7] (by decide)).2.2.2.2.2.2.2⟩

/-- C9. Whenever `crossOver()` returns, with a crossover hook that keeps the
number of individuals, the size is unchanged and the parent buffer handed to
the hook has one group per slot: group 0 is the single individual at position 0
of the vector as `sort()` left it, and every group `i >= 1` consists of the two
individuals at two distinct indices `p1, p2 < size()` of that vector. -/
theorem crossOver_parent_groups (ext : Externals G S) (hooks : Hooks S D G) (fuel : Nat)
    (p : IPopulation S D G)
    (hhook : ∀ parents individuals g,
      (hooks.doCrossOver parents individuals g).1.length = individuals.length)
    (h : (p.crossOver ext hooks fuel).1 = Except.ok ()) :
    (p.crossOver ext hooks fuel).2.size = p.size ∧
      (p.crossOver ext hooks fuel).2.m_parents.length = p.size ∧
      (∀ group, (p.crossOver ext hooks fuel).2.m_parents[0]? = some group →
        ∃ m, group = [m] ∧ p.sort.2.m_individuals[0]? = some m) ∧
      (∀ (i : Nat) group, 1 ≤ i → (p.crossOver ext hooks fuel).2.m_parents[i]? = some group →
        ∃ (p1 p2 : Nat) (m1 m2 : IModel S D), p1 ≠ p2 ∧ p1 < p.size ∧ p2 < p.size ∧
          p.sort.2.m_individuals[p1]? = some m1 ∧ p.sort.2.m_individuals[p2]? = some m2 ∧
          group = [m1, m2]) := by
  have h2 : p.crossOver ext hooks fuel = (Except.ok (), (p.crossOver ext hooks fuel).2) := by
    rw [← h]
  obtain ⟨_, groups, g, hgroups, hp1⟩ := crossOver_ok ext hooks fuel p _ h2
  obtain ⟨hlen, hspec⟩ := parentsFor_spec ext fuel _ _ _ _ _ _ hgroups
  have hsize := sort_size p
  rw [hp1]
  refine ⟨?_, ?_, ?_, ?_⟩
  · simp only [IPopulation.size, hhook]
    exact hsize
  · simp only [hlen]
    exact hsize
  · intro group hgroup
    exact (hspec 0 group hgroup).1 rfl
  · intro i group hi hgroup
    obtain ⟨p1, p2, m1, m2, hne, hm1, hm2, hgr⟩ := (hspec i group hgroup).2 (by omega)
    have hb1 := (List.getElem?_eq_some.mp hm1).1
    have hb2 := (List.getElem?_eq_some.mp hm2).1
    simp only [IPopulation.size] at hsize
    refine ⟨p1, p2, m1, m2, hne, ?_, ?_, hm1, hm2, hgr⟩
    · simp only [IPopulation.size]; omega
    · simp only [IPopulation.size]; omega

/-- The hypotheses of C9 hold of a `ParametricModelPopulation` of three
individuals of scores `1, 3, 2`: `crossOver()` returns, the buffer has the
groups of scores `[3]`, `[3, 2]` and `[2, 3]`, and the size is still 3. -/
theorem crossOver_parent_groups_witness :
    ((tapePopulation [2, 0, 2, 1, 1, 1, 2, 0, 1, 0] 0).crossOver tapeExternals constantHooks 3).1
        = Except.ok () ∧
      ((tapePopulation [2, 0, 2, 1, 1, 1, 2, 0, 1, 0] 0).crossOver tapeExternals
        constantHooks 3).2.m_parents.map (fun group => group.map IModel.getScore)
        = [[3], [3, 2], [2, 3]] ∧
      ((tapePopulation [2, 0, 2, 1, 1, 1, 2, 0, 1, 0] 0).crossOver tapeExternals
        constantHooks 3).2.size = (tapePopulation [2, 0, 2, 1, 1, 1, 2, 0, 1, 0] 0).size :=
  ⟨by decide, by decide,
    (crossOver_parent_groups tapeExternals constantHooks 3
      (tapePopulation [2, 0, 2, 1, 1, 1, 2, 0, 1, 0] 0)
      (fun parents individuals g => parametric_doCrossOver_length tapeExternals parents individuals g)
      (by decide)).1⟩

/-- C8. For a `ParametricModelPopulation` of at least one individual with a
figure of merit set, whenever `crossOver()` returns the size is unchanged and
slot 0 holds the individual that was at rank 0, hence with its parameter
vector; with `mutateRate = 0` and gating draws that are not negative the
following `mutate()` changes no individual, and after the next `score()` the
population contains that individual carrying the score computed from it. -/
theorem crossOver_elite_pass_through [Zero S] [One S] [Add S] [Sub S] [Mul S] [Div S]
    [NatCast S] [LT S] [DecidableRel (fun a b : S => a < b)] [DecidableEq S]
    (ext : Externals G S) (self : ParametricModelPopulation S) (fuel : Nat)
    (p : IPopulation S (TF1 S) G) (fom : IFigureOfMerit S (TF1 S)) (hfom : p.m_fom = some fom)
    (hsize : 1 ≤ p.size)
    (hcross : (p.crossOver ext (self.hooks ext) fuel).1 = Except.ok ()) :
    (p.crossOver ext (self.hooks ext) fuel).2.size = p.size ∧
      ∃ best, p.sort.2.m_individuals[0]? = some best ∧
        (p.crossOver ext (self.hooks ext) fuel).2.m_individuals[0]? = some best ∧
        (p.m_mutateRate = 0 → (∀ g : G, ¬ (ext.Uniform g 0 1).1 < 0) →
          ((p.crossOver ext (self.hooks ext) fuel).2.mutate ext (self.hooks ext)).m_individuals
              = (p.crossOver ext (self.hooks ext) fuel).2.m_individuals ∧
            ((((p.crossOver ext (self.hooks ext) fuel).2.mutate ext (self.hooks ext)).score
              ext).1 = Except.ok () ∧
            best.setScore (fom.evaluate best) ∈
              (((p.crossOver ext (self.hooks ext) fuel).2.mutate ext (self.hooks ext)).score
                ext).2.m_individuals)) := by
  obtain ⟨hsz, hrate, hfom2, best, hb1, hb2⟩ :=
    parametric_crossOver_elite ext self fuel p hsize hcross
  refine ⟨hsz, best, hb1, hb2, ?_⟩
  intro hr hgate
  have hmut : ((p.crossOver ext (self.hooks ext) fuel).2.mutate ext (self.hooks ext)).m_individuals
      = (p.crossOver ext (self.hooks ext) fuel).2.m_individuals := by
    simp only [IPopulation.mutate]
    apply mutateFor_none
    rw [hrate, hr]
    exact hgate
  refine ⟨hmut, ?_⟩
  have hfom3 : ((p.crossOver ext (self.hooks ext) fuel).2.mutate ext (self.hooks ext)).m_fom
      = some fom := by
    simp only [IPopulation.mutate]
    rw [hfom2]; exact hfom
  have hsz3 : ((p.crossOver ext (self.hooks ext) fuel).2.mutate ext (self.hooks ext)).size ≠ 0 := by
    simp only [IPopulation.size] at hsz hsize ⊢
    rw [hmut]
    omega
  obtain ⟨mean, rms, hscore⟩ := score_of_fom ext _ fom hfom3 hsz3
  refine ⟨(score_flag ext _ fom hfom3 hsz3).1, ?_⟩
  rw [hscore]
  apply (sort_perm _).mem_iff.mpr
  simp only [List.mem_map]
  refine ⟨best, ?_, rfl⟩
  rw [hmut]
  exact List.mem_iff_getElem?.mpr ⟨0, hb2⟩

/-- C7, as amended. In a run by hand (`initialize`, then calls of
`nextGeneration()`) on a `ParametricModelPopulation` with mutation rate 0 and
gating draws that are not negative, a scorer that depends on the formula only
and a transitive score comparator: whenever the call number `calls + 1`
returns, the score at rank 0 after it equals the score at rank 0 before it or
is better, and with an irreflexive comparator the score before is not better
than the score after. -/
theorem elitism_without_mutation [Zero S] [One S] [Add S] [Sub S] [Mul S] [Div S] [NatCast S]
    [LT S] [DecidableRel (fun a b : S => a < b)] [DecidableEq S]
    (ext : Externals G S) (self : ParametricModelPopulation S) (fuel : Nat)
    (ga : GeneticAlgorithm) (population : IPopulation S (TF1 S) G)
    (fom : IFigureOfMerit S (TF1 S)) (hgate : ∀ g : G, ¬ (ext.Uniform g 0 1).1 < 0)
    (htrans : ∀ a b c, fom.isBetterThanScore a b = true → fom.isBetterThanScore b c = true →
      fom.isBetterThanScore a c = true)
    (hdet : ∀ m1 m2 : IModel S (TF1 S), m1.derived = m2.derived → fom.evaluate m1 = fom.evaluate m2)
    (hfom : population.m_fom = some fom) (hrate : population.m_mutateRate = 0)
    (calls : Nat) (b : Bool)
    (hret : (ga.generations ext (self.hooks ext) fuel population (calls + 1)).1 = Except.ok b) :
    ∃ old new,
      (ga.generations ext (self.hooks ext) fuel population calls).2.2.m_individuals[0]? = some old ∧
      (ga.generations ext (self.hooks ext) fuel population (calls + 1)).2.2.m_individuals[0]?
        = some new ∧
      (new.m_score = old.m_score ∨ fom.isBetterThanScore new.m_score old.m_score = true) ∧
      ((∀ a, fom.isBetterThanScore a a = false) →
        fom.isBetterThanScore old.m_score new.m_score = false) := by
  have hinv := generations_ranked_scored ext self fuel ga population fom hgate htrans hdet hfom
    hrate calls
  rw [GeneticAlgorithm.generations] at hret ⊢
  rcases hprev : ga.generations ext (self.hooks ext) fuel population calls with ⟨r, ga1, p1⟩
  rw [hprev] at hret hinv
  cases r with
  | error e => simp at hret
  | ok b1 =>
    simp only at hret hinv ⊢
    obtain ⟨hf1, hr1, hs1, hsc1⟩ := hinv b1 rfl
    rcases hnext : ga1.nextGeneration ext (self.hooks ext) fuel p1 with ⟨r2, ga2, p2⟩
    rw [hnext] at hret
    simp only at hret ⊢
    subst hret
    obtain ⟨_, old, new, ho, hn, hrel⟩ :=
      nextGeneration_step ext self fuel ga1 ga2 p1 p2 fom b hgate htrans hdet hf1 hr1 hs1 hsc1
        hnext
    refine ⟨old, new, ho, hn, hrel, ?_⟩
    intro hirr
    rcases hrel with e | bt
    · rw [e]; exact hirr _
    · cases hc : fom.isBetterThanScore old.m_score new.m_score with
      | false => rfl
      | true =>
        have := htrans _ _ _ hc bt
        rw [hirr] at this
        exact this.symm

/-- C7, the claim as stated fails. With mutation rate 1, one individual, the
scorer `valueFigureOfMerit` and its transitive comparator `>`: the score at
rank 0 is 5 after `initialize` and `-5` after the first generation, which
mutated the elite; 5 is better than `-5`. -/
theorem elitism_fails_with_mutation :
    (mutatingRun 0).1 = Except.ok true ∧
      (mutatingRun 0).2.2.m_individuals.map IModel.getScore = [5] ∧
      (mutatingRun 1).1 = Except.ok true ∧
      (mutatingRun 1).2.2.m_individuals.map IModel.getScore = [-5] ∧
      valueFigureOfMerit.isBetterThanScore 5 (-5) = true ∧
      ¬ ((-5 : Int) = 5 ∨ valueFigureOfMerit.isBetterThanScore (-5) 5 = true) := by
  decide

/-- C6. Whenever `optimize(population)` returns a model, that model is what
`getBestFitted(0)` returns on the population as `optimize` leaves it, a call
that changes nothing, and the figure of merit accepts that model or the
generation counter is greater than `generationsMax`. -/
theorem optimize_returns_best [Zero S] [One S] [Add S] [Sub S] [Mul S] [Div S] [NatCast S]
    [LT S] [DecidableRel (fun a b : S => a < b)]
    (ext : Externals G S) (hooks : Hooks S D G) (fuel : Nat) (ga : GeneticAlgorithm)
    (population : IPopulation S D G) (best : IModel S D)
    (h : (ga.optimize ext hooks fuel population).1 = Except.ok best) :
    (ga.optimize ext hooks fuel population).2.2.getBestFitted 0
        = (Except.ok best, (ga.optimize ext hooks fuel population).2.2) ∧
      ∃ fom, (ga.optimize ext hooks fuel population).2.2.m_fom = some fom ∧
        (fom.accept best = true ∨
          (ga.optimize ext hooks fuel population).2.1.m_currentGeneration
            > (ga.optimize ext hooks fuel population).2.1.m_generationsMax) := by
  unfold GeneticAlgorithm.optimize at h ⊢
  rcases hi : ga.initializeRun ext hooks population with ⟨ri, ga1, p1⟩
  rw [hi] at h
  cases ri with
  | error e => simp at h
  | ok u =>
    simp only at h ⊢
    rcases hw : optimizeWhile ext hooks fuel fuel ga1 p1 with ⟨rw, ga2, p2⟩
    rw [hw] at h
    cases rw with
    | error e => simp at h
    | ok u2 =>
      simp only at h ⊢
      obtain ⟨ga0, p0, hn⟩ := optimizeWhile_ok ext hooks fuel fuel ga1 ga2 p1 p2 u2 hw
      obtain ⟨hga, best1, fom, hget, hfom, hcond⟩ :=
        nextGeneration_false ext hooks fuel ga0 ga2 p0 p2 hn
      subst hga
      obtain ⟨hq, hok, hb⟩ := getBestFitted_ok p0 p2 0 best1 hget
      have hflag : p2.m_sorted = true := by rw [hq]; exact sort_flag p0 hok
      have hget2 := getBestFitted_of_sorted p2 hflag best1 (by simpa using hb)
      rw [hget2] at h ⊢
      simp only [Except.ok.injEq] at h
      subst h
      exact ⟨hget2, fom, hfom, hcond⟩

/-- C4, as amended. For an algorithm object bound to a population that is not
empty and has a figure of merit, with `best` the individual at rank 0:
`nextGeneration()` returns false exactly when the figure of merit accepts
`best` or the counter is strictly greater than `generationsMax`, and then the
counter is unchanged and the population is only ranked; in every other case,
when `crossOver()` returns, the call returns true with the counter incremented
by 1 and the population obtained by `crossOver()`, `mutate()`, `score()` in
that order. -/
theorem nextGeneration_spec [Zero S] [One S] [Add S] [Sub S] [Mul S] [Div S] [NatCast S]
    [LT S] [DecidableRel (fun a b : S => a < b)]
    (ext : Externals G S) (hooks : Hooks S D G) (fuel : Nat) (ga : GeneticAlgorithm)
    (p : IPopulation S D G) (fom : IFigureOfMerit S D)
    (hbound : ga.m_population = true) (hfom : p.m_fom = some fom) (hsize : p.size ≠ 0) :
    ∃ best, p.sort.2.m_individuals[0]? = some best ∧
      ((ga.nextGeneration ext hooks fuel p).1 = Except.ok false ↔
        (fom.accept best = true ∨ ga.m_currentGeneration > ga.m_generationsMax)) ∧
      ((fom.accept best = true ∨ ga.m_currentGeneration > ga.m_generationsMax) →
        ga.nextGeneration ext hooks fuel p = (Except.ok false, ga, p.sort.2)) ∧
      (¬ (fom.accept best = true ∨ ga.m_currentGeneration > ga.m_generationsMax) →
        (p.sort.2.crossOver ext hooks fuel).1 = Except.ok () →
        (((p.sort.2.crossOver ext hooks fuel).2.mutate ext hooks).score ext).1 = Except.ok () ∧
        ga.nextGeneration ext hooks fuel p =
          (Except.ok true, { ga with m_currentGeneration := ga.m_currentGeneration + 1 },
            (((p.sort.2.crossOver ext hooks fuel).2.mutate ext hooks).score ext).2)) := by
  have hin : ¬ ((0 : Int) < 0 ∨ (0 : Int) ≥ (p.size : Int)) := by omega
  obtain ⟨best, hbest, hget⟩ := getBestFitted_in_range p fom hfom 0 hin
  have hfom2 : p.sort.2.m_fom = some fom := by rw [(sort_frame p).1]; exact hfom
  have hscore : ∀ q : IPopulation S D G, q.m_fom = some fom → (q.score ext).1 = Except.ok () := by
    intro q hq
    by_cases hz : q.size = 0
    · simp [IPopulation.score, hq, hz]
    · exact (score_flag ext q fom hq hz).1
  have hfom3 : ((p.sort.2.crossOver ext hooks fuel).2.mutate ext hooks).m_fom = some fom := by
    simp only [IPopulation.mutate]
    rw [crossOver_m_fom]
    exact hfom2
  have hunfold : ga.nextGeneration ext hooks fuel p =
      if fom.accept best then (Except.ok false, ga, p.sort.2)
      else if ga.m_currentGeneration > ga.m_generationsMax then (Except.ok false, ga, p.sort.2)
      else
        match p.sort.2.crossOver ext hooks fuel with
        | (Except.error e, p1) =>
          (Except.error e, { ga with m_currentGeneration := ga.m_currentGeneration + 1 }, p1)
        | (Except.ok _, p1) =>
          match (p1.mutate ext hooks).score ext with
          | (Except.error e, p2) =>
            (Except.error e, { ga with m_currentGeneration := ga.m_currentGeneration + 1 }, p2)
          | (Except.ok _, p2) =>
            (Except.ok true, { ga with m_currentGeneration := ga.m_currentGeneration + 1 }, p2) := by
    unfold GeneticAlgorithm.nextGeneration
    rw [if_neg (by simp [hbound]), hget]
    simp only [IPopulation.getFigureOfMerit, hfom2]
  simp only [Int.toNat_zero] at hbest
  refine ⟨best, hbest, ?_, ?_, ?_⟩
  · rw [hunfold]
    constructor
    · intro h
      by_contra hcon
      simp only [not_or] at hcon
      rw [if_neg hcon.1, if_neg hcon.2] at h
      rcases hc : p.sort.2.crossOver ext hooks fuel with ⟨rc, p1⟩
      rw [hc] at h
      cases rc with
      | error e => simp at h
      | ok u =>
        simp only at h
        rcases hsc : (p1.mutate ext hooks).score ext with ⟨rs, p3⟩
        rw [hsc] at h
        cases rs with
        | error e => simp at h
        | ok u2 => simp at h
    · intro h
      rcases h with h | h
      · rw [if_pos h]
      · by_cases ha : fom.accept best = true
        · rw [if_pos ha]
        · rw [if_neg ha, if_pos h]
  · intro h
    rw [hunfold]
    rcases h with h | h
    · rw [if_pos h]
    · by_cases ha : fom.accept best = true
      · rw [if_pos ha]
      · rw [if_neg ha, if_pos h]
  · intro hcon hcross
    have hs := hscore _ hfom3
    refine ⟨hs, ?_⟩
    simp only [not_or] at hcon
    rw [hunfold, if_neg hcon.1, if_neg hcon.2]
    rcases hc : p.sort.2.crossOver ext hooks fuel with ⟨rc, p1⟩
    rw [hc] at hcross hs
    simp only at hcross hs
    subst hcross
    simp only
    rcases hsc : (p1.mutate ext hooks).score ext with ⟨rs, p3⟩
    rw [hsc] at hs
    simp only at hs
    subst hs
    rfl

/-- The hypotheses of C4 as amended hold of the state after `initialize` of
the run `elitistRun 10`: the best score 7 is not accepted and the counter 0 is
not above 10, so the call returns true and the counter becomes 1. -/
theorem nextGeneration_spec_witness :
    ((elitistRun 10 0).2.1.m_population = true ∧
        (elitistRun 10 0).2.2.m_fom = some valueFigureOfMerit ∧ (elitistRun 10 0).2.2.size ≠ 0) ∧
      (elitistRun 10 1).1 = Except.ok true ∧
      (elitistRun 10 1).2.1.m_currentGeneration = (elitistRun 10 0).2.1.m_currentGeneration + 1 ∧
      ∃ best, (elitistRun 10 0).2.2.sort.2.m_individuals[0]? = some best ∧
        (((elitistRun 10 0).2.1.nextGeneration tapeExternals constantHooks 2
            (elitistRun 10 0).2.2).1 = Except.ok false ↔
          (valueFigureOfMerit.accept best = true ∨
            (elitistRun 10 0).2.1.m_currentGeneration > (elitistRun 10 0).2.1.m_generationsMax)) :=
  ⟨⟨by decide, rfl, by decide⟩, by decide, by decide,
    (nextGeneration_spec tapeExternals constantHooks 2 (elitistRun 10 0).2.1 (elitistRun 10 0).2.2
      valueFigureOfMerit (by decide) rfl (by decide)).imp (fun _ h => ⟨h.1, h.2.1⟩)⟩

/-- C4, the claim as stated fails on an empty population. After `initialize`
with population size 0 the counter is 0: with `generationsMax = 10` nothing is
accepted and the counter is not above the maximum, yet the call does not
return true; with `generationsMax = -1` the counter is above the maximum, yet
the call does not return false. Both calls raise the range error. -/
theorem nextGeneration_raises_on_empty_population :
    (emptyRun 10 0).1 = Except.ok true ∧ (emptyRun 10 0).2.1.m_currentGeneration = 0 ∧
      (emptyRun 10 0).2.2.size = 0 ∧
      (emptyRun 10 1).1 = Except.error Error.rankOutOfRange ∧
      (emptyRun (-1) 0).1 = Except.ok true ∧
      (emptyRun (-1) 0).2.1.m_currentGeneration > (emptyRun (-1) 0).2.1.m_generationsMax ∧
      (emptyRun (-1) 1).1 = Except.error Error.rankOutOfRange := by
  decide

/-- C5, at the failing input. With `setNGenerationsMax(0)` and a figure of
merit that accepts nothing, the first call of `nextGeneration()` returns true
after a full cycle and leaves `getCurrentGeneration() = 1`, above the maximum
0; only the second call returns false. -/
theorem generation_counter_exceeds_maximum :
    (elitistRun 0 0).2.1.m_generationsMax = 0 ∧
      (elitistRun 0 1).1 = Except.ok true ∧
      (elitistRun 0 1).2.1.getCurrentGeneration = 1 ∧
      (elitistRun 0 1).2.2.m_individuals.map IModel.getScore = [7, 7] ∧
      (elitistRun 0 2).1 = Except.ok false ∧
      (elitistRun 0 2).2.1.getCurrentGeneration = 1 := by
  decide

/-- The hypothesis of C6 holds of `optimize` with `generationsMax = 0` on two
individuals: it returns the model of score 7 after one generation, with the
counter 1 above the maximum. -/
theorem optimize_returns_best_witness :
    ((configured 0 2).optimize tapeExternals constantHooks 2
        (emptyPopulation [3, 7, 1, 0, 1, 1, 1, 0, 0] 0)).1 = Except.ok (constantModel 7 7) ∧
      ((configured 0 2).optimize tapeExternals constantHooks 2
        (emptyPopulation [3, 7, 1, 0, 1, 1, 1, 0, 0] 0)).2.1.m_currentGeneration = 1 ∧
      ((configured 0 2).optimize tapeExternals constantHooks 2
          (emptyPopulation [3, 7, 1, 0, 1, 1, 1, 0, 0] 0)).2.2.getBestFitted 0
        = (Except.ok (constantModel 7 7),
          ((configured 0 2).optimize tapeExternals constantHooks 2
            (emptyPopulation [3, 7, 1, 0, 1, 1, 1, 0, 0] 0)).2.2) :=
  have h : ((configured 0 2).optimize tapeExternals constantHooks 2
      (emptyPopulation [3, 7, 1, 0, 1, 1, 1, 0, 0] 0)).1 = Except.ok (constantModel 7 7) := rfl
  ⟨h, by decide,
    (optimize_returns_best tapeExternals constantHooks 2 (configured 0 2)
      (emptyPopulation [3, 7, 1, 0, 1, 1, 1, 0, 0] 0) (constantModel 7 7) h).1⟩

/-- The hypotheses of C7 as amended hold of the run `elitistRun 10`: the
scores are `7, 3` after `initialize` and `7, 7` after the first generation. -/
theorem elitism_without_mutation_witness :
    (elitistRun 10 1).1 = Except.ok true ∧
      (elitistRun 10 0).2.2.m_individuals.map IModel.getScore = [7, 3] ∧
      (elitistRun 10 1).2.2.m_individuals.map IModel.getScore = [7, 7] ∧
      ∃ old new, (elitistRun 10 0).2.2.m_individuals[0]? = some old ∧
        (elitistRun 10 1).2.2.m_individuals[0]? = some new ∧
        (new.m_score = old.m_score ∨
          valueFigureOfMerit.isBetterThanScore new.m_score old.m_score = true) :=
  ⟨by decide, by decide, by decide,
    (elitism_without_mutation tapeExternals constantPopulation 2 (configured 10 2)
      (emptyPopulation [3, 7, 1, 0, 1, 1, 1, 0, 0] 0) valueFigureOfMerit tape_gate
      (fun a b c => defaultIsBetterThan_strictWeakOrder.trans a b c) value_deterministic rfl rfl
      0 true (by decide)).imp
      (fun _ h => h.imp (fun _ h2 => ⟨h2.1, h2.2.1, h2.2.2.1⟩))⟩

/-- The hypotheses of C8 hold of a `ParametricModelPopulation` of three
individuals with mutation rate 0: after `crossOver()` the size is 3, slot 0
holds the individual that was at rank 0, and `mutate()` changes nobody. -/
theorem crossOver_elite_pass_through_witness :
    ((tapePopulation [2, 0, 2, 1, 1, 1, 2, 0, 1, 0] 0).m_fom = some valueFigureOfMerit ∧
        1 ≤ (tapePopulation [2, 0, 2, 1, 1, 1, 2, 0, 1, 0] 0).size) ∧
      ((tapePopulation [2, 0, 2, 1, 1, 1, 2, 0, 1, 0] 0).crossOver tapeExternals
        (constantPopulation.hooks tapeExternals) 3).2.m_individuals.map
          (fun m => m.derived.fParams) = [[3], [3], [3]] ∧
      ∃ best, (tapePopulation [2, 0, 2, 1, 1, 1, 2, 0, 1, 0] 0).sort.2.m_individuals[0]?
          = some best ∧
        ((tapePopulation [2, 0, 2, 1, 1, 1, 2, 0, 1, 0] 0).crossOver tapeExternals
          (constantPopulation.hooks tapeExternals) 3).2.m_individuals[0]? = some best ∧
        (((tapePopulation [2, 0, 2, 1, 1, 1, 2, 0, 1, 0] 0).crossOver tapeExternals
            (constantPopulation.hooks tapeExternals) 3).2.mutate tapeExternals
              (constantPopulation.hooks tapeExternals)).m_individuals
          = ((tapePopulation [2, 0, 2, 1, 1, 1, 2, 0, 1, 0] 0).crossOver tapeExternals
            (constantPopulation.hooks tapeExternals) 3).2.m_individuals :=
  ⟨⟨rfl, by decide⟩, by decide,
    (crossOver_elite_pass_through tapeExternals constantPopulation 3
      (tapePopulation [2, 0, 2, 1, 1, 1, 2, 0, 1, 0] 0) valueFigureOfMerit rfl (by decide)
      (by decide)).2.imp (fun _ h => ⟨h.1, h.2.1, (h.2.2 rfl tape_gate).1⟩)⟩

/-- C13. `setMutateRate(rate)` raises an error exactly when `rate < 0` or
`rate > 1`; when it raises, the population, its mutation rate included, is
unchanged; otherwise only the mutation rate changes and becomes `rate`. The
rates 0 and 1 are stored. -/
theorem setMutateRate_range {T : Type} [LinearOrderedRing T] (p : IPopulation T D G) (rate : T) :
    ((∃ e, (p.setMutateRate rate).1 = Except.error e) ↔ (rate < 0 ∨ rate > 1)) ∧
      ((rate < 0 ∨ rate > 1) →
        p.setMutateRate rate = (Except.error Error.rateOutOfRange, p)) ∧
      (¬ (rate < 0 ∨ rate > 1) →
        p.setMutateRate rate = (Except.ok (), { p with m_mutateRate := rate })) ∧
      p.setMutateRate 0 = (Except.ok (), { p with m_mutateRate := 0 }) ∧
      p.setMutateRate 1 = (Except.ok (), { p with m_mutateRate := 1 }) := by
  have hin : ∀ r : T, ¬ (r < 0 ∨ r > 1) →
      p.setMutateRate r = (Except.ok (), { p with m_mutateRate := r }) := by
    intro r h
    unfold IPopulation.setMutateRate
    rw [if_neg h]
  have hout : ∀ r : T, (r < 0 ∨ r > 1) →
      p.setMutateRate r = (Except.error Error.rateOutOfRange, p) := by
    intro r h
    unfold IPopulation.setMutateRate
    rw [if_pos h]
  refine ⟨⟨?_, ?_⟩, hout rate, hin rate, hin 0 ?_, hin 1 ?_⟩
  · rintro ⟨e, he⟩
    by_contra h
    rw [hin rate h] at he
    cases he
  · intro h
    exact ⟨Error.rateOutOfRange, by rw [hout rate h]⟩
  · simp
  · simp

/-- The rate 2 is refused and leaves the rate 0 of `emptyPopulation [] 0`; the
rate 1 is stored. -/
theorem setMutateRate_range_witness :
    (2 : Int) > 1 ∧
      ((emptyPopulation [] 0).setMutateRate 2).1 = Except.error Error.rateOutOfRange ∧
      ((emptyPopulation [] 0).setMutateRate 2).2.m_mutateRate = 0 ∧
      ((emptyPopulation [] 0).setMutateRate 1).2.m_mutateRate = 1 :=
  ⟨by decide,
    congrArg Prod.fst ((setMutateRate_range (emptyPopulation [] 0) 2).2.1 (Or.inr (by decide))),
    by decide, by decide⟩

/-- C14. `score()` raises an error exactly when no figure of merit is set,
whatever the size of the population, and then leaves the population as it was;
with a figure of merit set and no individual it returns and changes nothing. -/
theorem score_requires_figure_of_merit [Zero S] [Add S] [Sub S] [Mul S] [Div S] [NatCast S]
    [LT S] [DecidableRel (fun a b : S => a < b)] (ext : Externals G S) (p : IPopulation S D G) :
    ((∃ e, (p.score ext).1 = Except.error e) ↔ p.m_fom = none) ∧
      (p.m_fom = none → p.score ext = (Except.error Error.figureOfMeritNotAssigned, p)) ∧
      (∀ fom, p.m_fom = some fom → p.size = 0 → p.score ext = (Except.ok (), p)) := by
  have hnone : p.m_fom = none →
      p.score ext = (Except.error Error.figureOfMeritNotAssigned, p) := by
    intro h
    simp [IPopulation.score, h]
  have hempty : ∀ fom, p.m_fom = some fom → p.size = 0 → p.score ext = (Except.ok (), p) := by
    intro fom h hz
    simp [IPopulation.score, h, hz]
  refine ⟨⟨?_, ?_⟩, hnone, hempty⟩
  · rintro ⟨e, he⟩
    cases hf : p.m_fom with
    | none => rfl
    | some fom =>
      by_cases hz : p.size = 0
      · rw [hempty fom hf hz] at he
        cases he
      · rw [(score_flag ext p fom hf hz).1] at he
        cases he
  · intro h
    exact ⟨Error.figureOfMeritNotAssigned, by rw [hnone h]⟩

/-- On the empty population without a figure of merit `score()` raises the
error; with `valueFigureOfMerit` set it returns and keeps the flag, the mean
and the RMS. -/
theorem score_requires_figure_of_merit_witness :
    ((emptyPopulation [] 0).setFigureOfMerit none).m_fom = none ∧
      (((emptyPopulation [] 0).setFigureOfMerit none).score tapeExternals).1
        = Except.error Error.figureOfMeritNotAssigned ∧
      (emptyPopulation [] 0).size = 0 ∧
      (emptyPopulation [] 0).score tapeExternals = (Except.ok (), emptyPopulation [] 0) :=
  ⟨rfl,
    congrArg Prod.fst ((score_requires_figure_of_merit tapeExternals
      ((emptyPopulation [] 0).setFigureOfMerit none)).2.1 rfl),
    rfl,
    (score_requires_figure_of_merit tapeExternals (emptyPopulation [] 0)).2.2
      valueFigureOfMerit rfl rfl⟩

/-- C18. For a figure of merit with the comparator of the base class,
`accept(model)` holds exactly when the score of the model is greater than the
threshold, which the constructor sets to 0; for `Chi2FitFigureOfMerit`, exactly
when the score is less than the threshold, which the constructor sets to 0.1.
A score equal to the threshold is not accepted, and `isBetterThan(a, a)` is
false, on scores and on models. -/
theorem accept_compares_with_threshold {T : Type} [LinearOrderedField T]
    (evaluate : IModel T D → T) (threshold : T) (model : IModel T D)
    (chi2 : Chi2FitFigureOfMerit T) (parametric : IModel T (TF1 T)) (a : T) :
    (IFigureOfMerit.construct evaluate).getAcceptThreshold = 0 ∧
      ((IFigureOfMerit.construct evaluate).accept model = true ↔ model.getScore > 0) ∧
      (((IFigureOfMerit.construct evaluate).setAcceptThreshold threshold).accept model = true ↔
        model.getScore > threshold) ∧
      (Chi2FitFigureOfMerit.construct : Chi2FitFigureOfMerit T).toFigureOfMerit.getAcceptThreshold
        = 0.1 ∧
      (chi2.toFigureOfMerit.accept parametric = true ↔
        parametric.getScore < chi2.m_acceptThreshold) ∧
      (model.getScore = threshold →
        ((IFigureOfMerit.construct evaluate).setAcceptThreshold threshold).accept model = false) ∧
      (parametric.getScore = chi2.m_acceptThreshold →
        chi2.toFigureOfMerit.accept parametric = false) ∧
      (IFigureOfMerit.construct evaluate).isBetterThanScore a a = false ∧
      chi2.toFigureOfMerit.isBetterThanScore a a = false ∧
      (IFigureOfMerit.construct evaluate).isBetterThan model model = false ∧
      chi2.toFigureOfMerit.isBetterThan parametric parametric = false := by
  refine ⟨rfl, ?_, ?_, rfl, ?_, ?_, ?_, ?_, ?_, ?_, ?_⟩ <;>
    simp [IFigureOfMerit.construct, IFigureOfMerit.setAcceptThreshold, IFigureOfMerit.accept,
      IFigureOfMerit.acceptScore, IFigureOfMerit.isBetterThan, IFigureOfMerit.defaultIsBetterThan,
      Chi2FitFigureOfMerit.toFigureOfMerit, Chi2FitFigureOfMerit.isBetterThan]
  · intro h; rw [h]
  · intro h; rw [h]

/-- Over the rationals: a model of score 0 is not accepted by the base class
at its threshold 0, and a model of score `0.1` is not accepted by the
chi-square class at its threshold `0.1`. -/
theorem accept_compares_with_threshold_witness :
    ((IFigureOfMerit.construct (fun m : IModel ℚ Unit => m.m_score)).setAcceptThreshold 0).accept
        { m_score := 0, derived := () } = false ∧
      (Chi2FitFigureOfMerit.construct : Chi2FitFigureOfMerit ℚ).toFigureOfMerit.accept
        { m_score := 0.1, derived := { fParams := [], fParLimits := [], fEval := fun _ _ => 0 } }
        = false :=
  ⟨(accept_compares_with_threshold (fun m : IModel ℚ Unit => m.m_score) 0
      { m_score := 0, derived := () } Chi2FitFigureOfMerit.construct
      { m_score := 0.1, derived := { fParams := [], fParLimits := [], fEval := fun _ _ => 0 } }
      0).2.2.2.2.2.1 rfl,
    (accept_compares_with_threshold (fun m : IModel ℚ Unit => m.m_score) 0
      { m_score := 0, derived := () } Chi2FitFigureOfMerit.construct
      { m_score := 0.1, derived := { fParams := [], fParLimits := [], fEval := fun _ _ => 0 } }
      0).2.2.2.2.2.2.1 rfl⟩

/-- C12. `mutate()` keeps the size and marks the population unsorted. There
is a sequence `gs` of `size() + 1` generator states, from the state before the
call to the state after it: at slot `i` exactly one gating value is drawn, from
`gs[i]`; when it is strictly less than `mutateRate` the slot holds afterwards
the result of one application of the mutation hook to its individual, and
otherwise the individual itself and the generator has only made the gating
draw. With `mutateRate = 0` and gating draws that are not negative no
individual changes and the generator has made the `size()` gating draws only. -/
theorem mutate_gates_each_slot [Zero S] [One S] [LT S] [DecidableRel (fun a b : S => a < b)]
    (ext : Externals G S) (hooks : Hooks S D G) (p : IPopulation S D G) :
    (p.mutate ext hooks).size = p.size ∧ (p.mutate ext hooks).m_sorted = false ∧
      (∃ gs : List G, gs.length = p.size + 1 ∧ gs[0]? = some p.m_random ∧
        gs[p.size]? = some (p.mutate ext hooks).m_random ∧
        ∀ (i : Nat) (m : IModel S D), p.m_individuals[i]? = some m →
          ∃ gi, gs[i]? = some gi ∧
            ((ext.Uniform gi 0 1).1 < p.m_mutateRate →
              (p.mutate ext hooks).m_individuals[i]?
                  = some (hooks.doMutate m (ext.Uniform gi 0 1).2).1 ∧
                gs[i + 1]? = some (hooks.doMutate m (ext.Uniform gi 0 1).2).2) ∧
            (¬ (ext.Uniform gi 0 1).1 < p.m_mutateRate →
              (p.mutate ext hooks).m_individuals[i]? = some m ∧
                gs[i + 1]? = some (ext.Uniform gi 0 1).2)) ∧
      (p.m_mutateRate = 0 → (∀ g : G, ¬ (ext.Uniform g 0 1).1 < 0) →
        (p.mutate ext hooks).m_individuals = p.m_individuals ∧
          (p.mutate ext hooks).m_random = (fun g0 => (ext.Uniform g0 0 1).2)^[p.size] p.m_random) := by
  obtain ⟨hlen, htrace⟩ := mutateFor_trace ext hooks p.m_mutateRate p.m_individuals p.m_random
  refine ⟨hlen, rfl, htrace, ?_⟩
  intro hrate hgate
  have hg : ∀ g : G, ¬ (ext.Uniform g 0 1).1 < p.m_mutateRate := by
    rw [hrate]; exact hgate
  exact ⟨mutateFor_none ext hooks _ hg _ _, mutateFor_none_random ext hooks _ hg _ _⟩

/-- A `mutate()` with rate 0 on three individuals and the tape generator: no
parameter changes and three draws are taken from the tape; with rate 1 every
individual is mutated once. -/
theorem mutate_gates_each_slot_witness :
    (tapePopulation [4, 5, 6, 7] 0).m_mutateRate = 0 ∧
      ((tapePopulation [4, 5, 6, 7] 0).mutate tapeExternals constantHooks).m_individuals
        = (tapePopulation [4, 5, 6, 7] 0).m_individuals ∧
      ((tapePopulation [4, 5, 6, 7] 0).mutate tapeExternals constantHooks).m_random = [7] ∧
      ((tapePopulation [0, 0, 2, 0, 0, 2, 0, 0, 2] 1).mutate tapeExternals
        constantHooks).m_individuals.map (fun m => m.derived.fParams) = [[1], [3], [2]] ∧
      ((tapePopulation [0, 0, 3, 0, 0, 3, 0, 0, 3] 1).mutate tapeExternals
        constantHooks).m_individuals.map (fun m => m.derived.fParams) = [[2], [6], [4]] :=
  ⟨rfl,
    ((mutate_gates_each_slot tapeExternals constantHooks (tapePopulation [4, 5, 6, 7] 0)).2.2.2
      rfl tape_gate).1,
    by decide, by decide, by decide⟩

/-- C19. After `initialize(n)` with `n >= 0` on a `ParametricModelPopulation`,
whatever it held before: `size()` equals `n`, the population is flagged
unsorted, the outcome is the one obtained from the cleared population, and
every individual is a new model of score 0 owning a clone of the formula of the
population (same limits, same function, same number of parameters). -/
theorem initialize_replaces_population [Zero S] [Add S] [Mul S] [LT S]
    [DecidableRel (fun a b : S => a < b)] [DecidableEq S]
    (ext : Externals G S) (self : ParametricModelPopulation S) (p : IPopulation S (TF1 S) G)
    (n : Int) (hn : 0 ≤ n) :
    ((p.initializeN (self.hooks ext) n).size : Int) = n ∧
      (p.initializeN (self.hooks ext) n).m_sorted = false ∧
      p.initializeN (self.hooks ext) n = p.clear.initializeN (self.hooks ext) n ∧
      ∀ m ∈ (p.initializeN (self.hooks ext) n).m_individuals,
        m.m_score = 0 ∧ m.derived.fParLimits = self.m_formula.fParLimits ∧
          m.derived.fEval = self.m_formula.fEval ∧
          m.derived.fParams.length = self.m_formula.fParams.length := by
  obtain ⟨hlen, hall⟩ := doInitializeFor_fresh ext self.m_formula n.toNat p.m_random
  refine ⟨?_, rfl, rfl, hall⟩
  show (((doInitializeFor ext self.m_formula n.toNat p.m_random).1.length : Nat) : Int) = n
  rw [hlen]
  exact Int.toNat_of_nonneg hn

/-- On a population holding three models of scores `1, 3, 2`, `initialize(2)`
leaves two new models of score 0 with the parameters drawn from the tape. -/
theorem initialize_replaces_population_witness :
    (0 : Int) ≤ 2 ∧
      ((tapePopulation [4, 8] 0).initializeN constantHooks 2).m_individuals.map
        (fun m => (m.m_score, m.derived.fParams)) = [(0, [4]), (0, [8])] ∧
      (((tapePopulation [4, 8] 0).initializeN (constantPopulation.hooks tapeExternals) 2).size
        : Int) = 2 :=
  ⟨by decide, by decide,
    (initialize_replaces_population tapeExternals constantPopulation (tapePopulation [4, 8] 0) 2
      (by decide)).1⟩

/-- C20, as amended. `initialize(n)` with `n < 0` on a
`ParametricModelPopulation` raises no error: it leaves the population empty
and flagged unsorted without a draw from the generator, and
`GeneticAlgorithm::initialize` with a negative population size returns
normally when a figure of merit is set. -/
theorem initialize_negative_size_empties [Zero S] [One S] [Add S] [Sub S] [Mul S] [Div S]
    [NatCast S] [LT S] [DecidableRel (fun a b : S => a < b)] [DecidableEq S]
    (ext : Externals G S) (self : ParametricModelPopulation S) (p : IPopulation S (TF1 S) G)
    (n : Int) (hn : n < 0) :
    (p.initializeN (self.hooks ext) n).size = 0 ∧
      (p.initializeN (self.hooks ext) n).m_sorted = false ∧
      (p.initializeN (self.hooks ext) n).m_random = p.m_random ∧
      ∀ (ga : GeneticAlgorithm) (fom : IFigureOfMerit S (TF1 S)),
        ga.m_populationSize = n → p.m_fom = some fom →
        (ga.initializeRun ext (self.hooks ext) p).1 = Except.ok () := by
  have hz : n.toNat = 0 := Int.toNat_eq_zero.mpr (by omega)
  have hi : (p.initializeN (self.hooks ext) n).m_individuals = [] := by
    show (doInitializeFor ext self.m_formula n.toNat p.m_random).1 = []
    rw [hz]
    rfl
  refine ⟨?_, rfl, ?_, ?_⟩
  · simp only [IPopulation.size, hi, List.length_nil]
  · show (doInitializeFor ext self.m_formula n.toNat p.m_random).2 = p.m_random
    rw [hz]
    rfl
  · intro ga fom hga hfom
    unfold GeneticAlgorithm.initializeRun
    rw [hga]
    have hs := (score_empty_with_fom ext (p.initializeN (self.hooks ext) n) fom
      hfom (by simp only [IPopulation.size, hi, List.length_nil]))
    rw [hs]

/-- With `n = -1` on a population of three models: the population is left
empty and `GeneticAlgorithm::initialize` returns. -/
theorem initialize_negative_size_empties_witness :
    (-1 : Int) < 0 ∧
      ((tapePopulation [4, 8] 0).initializeN (constantPopulation.hooks tapeExternals) (-1)).size
        = 0 ∧
      ((configured 10 (-1)).initializeRun tapeExternals constantHooks
        (tapePopulation [4, 8] 0)).1 = Except.ok () :=
  ⟨by decide,
    (initialize_negative_size_empties tapeExternals constantPopulation (tapePopulation [4, 8] 0)
      (-1) (by decide)).1,
    by decide⟩

/-- C20, the claim as stated fails. `initialize(-1)` on a
`ParametricModelPopulation` holding three models returns with an empty
population, and `GeneticAlgorithm::initialize` with population size `-1`
returns normally: no error is raised. -/
theorem initialize_negative_size_raises_nothing :
    ((tapePopulation [4, 8] 0).initializeN constantHooks (-1)).size = 0 ∧
      ((tapePopulation [4, 8] 0).initializeN constantHooks (-1)).m_sorted = false ∧
      ((configured 10 (-1)).initializeRun tapeExternals constantHooks
        (tapePopulation [4, 8] 0)).1 = Except.ok () := by
  decide

/-- C15. After `score()` on a population with a figure of merit and `N >= 1`
individuals, over a linearly ordered field: the individuals are, up to the
ranking, the former ones each carrying the score that `evaluate` gives it;
`getScoreMean()` is the sum of these scores divided by `N`; `getScoreRMS()` is
`sqrt(max(0, (sum of the squared scores) / N - mean * mean))`. Hence it is not
negative when `sqrt` is not negative, and it is 0 when `sqrt(0) = 0` and all
scores are equal. -/
theorem score_mean_and_rms {T : Type} [LinearOrderedField T] (ext : Externals G T)
    (p : IPopulation T D G) (fom : IFigureOfMerit T D) (hfom : p.m_fom = some fom)
    (hsz : p.size ≠ 0) :
    (p.score ext).2.m_individuals.Perm
        (p.m_individuals.map (fun m => m.setScore (fom.evaluate m))) ∧
      (p.score ext).2.getScoreMean = (p.m_individuals.map fom.evaluate).sum / (p.size : T) ∧
      (p.score ext).2.getScoreRMS = ext.sqrt (max 0
        ((p.m_individuals.map (fun m => fom.evaluate m * fom.evaluate m)).sum / (p.size : T)
          - (p.score ext).2.getScoreMean * (p.score ext).2.getScoreMean)) ∧
      ((∀ x, 0 ≤ ext.sqrt x) → 0 ≤ (p.score ext).2.getScoreRMS) ∧
      (ext.sqrt 0 = 0 → ∀ c : T, (∀ m ∈ p.m_individuals, fom.evaluate m = c) →
        (p.score ext).2.getScoreRMS = 0) := by
  obtain ⟨hperm, hmean, hrms⟩ := score_stores ext p fom hfom hsz
  simp only [IPopulation.getScoreMean, IPopulation.getScoreRMS]
  refine ⟨hperm, hmean, ?_, ?_, ?_⟩
  · rw [hrms, hmean]
  · intro hnonneg
    rw [hrms]
    exact hnonneg _
  · intro hzero c hall
    have hN : (p.size : T) ≠ 0 := Nat.cast_ne_zero.mpr hsz
    have h1 := sum_map_const fom.evaluate c p.m_individuals hall
    have h2 := sum_map_const (fun m => fom.evaluate m * fom.evaluate m) (c * c) p.m_individuals
      (fun m hm => by simp only [hall m hm])
    rw [hrms, h1, h2]
    simp only [IPopulation.size] at hN ⊢
    have e : (p.m_individuals.length : T) * (c * c) / (p.m_individuals.length : T)
        - (p.m_individuals.length : T) * c / (p.m_individuals.length : T)
          * ((p.m_individuals.length : T) * c / (p.m_individuals.length : T)) = 0 := by
      field_simp
    rw [e, max_self, hzero]

/-- On the two models of `rationalPopulation`, of scores `1` and `3`, with the
rational square root: the mean is `2` and the RMS is `1`. -/
theorem score_mean_and_rms_witness :
    rationalPopulation.m_fom = some (IFigureOfMerit.construct (fun m => m.derived)) ∧
      rationalPopulation.size ≠ 0 ∧
      (rationalPopulation.score rationalExternals).2.getScoreMean = 2 ∧
      (rationalPopulation.score rationalExternals).2.getScoreRMS = 1 ∧
      0 ≤ (rationalPopulation.score rationalExternals).2.getScoreRMS :=
  ⟨rfl, by decide, by decide!, by decide!,
    (score_mean_and_rms rationalExternals rationalPopulation
      (IFigureOfMerit.construct (fun m => m.derived)) rfl (by decide)).2.2.2.1 Rat.sqrt_nonneg⟩

/-- C16. `Chi2FitFigureOfMerit::evaluate` returns 0 on an empty dataset. On a
dataset with at least one point of `y != 0` it returns the sum, over the points
with `y != 0`, of `(f(x) - y)^2 / sigma^2`, divided by the number of these
points, which is not zero. Appending a point with `y = 0` to a dataset that is
not empty changes nothing. -/
theorem chi2_evaluate_formula {T : Type} [LinearOrderedField T] (self : Chi2FitFigureOfMerit T)
    (imodel : IModel T (TF1 T)) :
    (self.m_x = [] → self.evaluate imodel = 0) ∧
      (self.m_x ≠ [] → (∃ pt ∈ self.m_x.zip (self.m_y.zip self.m_ey), pt.2.1 ≠ 0) →
        (((self.m_x.zip (self.m_y.zip self.m_ey)).filter
          (fun pt => decide (pt.2.1 ≠ 0))).length : T) ≠ 0 ∧
        self.evaluate imodel =
          (((self.m_x.zip (self.m_y.zip self.m_ey)).filter (fun pt => decide (pt.2.1 ≠ 0))).map
            (fun pt => (imodel.derived.EvalPar pt.1 - pt.2.1) * (imodel.derived.EvalPar pt.1 - pt.2.1)
              / (pt.2.2 * pt.2.2))).sum
          / (((self.m_x.zip (self.m_y.zip self.m_ey)).filter
              (fun pt => decide (pt.2.1 ≠ 0))).length : T)) ∧
      (self.m_x ≠ [] → self.m_y.length = self.m_x.length → self.m_ey.length = self.m_x.length →
        ∀ (x : List T) (ey : T), (self.addData x 0 ey).evaluate imodel = self.evaluate imodel) := by
  have hne : ∀ s : Chi2FitFigureOfMerit T, s.m_x ≠ [] →
      s.evaluate imodel =
        (((s.m_x.zip (s.m_y.zip s.m_ey)).filter (fun pt => decide (pt.2.1 ≠ 0))).map
          (fun pt => (imodel.derived.EvalPar pt.1 - pt.2.1) * (imodel.derived.EvalPar pt.1 - pt.2.1)
            / (pt.2.2 * pt.2.2))).sum
        / (((s.m_x.zip (s.m_y.zip s.m_ey)).filter (fun pt => decide (pt.2.1 ≠ 0))).length : T) := by
    intro s hs
    unfold Chi2FitFigureOfMerit.evaluate
    rw [if_neg (by simpa using hs), chi2For_sums]
    simp only [zero_add]
  refine ⟨?_, ?_, ?_⟩
  · intro h
    simp [Chi2FitFigureOfMerit.evaluate, h]
  · intro hx hex
    refine ⟨?_, hne self hx⟩
    obtain ⟨pt, hpt, hy⟩ := hex
    have hmem : pt ∈ (self.m_x.zip (self.m_y.zip self.m_ey)).filter
        (fun pt => decide (pt.2.1 ≠ 0)) := by
      rw [List.mem_filter]
      exact ⟨hpt, by simpa using hy⟩
    exact Nat.cast_ne_zero.mpr (Nat.pos_iff_ne_zero.mp (List.length_pos_of_mem hmem))
  · intro hx hy hey x ey
    rw [hne self hx, hne (self.addData x 0 ey) (by simp [Chi2FitFigureOfMerit.addData])]
    simp only [Chi2FitFigureOfMerit.addData]
    rw [List.zip_append (by rw [hey, hy]), List.zip_append (by rw [List.length_zip, hy, hey]; simp)]
    simp

/-- The scenario of the specification: `y = [1, 1]`, `sigma = [1, 1]` and
predictions `[2, 0]` give `1`. -/
theorem chi2_evaluate_formula_witness :
    twoPoints.m_x ≠ [] ∧ (∃ pt ∈ twoPoints.m_x.zip (twoPoints.m_y.zip twoPoints.m_ey), pt.2.1 ≠ 0) ∧
      twoPoints.evaluate identityModel = 1 ∧
      (Chi2FitFigureOfMerit.construct : Chi2FitFigureOfMerit ℚ).evaluate identityModel = 0 ∧
      (((twoPoints.m_x.zip (twoPoints.m_y.zip twoPoints.m_ey)).filter
        (fun pt => decide (pt.2.1 ≠ 0))).length : ℚ) ≠ 0 :=
  ⟨by decide, ⟨([2], 1, 1), by decide, by decide⟩, by decide!,
    (chi2_evaluate_formula Chi2FitFigureOfMerit.construct identityModel).1 rfl,
    ((chi2_evaluate_formula twoPoints identityModel).2.1 (by decide)
      ⟨([2], 1, 1), by decide, by decide⟩).1⟩

/-- C17, as amended. On a dataset of `N >= 1` points in which no point has
`y = 0`, `Chi2FitFigureOfMerit::evaluate` equals the chi-square per degree of
freedom of the class documentation, `1/N` times the sum over all points of
`(y_i - f(x_i))^2 / sigma_i^2`. -/
theorem chi2_matches_documentation_without_zero {T : Type} [LinearOrderedField T]
    (self : Chi2FitFigureOfMerit T) (imodel : IModel T (TF1 T)) (hx : self.m_x ≠ [])
    (hy : self.m_y.length = self.m_x.length) (hey : self.m_ey.length = self.m_x.length)
    (hnz : ∀ y ∈ self.m_y, y ≠ 0) :
    self.evaluate imodel = self.documentedChi2 imodel := by
  have hall : (self.m_x.zip (self.m_y.zip self.m_ey)).filter (fun pt => decide (pt.2.1 ≠ 0))
      = self.m_x.zip (self.m_y.zip self.m_ey) := by
    rw [List.filter_eq_self]
    intro pt hpt
    have h1 := (List.of_mem_zip hpt).2
    have h2 := (List.of_mem_zip h1).1
    simpa using hnz _ h2
  have hlen : (self.m_x.zip (self.m_y.zip self.m_ey)).length = self.m_x.length := by
    simp [List.length_zip, hy, hey]
  unfold Chi2FitFigureOfMerit.evaluate Chi2FitFigureOfMerit.documentedChi2
  rw [if_neg (by simpa using hx), chi2For_sums, hall, hlen]
  simp only [zero_add]
  have hmap : (self.m_x.zip (self.m_y.zip self.m_ey)).map
      (fun pt => (imodel.derived.EvalPar pt.1 - pt.2.1) * (imodel.derived.EvalPar pt.1 - pt.2.1)
        / (pt.2.2 * pt.2.2))
      = (self.m_x.zip (self.m_y.zip self.m_ey)).map
        (fun pt => (pt.2.1 - imodel.derived.EvalPar pt.1) * (pt.2.1 - imodel.derived.EvalPar pt.1)
          / (pt.2.2 * pt.2.2)) := by
    apply List.map_congr_left
    intro pt _
    ring
  rw [hmap]
  ring

/-- On `twoPoints`, where no `y` is 0, the code and the documented formula
agree on the value `1`. -/
theorem chi2_matches_documentation_without_zero_witness :
    (twoPoints.m_x ≠ [] ∧ twoPoints.m_y.length = twoPoints.m_x.length ∧
        twoPoints.m_ey.length = twoPoints.m_x.length ∧ ∀ y ∈ twoPoints.m_y, y ≠ 0) ∧
      twoPoints.documentedChi2 identityModel = 1 ∧
      twoPoints.evaluate identityModel = twoPoints.documentedChi2 identityModel :=
  ⟨⟨by decide, by decide, by decide, by decide⟩, by decide!,
    chi2_matches_documentation_without_zero twoPoints identityModel (by decide) (by decide)
      (by decide) (by decide)⟩

/-- C17, the claim as stated fails. On the two points `([1], 0, 1)` and
`([3], 1, 1)` with `f(x) = x[0]`, the code skips the first point and returns
`(3 - 1)^2 / 1 = 4`, whereas the documented formula over both points gives
`((0 - 1)^2 + (1 - 3)^2) / 2 = 5/2`. -/
theorem chi2_skips_points_with_zero_y :
    zeroPoint.m_x.length = 2 ∧ zeroPoint.evaluate identityModel = 4 ∧
      zeroPoint.documentedChi2 identityModel = 5 / 2 ∧
      zeroPoint.evaluate identityModel ≠ zeroPoint.documentedChi2 identityModel := by
  decide!

/-- C11. For a population of size `n >= 1` and a rank `k < n`: there are
`n * n` pairs of draws `(f1, p1)` and exactly `n - k` of them are accepted by
the first loop of `selectParents` with `p1 = k`. Among the equally likely
tapes of `m >= 1` pairs of draws on which that loop returns, the fraction on
which it returns `p1 = k` is `2 (n - k) / (n (n + 1))`, whatever `m`; it is
strictly decreasing in `k` and equals `2 / (n + 1)` at rank 0. -/
theorem first_parent_probability (n m k : Nat) (hn : 1 ≤ n) (hm : 1 ≤ m) (hk : k < n) :
    (drawTapes n 1).length = n * n ∧ countFirstParent n 1 k = n - k ∧
      0 < countReturned n m ∧
      (countFirstParent n m k : ℚ) / (countReturned n m : ℚ)
        = 2 * ((n : ℚ) - (k : ℚ)) / ((n : ℚ) * ((n : ℚ) + 1)) ∧
      (∀ k2 : Nat, k < k2 → k2 < n →
        (countFirstParent n m k2 : ℚ) / (countReturned n m : ℚ)
          < (countFirstParent n m k : ℚ) / (countReturned n m : ℚ)) ∧
      (countFirstParent n m 0 : ℚ) / (countReturned n m : ℚ) = 2 / ((n : ℚ) + 1) := by
  obtain ⟨c, hc, hcount, hret⟩ := counts_proportional n hn m
  have hcpos : 0 < c := hc hm
  have hnq : (0 : ℚ) < (n : ℚ) := by exact_mod_cast hn
  have hcq : (0 : ℚ) < (c : ℚ) := by exact_mod_cast hcpos
  have hretq : (countReturned n m : ℚ) = (n : ℚ) * ((n : ℚ) + 1) * (c : ℚ) / 2 := by
    have h : ((2 * countReturned n m : Nat) : ℚ) = ((n * (n + 1) * c : Nat) : ℚ) := by
      rw [hret]
    push_cast at h
    linarith
  have hratio : ∀ j : Nat, j < n →
      (countFirstParent n m j : ℚ) / (countReturned n m : ℚ)
        = 2 * ((n : ℚ) - (j : ℚ)) / ((n : ℚ) * ((n : ℚ) + 1)) := by
    intro j hj
    rw [hcount j hj, hretq, Nat.cast_mul, Nat.cast_sub (Nat.le_of_lt hj)]
    field_simp
    ring
  have hone : countFirstParent n 1 k = n - k := by
    rw [countFirstParent_succ, countP_accepted_with n k hk]
    simp [countFirstParent, firstParentOn_zero, drawTapes]
  have hretpos : 0 < countReturned n m := by
    have h1 : 0 < n * (n + 1) * c := Nat.mul_pos (Nat.mul_pos (by omega) (by omega)) hcpos
    omega
  refine ⟨drawTapes_one_length n, hone, hretpos, hratio k hk, ?_, ?_⟩
  · intro k2 hlt hk2
    rw [hratio k2 hk2, hratio k hk]
    have hkq : (k : ℚ) < (k2 : ℚ) := by exact_mod_cast hlt
    apply div_lt_div_of_pos_right _ (by positivity)
    linarith
  · rw [hratio 0 (by omega)]
    field_simp
    ring

/-- For a population of size 3: of the 9 pairs of draws, 3, 2 and 1 are
accepted with `p1` equal to 0, 1 and 2; among the 81 tapes of two pairs the
loop returns on 72, with `p1 = 0` on 36 of them. -/
theorem first_parent_probability_witness :
    ((1 : Nat) ≤ 3 ∧ (1 : Nat) ≤ 2 ∧ (0 : Nat) < 3) ∧
      (drawTapes 3 1).length = 9 ∧
      [countFirstParent 3 1 0, countFirstParent 3 1 1, countFirstParent 3 1 2] = [3, 2, 1] ∧
      (countReturned 3 2 = 72 ∧ countFirstParent 3 2 0 = 36) ∧
      (countFirstParent 3 2 0 : ℚ) / (countReturned 3 2 : ℚ) = 2 / ((3 : ℚ) + 1) :=
  ⟨⟨by decide, by decide, by decide⟩, by decide, by decide, by decide,
    (first_parent_probability 3 2 0 (by decide) (by decide) (by decide)).2.2.2.2.2⟩

/-- The loop of `evaluate` leaves its accumulators as they are when every `y`
still to visit is zero. -/
theorem chi2For_all_zero [Zero S] [Add S] [Sub S] [Mul S] [Div S] [DecidableEq S]
    (formula : TF1 S) :
    ∀ (xs : List (List S)) (ys eys : List S) (chi2 : S) (ndf : Nat),
      (∀ y ∈ ys, y = 0) → chi2For formula xs ys eys chi2 ndf = (chi2, ndf) := by
  intro xs
  induction xs with
  | nil => intro ys eys chi2 ndf _; simp [chi2For]
  | cons x xs ih =>
    intro ys eys chi2 ndf h
    cases ys with
    | nil => simp [chi2For]
    | cons y ys =>
      cases eys with
      | nil => simp [chi2For]
      | cons ey eys =>
        have hy : y = 0 := h y (List.mem_cons_self _ _)
        rw [chi2For, if_pos hy]
        exact ih ys eys chi2 ndf (fun z hz => h z (List.mem_cons_of_mem _ hz))

/-- C27. On a dataset that is not empty and in which every point has `y = 0`,
`Chi2FitFigureOfMerit::evaluate` does not take the early return of the empty
dataset, its loop skips every point and ends with the sum `0` and `ndf = 0`,
and the value returned is the quotient of that sum by that `ndf`: the
division `0 / 0` is evaluated, no test guards it. -/
theorem chi2_all_zero_reaches_division [Zero S] [Add S] [Sub S] [Mul S] [Div S] [NatCast S]
    [DecidableEq S] (self : Chi2FitFigureOfMerit S) (imodel : IModel S (TF1 S))
    (hne : self.m_x ≠ []) (hzero : ∀ y ∈ self.m_y, y = 0) :
    ¬ (self.m_x.length = 0)
    ∧ chi2For imodel.derived self.m_x self.m_y self.m_ey 0 0 = (0, 0)
    ∧ self.evaluate imodel = (0 : S) / ((0 : Nat) : S) := by
  have h1 : ¬ (self.m_x.length = 0) := by
    intro h; exact hne (List.length_eq_zero.mp h)
  have h2 := chi2For_all_zero imodel.derived self.m_x self.m_y self.m_ey 0 0 hzero
  refine ⟨h1, h2, ?_⟩
  unfold Chi2FitFigureOfMerit.evaluate
  rw [if_neg h1, h2]

/-- C27 at the data points `zeroPoints` and the model `identityModel`. -/
theorem chi2_all_zero_reaches_division_witness :
    zeroPoints.m_x ≠ [] ∧ (∀ y ∈ zeroPoints.m_y, y = 0)
    ∧ chi2For identityModel.derived zeroPoints.m_x zeroPoints.m_y zeroPoints.m_ey 0 0 = (0, 0)
    ∧ zeroPoints.evaluate identityModel = (0 : ℚ) / ((0 : Nat) : ℚ) :=
  have h1 : zeroPoints.m_x ≠ [] := by
    simp [zeroPoints, Chi2FitFigureOfMerit.addData, Chi2FitFigureOfMerit.construct]
  have h2 : ∀ y ∈ zeroPoints.m_y, y = 0 := by
    simp [zeroPoints, Chi2FitFigureOfMerit.addData, Chi2FitFigureOfMerit.construct]
  ⟨h1, h2, (chi2_all_zero_reaches_division zeroPoints identityModel h1 h2).2⟩

/-- The first loop of the macro is the first loop of `IPopulation::selectParents`. -/
theorem selectParentsFirst_eq (ext : Externals G S) (N : Nat) :
    ∀ (fuel : Nat) (g : G),
      TestParentSelection.selectParentsFirst ext N fuel g = selectFirst ext N fuel g := by
  intro fuel
  induction fuel with
  | zero => intro g; rfl
  | succ k ih =>
    intro g
    simp only [TestParentSelection.selectParentsFirst, selectFirst]
    split
    · exact ih _
    · rfl

/-- The second loop of the macro is the second loop of `IPopulation::selectParents`. -/
theorem selectParentsSecond_eq (ext : Externals G S) (N p1 : Nat) :
    ∀ (fuel : Nat) (g : G),
      TestParentSelection.selectParentsSecond ext N p1 fuel g = selectSecond ext N p1 fuel g := by
  intro fuel
  induction fuel with
  | zero => intro g; rfl
  | succ k ih =>
    intro g
    simp only [TestParentSelection.selectParentsSecond, selectSecond]
    split
    · exact ih _
    · rfl

/-- The function of the macro is the method, on every generator. -/
theorem macro_selectParents_eq (ext : Externals G S) (N fuel : Nat) (g : G) :
    TestParentSelection.selectParents ext N fuel g = IPopulation.selectParents ext N fuel g := by
  unfold TestParentSelection.selectParents IPopulation.selectParents selectParentsLocals
  rw [selectParentsFirst_eq]
  rcases selectFirst ext N fuel g with ⟨r1, g1⟩
  cases r1 with
  | error e => rfl
  | ok fp1 =>
    simp only [selectParentsSecond_eq]
    rcases selectSecond ext N fp1.2 fuel g1 with ⟨r2, g2⟩
    cases r2 with
    | error e => rfl
    | ok fp2 => rfl

/-- C28. The function `selectParents(random, p1, p2, N)` of the macro
`testParentSelection.C`, called with `N = size()` on the generator of a
population, gives the result of `IPopulation::selectParents`: the same pair
`(p1, p2)` (or the same exhaustion of the loop bound) and the same generator
state; and on a generator that records its calls, started from any record,
both leave the same record of calls. -/
theorem macro_selectParents_same_algorithm (ext : Externals G S) (p : IPopulation S D G)
    (fuel : Nat) (calls : List (Draw S)) :
    TestParentSelection.selectParents ext p.size fuel p.m_random
      = IPopulation.selectParents ext p.size fuel p.m_random
    ∧ (TestParentSelection.selectParents ext.recording p.size fuel (p.m_random, calls)).1
      = (IPopulation.selectParents ext.recording p.size fuel (p.m_random, calls)).1
    ∧ (TestParentSelection.selectParents ext.recording p.size fuel (p.m_random, calls)).2.1
      = (IPopulation.selectParents ext.recording p.size fuel (p.m_random, calls)).2.1
    ∧ (TestParentSelection.selectParents ext.recording p.size fuel (p.m_random, calls)).2.2
      = (IPopulation.selectParents ext.recording p.size fuel (p.m_random, calls)).2.2 := by
  refine ⟨macro_selectParents_eq ext _ _ _, ?_, ?_, ?_⟩ <;>
    rw [macro_selectParents_eq]

/-- The macro's function on the recording tape generator, with `N = 3`: the
draws `f1 = 2, p1 = 1` and `f2 = 1, p2 = 0` are accepted, four calls
`Integer(3)` are recorded. -/
theorem macro_selectParents_example :
    TestParentSelection.selectParents tapeExternals.recording 3 2 ([2, 1, 1, 0], [])
      = (Except.ok (1, 0),
          ([], [Draw.integer 3, Draw.integer 3, Draw.integer 3, Draw.integer 3])) := by
  decide

/-- The `newn` left by the `for` loop of `sort` is below the index at which
the loop stops. -/
theorem sortFor_newn_le {α : Type} (better : α → α → Bool) :
    ∀ (steps i newn : Nat) (xs : List α) (B : Nat), newn ≤ B → i + steps ≤ B + 1 →
      (sortFor better steps i newn xs).2 ≤ B := by
  intro steps
  induction steps with
  | zero => intro i newn xs B h _; simpa [sortFor] using h
  | succ k ih =>
    intro i newn xs B h1 h2
    rw [sortFor]
    split
    · split
      · exact ih (i + 1) i _ B (by omega) (by omega)
      · exact ih (i + 1) newn xs B h1 (by omega)
    · exact ih (i + 1) newn xs B h1 (by omega)

/-- The `for` loop of `sort` calls the comparator at most once per iteration. -/
theorem sortForCalls_le {α : Type} (better : α → α → Bool) :
    ∀ (steps i : Nat) (xs : List α), sortForCalls better steps i xs ≤ steps := by
  intro steps
  induction steps with
  | zero => intro i xs; simp [sortForCalls]
  | succ k ih =>
    intro i xs
    rw [sortForCalls]
    split
    · split
      · exact Nat.succ_le_succ (ih _ _)
      · exact Nat.succ_le_succ (ih _ _)
    · exact Nat.le_succ_of_le (ih _ _)

/-- The `while` loop of `sort` entered with `n` at most `bound` leaves through
its own test, after at most `n` passes and `n (n - 1) / 2` comparator calls. -/
theorem sortWhileCount_le {α : Type} (better : α → α → Bool) :
    ∀ (bound n : Nat) (xs : List α), n ≤ bound →
      ∃ c, sortWhileCount better bound n xs = some c ∧ c.1 ≤ n ∧ 2 * c.2 ≤ n * (n - 1) := by
  intro bound
  induction bound with
  | zero =>
    intro n xs h
    have : n = 0 := by omega
    subst this
    exact ⟨(0, 0), by simp [sortWhileCount], by simp, by simp⟩
  | succ k ih =>
    intro n xs h
    rw [sortWhileCount]
    by_cases hn : n > 0
    · rw [if_pos hn]
      have hle := sortFor_newn_le better (n - 1) 1 0 xs (n - 1) (Nat.zero_le _) (by omega)
      obtain ⟨c, hc, h1, h2⟩ := ih (sortFor better (n - 1) 1 0 xs).2
        (sortFor better (n - 1) 1 0 xs).1 (by omega)
      rw [hc]
      refine ⟨_, rfl, ?_, ?_⟩
      · show c.1 + 1 ≤ n
        omega
      · show 2 * (c.2 + sortForCalls better (n - 1) 1 xs) ≤ n * (n - 1)
        have h3 := sortForCalls_le better (n - 1) 1 xs
        have h4 : (sortFor better (n - 1) 1 0 xs).2 * ((sortFor better (n - 1) 1 0 xs).2 - 1)
            ≤ (n - 1) * (n - 1 - 1) := Nat.mul_le_mul hle (Nat.sub_le_sub_right hle 1)
        have h5 : n * (n - 1) = (n - 1) * (n - 1 - 1) + 2 * (n - 1) := by
          cases n with
          | zero => rfl
          | succ m =>
            cases m with
            | zero => rfl
            | succ j => simp only [Nat.add_sub_cancel]; ring
        omega
    · rw [if_neg hn]
      exact ⟨(0, 0), rfl, by simp, by simp⟩

/-- The result of the `while` loop of `sort` does not depend on the bound of
the recursion, once that bound is at least `n`. -/
theorem sortWhile_bound {α : Type} (better : α → α → Bool) :
    ∀ (bound1 bound2 n : Nat) (xs : List α), n ≤ bound1 → n ≤ bound2 →
      sortWhile better bound1 n xs = sortWhile better bound2 n xs := by
  intro bound1
  induction bound1 with
  | zero =>
    intro bound2 n xs h1 _
    have : n = 0 := by omega
    subst this
    cases bound2 <;> simp [sortWhile]
  | succ k ih =>
    intro bound2 n xs h1 h2
    cases bound2 with
    | zero =>
      have : n = 0 := by omega
      subst this
      simp [sortWhile]
    | succ j =>
      rw [sortWhile, sortWhile]
      by_cases hn : n > 0
      · rw [if_pos hn, if_pos hn]
        have hle := sortFor_newn_le better (n - 1) 1 0 xs (n - 1) (Nat.zero_le _) (by omega)
        exact ih j _ _ (by omega) (by omega)
      · rw [if_neg hn, if_neg hn]

/-- C29. The `while` loop of `IPopulation::sort`, whatever the comparator
`better` (no transitivity or consistency is asked of it): a pass over the
positions `1..n-1` ends with `newn` at most `n - 1`, so below `n` when the pass
is entered; on a population of size `N` the loop leaves through its own test
`n > 0` after at most `N` passes and at most `N (N - 1) / 2` calls of the
comparator; and the vector it leaves does not depend on the recursion bound of
the embedding, once that bound is at least `N`. -/
theorem sort_terminates_for_every_comparator (p : IPopulation S D G)
    (better : IModel S D → IModel S D → Bool) :
    (∀ (n : Nat) (xs : List (IModel S D)), (sortFor better (n - 1) 1 0 xs).2 ≤ n - 1)
    ∧ (∀ (n : Nat) (xs : List (IModel S D)), 0 < n → (sortFor better (n - 1) 1 0 xs).2 < n)
    ∧ (∃ c, sortWhileCount better p.size p.size p.m_individuals = some c
        ∧ c.1 ≤ p.size ∧ 2 * c.2 ≤ p.size * (p.size - 1))
    ∧ (∀ bound, p.size ≤ bound →
        sortWhile better bound p.size p.m_individuals
          = sortWhile better p.size p.size p.m_individuals) := by
  have h1 : ∀ (n : Nat) (xs : List (IModel S D)), (sortFor better (n - 1) 1 0 xs).2 ≤ n - 1 :=
    fun n xs => sortFor_newn_le better (n - 1) 1 0 xs (n - 1) (Nat.zero_le _) (by omega)
  refine ⟨h1, ?_, sortWhileCount_le better p.size p.size p.m_individuals (Nat.le_refl _), ?_⟩
  · intro n xs hn
    have := h1 n xs
    omega
  · intro bound hb
    exact sortWhile_bound better bound p.size p.size p.m_individuals hb (Nat.le_refl _)

/-- C29 on the three models of `unsortedPopulation` (scores 1, 3, 2) with the
comparator `cyclicBetter`, which is not transitive: the loop leaves through its
own test. -/
theorem sort_terminates_for_every_comparator_witness :
    (∃ c, sortWhileCount cyclicBetter unsortedPopulation.size unsortedPopulation.size
        unsortedPopulation.m_individuals = some c
        ∧ c.1 ≤ unsortedPopulation.size
        ∧ 2 * c.2 ≤ unsortedPopulation.size * (unsortedPopulation.size - 1)) :=
  (sort_terminates_for_every_comparator unsortedPopulation cyclicBetter).2.2.1

/-- With the comparator `cyclicBetter`, which is not transitive (score 1 is
better than score 3, score 3 than score 2, and score 1 is not better than
score 2), the loop on the scores `3, 1, 2` makes two passes and two calls. -/
theorem sort_cyclic_example :
    cyclicBetter (constantModel 1 1) (constantModel 3 3) = true
    ∧ cyclicBetter (constantModel 3 3) (constantModel 2 2) = true
    ∧ cyclicBetter (constantModel 1 1) (constantModel 2 2) = false
    ∧ sortWhileCount cyclicBetter 3 3 [constantModel 3 3, constantModel 1 1, constantModel 2 2]
        = some (2, 2) := by
  decide

/-- An exchange of two neighbours does not change the sub-sequence of the
elements of the rank of `x`: not both neighbours have that rank. -/
theorem filter_equalRank_swap {α : Type} (better : α → α → Bool) (h : StrictWeakOrder better)
    (a b x : α) (hab : better a b = true) (L post : List α) :
    (L ++ a :: b :: post).filter (equalRank better x)
      = (L ++ b :: a :: post).filter (equalRank better x) := by
  have hnot : ¬ (equalRank better x a = true ∧ equalRank better x b = true) := by
    rintro ⟨h1, h2⟩
    simp only [equalRank, Bool.and_eq_true, Bool.not_eq_true', Bool.not_eq_eq_eq_not,
      Bool.not_true] at h1 h2
    have := (h.incomp_trans a x b h1.2 h1.1 h2.1 h2.2).1
    rw [hab] at this
    exact Bool.noConfusion this
  simp only [List.filter_append, List.filter_cons]
  congr 1
  cases ha : equalRank better x a <;> cases hb : equalRank better x b <;> simp_all

/-- A pass of `sort` keeps, for a strict weak order, the sub-sequence of the
elements of each rank. -/
theorem sortFor_stable {α : Type} (better : α → α → Bool) (h : StrictWeakOrder better) (x : α) :
    ∀ (steps i newn : Nat) (xs : List α), 1 ≤ i →
      (sortFor better steps i newn xs).1.filter (equalRank better x)
        = xs.filter (equalRank better x) := by
  intro steps
  induction steps with
  | zero => intro i newn xs _; simp [sortFor]
  | succ k ih =>
    intro i newn xs hi
    rw [sortFor]
    split
    · rename_i a b ha hb
      obtain ⟨L, post, hL, hxs⟩ := split_adjacent xs i hi a b ha hb
      split
      · rename_i hab
        rw [ih (i + 1) i _ (by omega)]
        subst hxs
        have e : i - 1 = L.length := by omega
        rw [e, ← hL, set_set_adjacent]
        exact filter_equalRank_swap better h a b x hab L post
      · exact ih (i + 1) newn xs (by omega)
    · exact ih (i + 1) newn xs (by omega)

/-- The `while` loop of `sort` keeps, for a strict weak order, the
sub-sequence of the elements of each rank. -/
theorem sortWhile_stable {α : Type} (better : α → α → Bool) (h : StrictWeakOrder better)
    (x : α) :
    ∀ (bound n : Nat) (xs : List α),
      (sortWhile better bound n xs).filter (equalRank better x)
        = xs.filter (equalRank better x) := by
  intro bound
  induction bound with
  | zero => intro n xs; simp [sortWhile]
  | succ k ih =>
    intro n xs
    rw [sortWhile]
    split
    · rw [ih]
      exact sortFor_stable better h x (n - 1) 1 0 xs (Nat.le_refl _)
    · rfl

/-- A pass of `sort` over a vector already in order exchanges nothing. -/
theorem sortFor_of_pairwise {α : Type} (better : α → α → Bool) :
    ∀ (steps i newn : Nat) (xs : List α), 1 ≤ i →
      xs.Pairwise (fun x y => better y x = false) →
      sortFor better steps i newn xs = (xs, newn) := by
  intro steps
  induction steps with
  | zero => intro i newn xs _ _; simp [sortFor]
  | succ k ih =>
    intro i newn xs hi hp
    rw [sortFor]
    split
    · rename_i a b ha hb
      obtain ⟨L, post, hL, hxs⟩ := split_adjacent xs i hi a b ha hb
      have hab : better a b = false := by
        subst hxs
        have h1 := (List.pairwise_append.mp hp).2.1
        exact (List.pairwise_cons.mp h1).1 a (List.mem_cons_self _ _)
      rw [hab]
      exact ih (i + 1) newn xs (by omega) hp
    · exact ih (i + 1) newn xs (by omega) hp

/-- The `while` loop of `sort` leaves a vector already in order as it is. -/
theorem sortWhile_of_pairwise {α : Type} (better : α → α → Bool) (bound n : Nat) (xs : List α)
    (hp : xs.Pairwise (fun x y => better y x = false)) :
    sortWhile better bound n xs = xs := by
  cases bound with
  | zero => rfl
  | succ k =>
    rw [sortWhile]
    split
    · rw [sortFor_of_pairwise better (n - 1) 1 0 xs (Nat.le_refl _) hp]
      cases k <;> simp [sortWhile]
    · rfl

/-- After `sort()` on a population flagged unsorted, with a strict weak order,
no individual is better than one before it. -/
theorem sort_pairwise (p : IPopulation S D G) (fom : IFigureOfMerit S D)
    (hfom : p.m_fom = some fom) (hflag : p.m_sorted = false)
    (hswo : StrictWeakOrder fom.isBetterThanScore) :
    p.sort.2.m_individuals.Pairwise (fun x y => fom.isBetterThan y x = false) := by
  rw [sort_of_unsorted p fom hflag hfom]
  by_cases hsz : p.size ≤ 1
  · simp only [if_pos hsz]
    simp only [IPopulation.size] at hsz
    rcases hp : p.m_individuals with _ | ⟨a, _ | ⟨b, l⟩⟩
    · exact List.Pairwise.nil
    · exact List.pairwise_singleton _ _
    · rw [hp] at hsz; simp at hsz
  · simp only [if_neg hsz]
    exact (sortWhile_sorted_perm (fun a b : IModel S D => fom.isBetterThan a b)
      (isBetterThan_strictWeakOrder fom hswo) p.m_individuals).2

/-- C21. For a population whose figure of merit compares scores by a strict
weak order, `sort()` is stable: for every model `x`, the individuals of the rank
of `x` (neither better than `x` nor `x` better than them) are after `sort()` the
same sequence as before it, so two individuals of equal rank keep their
relative order. And when the population was flagged unsorted, clearing the
sorted flag of the result and calling `sort()` again leaves the same sequence
of individuals. -/
theorem sort_stable_and_idempotent (p : IPopulation S D G) (fom : IFigureOfMerit S D)
    (hfom : p.m_fom = some fom) (hswo : StrictWeakOrder fom.isBetterThanScore) :
    (∀ x : IModel S D,
        p.sort.2.m_individuals.filter (equalRank fom.isBetterThan x)
          = p.m_individuals.filter (equalRank fom.isBetterThan x))
    ∧ (p.m_sorted = false →
        ({ p.sort.2 with m_sorted := false } : IPopulation S D G).sort.2.m_individuals
          = p.sort.2.m_individuals) := by
  constructor
  · intro x
    by_cases hs : p.m_sorted = true
    · rw [sort_of_sorted p hs]
    · rw [sort_of_unsorted p fom (by simpa using hs) hfom]
      by_cases hsz : p.size ≤ 1
      · simp only [if_pos hsz]
      · simp only [if_neg hsz]
        exact sortWhile_stable (fun a b : IModel S D => fom.isBetterThan a b)
          (isBetterThan_strictWeakOrder fom hswo) x p.size p.size p.m_individuals
  · intro hflag
    have hp := sort_pairwise p fom hfom hflag hswo
    have hf : ({ p.sort.2 with m_sorted := false } : IPopulation S D G).m_fom = some fom := by
      show p.sort.2.m_fom = some fom
      rw [(sort_frame p).1, hfom]
    rw [sort_of_unsorted _ fom rfl hf]
    show (if _ then p.sort.2.m_individuals else _) = _
    split
    · rfl
    · exact sortWhile_of_pairwise (fun a b : IModel S D => fom.isBetterThan a b) _ _ _ hp

/-- C21 on `tiedPopulation`: the models of scores `1, 2, 1, 2` and parameters
`10, 20, 30, 40` are left by `sort()` in the order `20, 40, 10, 30`, each pair
of equal score in its former order, and a second run leaves that order. -/
theorem sort_stable_and_idempotent_witness :
    (tiedPopulation.m_fom = some valueFigureOfMerit ∧ tiedPopulation.m_sorted = false)
    ∧ tiedPopulation.sort.2.m_individuals.map (fun m => (m.m_score, m.derived.GetParameter 0))
        = [(2, 20), (2, 40), (1, 10), (1, 30)]
    ∧ (∀ x : IModel Int (TF1 Int),
        tiedPopulation.sort.2.m_individuals.filter (equalRank valueFigureOfMerit.isBetterThan x)
          = tiedPopulation.m_individuals.filter (equalRank valueFigureOfMerit.isBetterThan x))
    ∧ ({ tiedPopulation.sort.2 with m_sorted := false } :
          IPopulation Int (TF1 Int) (List Nat)).sort.2.m_individuals
        = tiedPopulation.sort.2.m_individuals :=
  ⟨⟨rfl, rfl⟩, by decide,
    (sort_stable_and_idempotent tiedPopulation valueFigureOfMerit rfl
      defaultIsBetterThan_strictWeakOrder).1,
    (sort_stable_and_idempotent tiedPopulation valueFigureOfMerit rfl
      defaultIsBetterThan_strictWeakOrder).2 rfl⟩

/-- C23, at a negative value. The model holds the parameter `-5` (limits
`(0, 10)`) and the mutation size is 1, so `mutationSize * |v|` is 5; `doMutate`
requests `Gaus(0, -5)`: the recorded calls are `Integer(1)` and `Gaus(0, -5)`,
and with the raw draw 3, for which the tape generator returns `sigma`, the
new value is `-10`, where a draw requested with the deviation 5 gives `0`. -/
theorem doMutate_negative_value_negative_sigma :
    (constantModel 0 (-5)).derived.GetParameter 0 = -5
    ∧ constantPopulation.m_mutationSize * |(-5 : Int)| = 5
    ∧ (ParametricModelPopulation.doMutate tapeExternals.recording constantPopulation
        (constantModel 0 (-5)) ([0, 3], [])).2.2 = [Draw.integer 1, Draw.gaus 0 (-5)]
    ∧ (ParametricModelPopulation.doMutate tapeExternals constantPopulation
        (constantModel 0 (-5)) [0, 3]).1.derived.GetParameter 0 = -10
    ∧ -5 + (tapeExternals.Gaus [3] 0 5).1 = 0 := by
  decide

/-- C23, amended. When the parameter drawn has `min < max` and holds `v`,
`doMutate` makes one call `Gaus(0, sigma)` with `sigma = mutationSize` when
`v = 0` and `sigma = v * mutationSize` otherwise, and stores `v` plus the value
drawn, whatever the limits are (no clamping); the generator is left as that
call leaves it. The argument `sigma` is `mutationSize * |v|` when `v > 0` and
its opposite, `-(mutationSize * |v|)`, when `v < 0`. -/
theorem doMutate_adds_gaussian_noise {T : Type} [LinearOrderedCommRing T]
    (ext : Externals G T) (self : ParametricModelPopulation T) (model : IModel T (TF1 T)) (g : G)
    (hlim : (model.derived.GetParLimits (ext.Integer g model.derived.GetNpar).1).1
      < (model.derived.GetParLimits (ext.Integer g model.derived.GetNpar).1).2) :
    ∃ sigma : T,
      sigma = (if model.derived.GetParameter (ext.Integer g model.derived.GetNpar).1 = 0
        then self.m_mutationSize
        else model.derived.GetParameter (ext.Integer g model.derived.GetNpar).1
          * self.m_mutationSize)
      ∧ ParametricModelPopulation.doMutate ext self model g
        = ({ model with
              derived := model.derived.SetParameter (ext.Integer g model.derived.GetNpar).1
                (model.derived.GetParameter (ext.Integer g model.derived.GetNpar).1
                  + (ext.Gaus (ext.Integer g model.derived.GetNpar).2 0 sigma).1) },
            (ext.Gaus (ext.Integer g model.derived.GetNpar).2 0 sigma).2)
      ∧ ((ext.Integer g model.derived.GetNpar).1 < model.derived.GetNpar →
          (ParametricModelPopulation.doMutate ext self model g).1.derived.GetParameter
              (ext.Integer g model.derived.GetNpar).1
            = model.derived.GetParameter (ext.Integer g model.derived.GetNpar).1
              + (ext.Gaus (ext.Integer g model.derived.GetNpar).2 0 sigma).1)
      ∧ (0 < model.derived.GetParameter (ext.Integer g model.derived.GetNpar).1 →
          sigma = self.m_mutationSize
            * |model.derived.GetParameter (ext.Integer g model.derived.GetNpar).1|)
      ∧ (model.derived.GetParameter (ext.Integer g model.derived.GetNpar).1 < 0 →
          sigma = -(self.m_mutationSize
            * |model.derived.GetParameter (ext.Integer g model.derived.GetNpar).1|)) := by
  refine ⟨_, rfl, ?_, ?_, ?_, ?_⟩
  · unfold ParametricModelPopulation.doMutate
    simp only [if_pos hlim]
  · intro hp
    unfold ParametricModelPopulation.doMutate
    simp only [if_pos hlim]
    simp only [TF1.GetParameter, TF1.SetParameter, TF1.GetNpar] at hp ⊢
    rw [List.getD_eq_getElem?_getD, List.getElem?_set_self hp]
    rfl
  · intro hv
    rw [if_neg (ne_of_gt hv), abs_of_pos hv]
    exact mul_comm _ _
  · intro hv
    rw [if_neg (ne_of_lt hv), abs_of_neg hv]
    ring

/-- C23 amended, on the model of parameter 4 with mutation size 1 and the raw
draws `0, 3`: the limits of the parameter drawn are `(0, 10)`, `Gaus(0, 4)` is
requested and the parameter becomes `4 + 4 = 8`. -/
theorem doMutate_adds_gaussian_noise_witness :
    ((constantModel 0 4).derived.GetParLimits
        (tapeExternals.Integer [0, 3] (constantModel 0 4).derived.GetNpar).1).1
      < ((constantModel 0 4).derived.GetParLimits
        (tapeExternals.Integer [0, 3] (constantModel 0 4).derived.GetNpar).1).2
    ∧ (ParametricModelPopulation.doMutate tapeExternals.recording constantPopulation
        (constantModel 0 4) ([0, 3], [])).2.2 = [Draw.integer 1, Draw.gaus 0 4]
    ∧ (ParametricModelPopulation.doMutate tapeExternals constantPopulation
        (constantModel 0 4) [0, 3]).1.derived.GetParameter 0 = 8
    ∧ ∃ sigma : Int,
      sigma = (if (constantModel 0 4).derived.GetParameter
          (tapeExternals.Integer [0, 3] (constantModel 0 4).derived.GetNpar).1 = 0
        then constantPopulation.m_mutationSize
        else (constantModel 0 4).derived.GetParameter
            (tapeExternals.Integer [0, 3] (constantModel 0 4).derived.GetNpar).1
          * constantPopulation.m_mutationSize) :=
  ⟨by decide, by decide, by decide,
    (doMutate_adds_gaussian_noise tapeExternals constantPopulation (constantModel 0 4) [0, 3]
      (by decide)).imp (fun _ h => h.1)⟩

/-- The hook `doMutate` leaves the score, the limits, the function and the
number of parameters of the model, and every parameter but the one drawn. -/
theorem parametric_doMutate_frame [Zero S] [Add S] [Mul S] [LT S]
    [DecidableRel (fun a b : S => a < b)] [DecidableEq S]
    (ext : Externals G S) (self : ParametricModelPopulation S) (model : IModel S (TF1 S))
    (g : G) :
    (ParametricModelPopulation.doMutate ext self model g).1.m_score = model.m_score
    ∧ (ParametricModelPopulation.doMutate ext self model g).1.derived.fParLimits
        = model.derived.fParLimits
    ∧ (ParametricModelPopulation.doMutate ext self model g).1.derived.fEval
        = model.derived.fEval
    ∧ (ParametricModelPopulation.doMutate ext self model g).1.derived.GetNpar
        = model.derived.GetNpar
    ∧ ∀ j, j ≠ (ext.Integer g model.derived.GetNpar).1 →
        (ParametricModelPopulation.doMutate ext self model g).1.derived.fParams[j]?
          = model.derived.fParams[j]? := by
  unfold ParametricModelPopulation.doMutate
  by_cases hlim : (model.derived.GetParLimits (ext.Integer g model.derived.GetNpar).1).1
      < (model.derived.GetParLimits (ext.Integer g model.derived.GetNpar).1).2
  · rw [if_pos hlim]
    refine ⟨rfl, rfl, rfl, ?_, ?_⟩
    · simp only [TF1.SetParameter, TF1.GetNpar, List.length_set]
    · intro j hj
      simp only [TF1.SetParameter]
      exact List.getElem?_set_ne (Ne.symm hj)
  · rw [if_neg hlim]
    exact ⟨rfl, rfl, rfl, rfl, fun _ _ => rfl⟩

/-- C24. `ParametricModelPopulation::doMutate` on a model leaves its score,
the limits, the function and the number of its parameters, and every parameter
other than the one whose index `Integer(Npar)` draws; when that parameter has
`min >= max` the model is returned as it was. In `mutate()` the hook is given
one individual and returns one: the size is kept, and the individual of every
slot is after the call either the former individual of that slot or the hook's
result on it, so it has the former score and differs from the former
individual in at most one parameter. -/
theorem doMutate_changes_one_parameter [Zero S] [One S] [Add S] [Mul S] [LT S]
    [DecidableRel (fun a b : S => a < b)] [DecidableEq S]
    (ext : Externals G S) (self : ParametricModelPopulation S) (model : IModel S (TF1 S))
    (g : G) (pop : IPopulation S (TF1 S) G) :
    ((ParametricModelPopulation.doMutate ext self model g).1.m_score = model.m_score
      ∧ (ParametricModelPopulation.doMutate ext self model g).1.derived.fParLimits
          = model.derived.fParLimits
      ∧ (ParametricModelPopulation.doMutate ext self model g).1.derived.fEval
          = model.derived.fEval
      ∧ (ParametricModelPopulation.doMutate ext self model g).1.derived.GetNpar
          = model.derived.GetNpar
      ∧ ∀ j, j ≠ (ext.Integer g model.derived.GetNpar).1 →
          (ParametricModelPopulation.doMutate ext self model g).1.derived.fParams[j]?
            = model.derived.fParams[j]?)
    ∧ (¬ ((model.derived.GetParLimits (ext.Integer g model.derived.GetNpar).1).1
          < (model.derived.GetParLimits (ext.Integer g model.derived.GetNpar).1).2) →
        (ParametricModelPopulation.doMutate ext self model g).1 = model)
    ∧ (pop.mutate ext (self.hooks ext)).size = pop.size
    ∧ ∀ (i : Nat) (m : IModel S (TF1 S)), pop.m_individuals[i]? = some m →
        ∃ m2, (pop.mutate ext (self.hooks ext)).m_individuals[i]? = some m2
          ∧ m2.m_score = m.m_score
          ∧ m2.derived.fParLimits = m.derived.fParLimits
          ∧ m2.derived.fEval = m.derived.fEval
          ∧ ∃ p : Nat, ∀ j : Nat, j ≠ p → m2.derived.fParams[j]? = m.derived.fParams[j]? := by
  refine ⟨parametric_doMutate_frame ext self model g, ?_, ?_, ?_⟩
  · intro hlim
    unfold ParametricModelPopulation.doMutate
    simp only [if_neg hlim]
  · exact (mutateFor_trace ext (self.hooks ext) pop.m_mutateRate pop.m_individuals
      pop.m_random).1
  · intro i m hm
    obtain ⟨_, gs, _, _, _, hall⟩ := mutateFor_trace ext (self.hooks ext) pop.m_mutateRate
      pop.m_individuals pop.m_random
    obtain ⟨gi, _, hyes, hno⟩ := hall i m hm
    by_cases hgate : (ext.Uniform gi 0 1).1 < pop.m_mutateRate
    · have hf := parametric_doMutate_frame ext self m (ext.Uniform gi 0 1).2
      exact ⟨_, (hyes hgate).1, hf.1, hf.2.1, hf.2.2.1, _, hf.2.2.2.2⟩
    · exact ⟨m, (hno hgate).1, rfl, rfl, rfl, 0, fun _ _ => rfl⟩

/-- C24 on `lineModel 0 3 7`: when the raw draw selects the parameter 0
(limits `(0, 10)`) that parameter alone changes, from 3 to 6; when it selects
the parameter 1 (limits `(5, 5)`) the parameters are left as they are and
`Integer(2)` is the only call made. -/
theorem doMutate_changes_one_parameter_witness :
    (ParametricModelPopulation.doMutate tapeExternals linePopulation (lineModel 0 3 7)
        [0, 3]).1.derived.fParams = [6, 7]
    ∧ (ParametricModelPopulation.doMutate tapeExternals linePopulation (lineModel 0 3 7)
        [1, 3]).1.derived.fParams = [3, 7]
    ∧ (ParametricModelPopulation.doMutate tapeExternals.recording linePopulation
        (lineModel 0 3 7) ([1, 3], [])).2.2 = [Draw.integer 2]
    ∧ (ParametricModelPopulation.doMutate tapeExternals linePopulation (lineModel 0 3 7)
        [1, 3]).1.m_score = (lineModel 0 3 7).m_score :=
  ⟨by decide, by decide, by decide,
    (doMutate_changes_one_parameter tapeExternals linePopulation (lineModel 0 3 7) [1, 3]
      (emptyPopulation [] 0)).1.1⟩

/-- The loop over the parameters in `doInitialize` visits the parameters in
order. There is a sequence `gs` of generator states, one before each parameter
and one after the last: a parameter with `min < max` receives the value
`Uniform(min, max)` drawn from its state, a parameter with `min >= max` keeps
its value and the generator its state; the parameters before the entry index
keep their values. -/
theorem initializeParameters_trace [Zero S] [LT S] [DecidableRel (fun a b : S => a < b)]
    (ext : Externals G S) :
    ∀ (steps p0 : Nat) (f : TF1 S) (g : G), p0 + steps ≤ f.fParams.length →
      ∃ gs : List G, gs.length = steps + 1 ∧ gs[0]? = some g ∧
        gs[steps]? = some (initializeParameters ext steps p0 f g).2 ∧
        (∀ k, k < p0 → (initializeParameters ext steps p0 f g).1.fParams[k]? = f.fParams[k]?) ∧
        ∀ j, j < steps → ∃ gj, gs[j]? = some gj ∧
          ((f.GetParLimits (p0 + j)).1 < (f.GetParLimits (p0 + j)).2 →
            (initializeParameters ext steps p0 f g).1.fParams[p0 + j]?
                = some (ext.Uniform gj (f.GetParLimits (p0 + j)).1 (f.GetParLimits (p0 + j)).2).1
              ∧ gs[j + 1]?
                = some (ext.Uniform gj (f.GetParLimits (p0 + j)).1
                    (f.GetParLimits (p0 + j)).2).2) ∧
          (¬ (f.GetParLimits (p0 + j)).1 < (f.GetParLimits (p0 + j)).2 →
            (initializeParameters ext steps p0 f g).1.fParams[p0 + j]? = f.fParams[p0 + j]?
              ∧ gs[j + 1]? = some gj) := by
  intro steps
  induction steps with
  | zero =>
    intro p0 f g _
    refine ⟨[g], rfl, rfl, rfl, fun _ _ => rfl, ?_⟩
    intro j hj
    omega
  | succ n ih =>
    intro p0 f g hlen
    rw [initializeParameters]
    by_cases hlim : (f.GetParLimits p0).1 < (f.GetParLimits p0).2
    · simp only [if_pos hlim]
      obtain ⟨gs, h1, h2, h3, h4, h5⟩ := ih (p0 + 1)
        (f.SetParameter p0 (ext.Uniform g (f.GetParLimits p0).1 (f.GetParLimits p0).2).1)
        (ext.Uniform g (f.GetParLimits p0).1 (f.GetParLimits p0).2).2
        (by simp only [TF1.SetParameter, List.length_set]; omega)
      refine ⟨g :: gs, by simp [h1], by simp, by simpa using h3, ?_, ?_⟩
      · intro k hk
        rw [h4 k (by omega)]
        simp only [TF1.SetParameter]
        exact List.getElem?_set_ne (by omega)
      · intro j hj
        cases j with
        | zero =>
          refine ⟨g, by simp, ?_, fun hn => absurd hlim hn⟩
          intro _
          refine ⟨?_, by simpa using h2⟩
          simp only [Nat.add_zero]
          rw [h4 p0 (by omega)]
          simp only [TF1.SetParameter]
          exact List.getElem?_set_self (by omega)
        | succ i =>
          obtain ⟨gj, e1, e2, e3⟩ := h5 i (by omega)
          have e : p0 + (i + 1) = p0 + 1 + i := by omega
          rw [e]
          refine ⟨gj, by simpa using e1, ?_, ?_⟩
          · intro hl
            have := e2 hl
            exact ⟨this.1, by simpa using this.2⟩
          · intro hl
            have := e3 hl
            refine ⟨?_, by simpa using this.2⟩
            rw [this.1]
            simp only [TF1.SetParameter]
            exact List.getElem?_set_ne (by omega)
    · simp only [if_neg hlim]
      obtain ⟨gs, h1, h2, h3, h4, h5⟩ := ih (p0 + 1) f g (by omega)
      refine ⟨g :: gs, by simp [h1], by simp, by simpa using h3, ?_, ?_⟩
      · intro k hk
        exact h4 k (by omega)
      · intro j hj
        cases j with
        | zero =>
          refine ⟨g, by simp, fun hl => absurd hl hlim, ?_⟩
          intro _
          simp only [Nat.add_zero]
          exact ⟨h4 p0 (by omega), by simpa using h2⟩
        | succ i =>
          obtain ⟨gj, e1, e2, e3⟩ := h5 i (by omega)
          have e : p0 + (i + 1) = p0 + 1 + i := by omega
          rw [e]
          refine ⟨gj, by simpa using e1, ?_, ?_⟩
          · intro hl
            have := e2 hl
            exact ⟨this.1, by simpa using this.2⟩
          · intro hl
            have := e3 hl
            exact ⟨this.1, by simpa using this.2⟩

/-- The loop over the individuals in `doInitialize` creates the individuals in
slot order: the individual of slot `i` is initialised from the generator state
that the loops of the slots before it leave. -/
theorem doInitializeFor_slots [Zero S] [LT S] [DecidableRel (fun a b : S => a < b)]
    (ext : Externals G S) (f : TF1 S) :
    ∀ (count : Nat) (g : G),
      (doInitializeFor ext f count g).2
          = (fun g0 => (initializeParameters ext f.GetNpar 0 f g0).2)^[count] g ∧
      ∀ i, i < count →
        (doInitializeFor ext f count g).1[i]?
          = some { m_score := 0,
                   derived := (initializeParameters ext f.GetNpar 0 f
                     ((fun g0 => (initializeParameters ext f.GetNpar 0 f g0).2)^[i] g)).1 } := by
  intro count
  induction count with
  | zero => intro g; exact ⟨rfl, fun i hi => absurd hi (Nat.not_lt_zero _)⟩
  | succ n ih =>
    intro g
    rw [doInitializeFor]
    obtain ⟨h1, h2⟩ := ih (initializeParameters ext f.GetNpar 0 f g).2
    refine ⟨?_, ?_⟩
    · rw [Function.iterate_succ_apply]
      exact h1
    · intro i hi
      cases i with
      | zero => simp
      | succ k =>
        rw [Function.iterate_succ_apply]
        simpa using h2 k (by omega)

/-- C25. After `doInitialize(n)` every slot `i < n` holds a model of score 0
whose genes were drawn after those of the slots before it: the generator state
at its first parameter is the one the loops of the slots `0..i-1` leave. Within
the individual there is a sequence `gs` of generator states, one before each
parameter in parameter order: a parameter with `min < max` holds the value of
the call `Uniform(min, max)` made in its state, which lies in `[min, max]`
when the generator returns values within the bounds it is given; a parameter
with `min >= max` holds the value of the template formula and makes no draw.
The generator is left as the loops of the `n` slots leave it. -/
theorem doInitialize_draws_each_gene [Zero S] [LT S] [LE S]
    [DecidableRel (fun a b : S => a < b)]
    (ext : Externals G S) (self : ParametricModelPopulation S) (n : Int)
    (individuals : List (IModel S (TF1 S))) (g : G) (i : Nat) (hi : (i : Int) < n) :
    (self.doInitialize ext n individuals g).2
        = (nextIndividualState ext self.m_formula)^[n.toNat] g
    ∧ ∃ m, (self.doInitialize ext n individuals g).1[i]? = some m ∧ m.m_score = 0 ∧
      ∃ gs : List G, gs.length = self.m_formula.GetNpar + 1
        ∧ gs[0]? = some ((nextIndividualState ext self.m_formula)^[i] g)
        ∧ gs[self.m_formula.GetNpar]? = some ((nextIndividualState ext self.m_formula)^[i + 1] g)
        ∧ ∀ p, p < self.m_formula.GetNpar → ∃ gp, gs[p]? = some gp ∧
          ((self.m_formula.GetParLimits p).1 < (self.m_formula.GetParLimits p).2 →
            m.derived.fParams[p]?
                = some (ext.Uniform gp (self.m_formula.GetParLimits p).1
                    (self.m_formula.GetParLimits p).2).1
              ∧ gs[p + 1]?
                = some (ext.Uniform gp (self.m_formula.GetParLimits p).1
                    (self.m_formula.GetParLimits p).2).2
              ∧ ((∀ (g0 : G) (a b : S), a < b →
                    a ≤ (ext.Uniform g0 a b).1 ∧ (ext.Uniform g0 a b).1 ≤ b) →
                  (self.m_formula.GetParLimits p).1 ≤ m.derived.GetParameter p
                    ∧ m.derived.GetParameter p ≤ (self.m_formula.GetParLimits p).2)) ∧
          (¬ (self.m_formula.GetParLimits p).1 < (self.m_formula.GetParLimits p).2 →
            m.derived.fParams[p]? = self.m_formula.fParams[p]? ∧ gs[p + 1]? = some gp) := by
  have hin : i < n.toNat := by omega
  obtain ⟨hstate, hslots⟩ := doInitializeFor_slots ext self.m_formula n.toNat g
  refine ⟨hstate, _, hslots i hin, rfl, ?_⟩
  obtain ⟨gs, h1, h2, h3, _, h5⟩ := initializeParameters_trace ext self.m_formula.GetNpar 0
    self.m_formula ((nextIndividualState ext self.m_formula)^[i] g)
    (by simp [TF1.GetNpar])
  refine ⟨gs, h1, h2, ?_, ?_⟩
  · rw [h3, Function.iterate_succ_apply']
    rfl
  · intro p hp
    obtain ⟨gp, e1, e2, e3⟩ := h5 p hp
    simp only [Nat.zero_add] at e2 e3
    refine ⟨gp, e1, ?_, e3⟩
    intro hl
    refine ⟨(e2 hl).1, (e2 hl).2, ?_⟩
    intro hrange
    have hv : (initializeParameters ext self.m_formula.GetNpar 0 self.m_formula
        ((nextIndividualState ext self.m_formula)^[i] g)).1.GetParameter p
        = (ext.Uniform gp (self.m_formula.GetParLimits p).1
            (self.m_formula.GetParLimits p).2).1 := by
      unfold TF1.GetParameter
      rw [List.getD_eq_getElem?_getD, (e2 hl).1]
      rfl
    show _ ≤ (initializeParameters ext self.m_formula.GetNpar 0 self.m_formula
        ((nextIndividualState ext self.m_formula)^[i] g)).1.GetParameter p ∧
      (initializeParameters ext self.m_formula.GetNpar 0 self.m_formula
        ((nextIndividualState ext self.m_formula)^[i] g)).1.GetParameter p ≤ _
    rw [hv]
    exact hrange gp _ _ hl

/-- C25 on `linePopulation` with `n = 2` and the raw draws `3, 14`: the first
parameters, of limits `(0, 10)`, receive `3` and `4`, one draw each in slot
order, and the second parameter, of limits `(5, 5)`, keeps the value `7` of the
template. -/
theorem doInitialize_draws_each_gene_witness :
    ((1 : Nat) : Int) < 2
    ∧ (linePopulation.doInitialize tapeExternals 2 [] [3, 14]).1.map (fun m => m.derived.fParams)
        = [[3, 7], [4, 7]]
    ∧ (linePopulation.doInitialize tapeExternals.recording 2 [] ([3, 14], [])).2.2
        = [Draw.uniform 0 10, Draw.uniform 0 10]
    ∧ (linePopulation.doInitialize tapeExternals 2 [] [3, 14]).2
        = (nextIndividualState tapeExternals linePopulation.m_formula)^[(2 : Int).toNat] [3, 14] :=
  ⟨by decide, by decide, by decide,
    (doInitialize_draws_each_gene tapeExternals linePopulation 2 [] [3, 14] 1 (by decide)).1⟩

/-- The loop of `doCrossOver` for two parents draws one coin per parameter, in
parameter order, and pushes the value of the first parent when the coin is
not zero and of the second parent when it is zero. -/
theorem mixGenes_spec [Zero S] (ext : Externals G S) (formula1 formula2 : TF1 S) :
    ∀ (steps p : Nat) (g : G),
      (mixGenes ext formula1 formula2 steps p g).1.length = steps ∧
      (mixGenes ext formula1 formula2 steps p g).2 = (afterCoin ext)^[steps] g ∧
      ∀ j, j < steps →
        (mixGenes ext formula1 formula2 steps p g).1[j]?
          = some (if (ext.Integer ((afterCoin ext)^[j] g) 2).1 ≠ 0
              then formula1.GetParameter (p + j) else formula2.GetParameter (p + j)) := by
  intro steps
  induction steps with
  | zero => intro p g; exact ⟨rfl, rfl, fun j hj => absurd hj (Nat.not_lt_zero _)⟩
  | succ n ih =>
    intro p g
    rw [mixGenes]
    obtain ⟨h1, h2, h3⟩ := ih (p + 1) (ext.Integer g 2).2
    refine ⟨by simp [h1], ?_, ?_⟩
    · rw [Function.iterate_succ_apply]
      exact h2
    · intro j hj
      cases j with
      | zero => simp
      | succ k =>
        rw [Function.iterate_succ_apply]
        have := h3 k (by omega)
        have e : p + (k + 1) = p + 1 + k := by omega
        rw [e]
        simpa using this

/-- The calls `SetParameter(p, ...)`, `SetParameter(p + 1, ...)`, ... leave the
parameters below `p`. -/
theorem setGenes_below :
    ∀ (genes : List S) (p : Nat) (formula : TF1 S) (j : Nat), j < p →
      (setGenes p genes formula).fParams[j]? = formula.fParams[j]? := by
  intro genes
  induction genes with
  | nil => intro p formula j _; rfl
  | cons v rest ih =>
    intro p formula j hj
    rw [setGenes, ih (p + 1) _ j (by omega)]
    simp only [TF1.SetParameter]
    exact List.getElem?_set_ne (by omega)

/-- The calls `SetParameter(p, genes[0])`, `SetParameter(p + 1, genes[1])`, ...
store each gene at its index, when the formula has a parameter of that
index. -/
theorem setGenes_at :
    ∀ (genes : List S) (p : Nat) (formula : TF1 S) (j : Nat), p ≤ j →
      j < p + genes.length → j < formula.fParams.length →
      (setGenes p genes formula).fParams[j]? = genes[j - p]? := by
  intro genes
  induction genes with
  | nil => intro p formula j h1 h2 _; simp at h2; omega
  | cons v rest ih =>
    intro p formula j h1 h2 h3
    rw [setGenes]
    by_cases hj : j = p
    · subst hj
      rw [setGenes_below rest (j + 1) _ j (by omega)]
      simp only [TF1.SetParameter, Nat.sub_self, List.getElem?_cons_zero]
      exact List.getElem?_set_self h3
    · rw [ih (p + 1) _ j (by omega) (by simp only [List.length_cons] at h2; omega)
        (by simp only [TF1.SetParameter, List.length_set]; exact h3)]
      have e : j - p = (j - (p + 1)) + 1 := by omega
      rw [e, List.getElem?_cons_succ]

/-- The calls `SetParameter` of `doCrossOver` leave the limits, the function
and the number of parameters of the formula. -/
theorem setGenes_frame :
    ∀ (genes : List S) (p : Nat) (formula : TF1 S),
      (setGenes p genes formula).fParLimits = formula.fParLimits ∧
      (setGenes p genes formula).fEval = formula.fEval ∧
      (setGenes p genes formula).fParams.length = formula.fParams.length := by
  intro genes
  induction genes with
  | nil => intro p formula; exact ⟨rfl, rfl, rfl⟩
  | cons v rest ih =>
    intro p formula
    rw [setGenes]
    obtain ⟨h1, h2, h3⟩ := ih (p + 1) (formula.SetParameter p v)
    exact ⟨h1, h2, by rw [h3]; simp [TF1.SetParameter]⟩

/-- The first loop of `doCrossOver` computes the offspring of slot `i` from
the parent group of the slot, with the generator in the state that the slots
before it leave. -/
theorem offspringGenesFor_getElem [Zero S] (ext : Externals G S) :
    ∀ (steps : Nat) (parents : List (List (IModel S (TF1 S)))) (g : G) (i : Nat)
      (group : List (IModel S (TF1 S))), i < steps → parents[i]? = some group →
      (offspringGenesFor ext steps parents g).1[i]?
        = some (offspringOf ext group (offspringGenesFor ext i parents g).2).1 := by
  intro steps
  induction steps with
  | zero => intro parents g i group hi _; omega
  | succ n ih =>
    intro parents g i group hi hgroup
    cases parents with
    | nil => simp at hgroup
    | cons group0 rest =>
      rw [offspringGenesFor]
      cases i with
      | zero =>
        simp only [List.getElem?_cons_zero, Option.some.injEq] at hgroup
        subst hgroup
        simp [offspringGenesFor]
      | succ k =>
        simp only [List.getElem?_cons_succ] at hgroup
        simp only [List.getElem?_cons_succ, offspringGenesFor]
        exact ih rest _ k group (by omega) hgroup

/-- The second loop of `doCrossOver` writes to the individual of slot `i` the
offspring vector of slot `i`. -/
theorem applyOffspring_getElem :
    ∀ (models : List (IModel S (TF1 S))) (offspringGenes : List (List S)) (i : Nat)
      (m : IModel S (TF1 S)) (genes : List S),
      models[i]? = some m → offspringGenes[i]? = some genes →
      (applyOffspring models offspringGenes)[i]?
        = some { m with derived := setGenes 0 genes m.derived } := by
  intro models
  induction models with
  | nil => intro og i m genes hm _; simp at hm
  | cons m0 rest ih =>
    intro og i m genes hm hg
    cases og with
    | nil => simp at hg
    | cons g0 og =>
      rw [applyOffspring]
      cases i with
      | zero =>
        simp only [List.getElem?_cons_zero, Option.some.injEq] at hm hg
        subst hm hg
        simp
      | succ k =>
        simp only [List.getElem?_cons_succ] at hm hg ⊢
        exact ih og k m genes hm hg

/-- The hook `doCrossOver` on a slot `i` whose group holds the two parents
`parent1` and `parent2` and whose individual is `m`: after the call the slot
holds a model of the score of `m` whose parameter `p` is the parameter `p` of
`parent1` when the coin drawn for `p` is not zero and of `parent2` when it is
zero; the coins of the slot are drawn in parameter order from the generator
state that the first loop leaves after the slots before `i`. -/
theorem parametric_doCrossOver_slot [Zero S] (ext : Externals G S)
    (parents : List (List (IModel S (TF1 S)))) (individuals : List (IModel S (TF1 S))) (g : G)
    (i : Nat) (parent1 parent2 m : IModel S (TF1 S))
    (hgroup : parents[i]? = some [parent1, parent2]) (hslot : individuals[i]? = some m) :
    ∃ m2, (ParametricModelPopulation.doCrossOver ext parents individuals g).1[i]? = some m2
      ∧ m2.m_score = m.m_score
      ∧ ∀ p, p < parent1.derived.GetNpar → p < m.derived.GetNpar →
          m2.derived.fParams[p]?
            = some (if (ext.Integer ((afterCoin ext)^[p]
                    (offspringGenesFor ext i parents g).2) 2).1 ≠ 0
                then parent1.derived.GetParameter p else parent2.derived.GetParameter p) := by
  have hi : i < individuals.length := (List.getElem?_eq_some.mp hslot).1
  have hgenes := offspringGenesFor_getElem ext individuals.length parents g i _ hi hgroup
  have hres := applyOffspring_getElem individuals
    (offspringGenesFor ext individuals.length parents g).1 i m _ hslot hgenes
  refine ⟨_, hres, rfl, ?_⟩
  intro p hp1 hpm
  obtain ⟨hlen, _, hmix⟩ := mixGenes_spec ext parent1.derived parent2.derived
    parent1.derived.GetNpar 0 (offspringGenesFor ext i parents g).2
  show (setGenes 0 (offspringOf ext [parent1, parent2] (offspringGenesFor ext i parents g).2).1
    m.derived).fParams[p]? = _
  simp only [offspringOf]
  rw [setGenes_at _ 0 m.derived p (Nat.zero_le _) (by rw [hlen]; omega) hpm, Nat.sub_zero,
    hmix p hp1, Nat.zero_add]

/-- C22. When `crossOver()` returns on a `ParametricModelPopulation`, for every
slot `i` whose group in the parent buffer holds two parents: the two parents
are the individuals at two distinct positions of the vector as `sort()` left
it, before the hook `doCrossOver` ran; and the slot holds afterwards a model of
the score of its former individual whose parameter `p`, for every `p` below
`GetNpar()`, is the value that parameter `p` of parent 1 had before the hook
ran when the coin `Integer(2)` drawn for `p` is not zero, and the value that
parameter `p` of parent 2 had when the coin is zero, also when the slot of a
parent is overwritten by the same call. The coins of the slot are drawn in
parameter order from the generator state that the parent selection and the
first loop of the hook on the slots before `i` leave. -/
theorem doCrossOver_mixes_parent_genes [Zero S] [Add S] [Mul S] [LT S]
    [DecidableRel (fun a b : S => a < b)] [DecidableEq S]
    (ext : Externals G S) (self : ParametricModelPopulation S) (fuel : Nat)
    (pop : IPopulation S (TF1 S) G) (i : Nat) (parent1 parent2 : IModel S (TF1 S))
    (h : (pop.crossOver ext (self.hooks ext) fuel).1 = Except.ok ())
    (hgroup : (pop.crossOver ext (self.hooks ext) fuel).2.m_parents[i]?
      = some [parent1, parent2]) :
    (∃ p1 p2 : Nat, p1 ≠ p2 ∧ pop.sort.2.m_individuals[p1]? = some parent1
      ∧ pop.sort.2.m_individuals[p2]? = some parent2)
    ∧ ∃ m m2, pop.sort.2.m_individuals[i]? = some m
      ∧ (pop.crossOver ext (self.hooks ext) fuel).2.m_individuals[i]? = some m2
      ∧ m2.m_score = m.m_score
      ∧ ∀ p, p < parent1.derived.GetNpar → p < m.derived.GetNpar →
          m2.derived.fParams[p]?
            = some (if (ext.Integer ((afterCoin ext)^[p]
                    (offspringGenesFor ext i (pop.crossOver ext (self.hooks ext) fuel).2.m_parents
                      (parentsFor ext fuel pop.sort.2.m_individuals pop.sort.2.size 0
                        pop.sort.2.m_random).2).2) 2).1 ≠ 0
                then parent1.derived.GetParameter p else parent2.derived.GetParameter p) := by
  have h2 : pop.crossOver ext (self.hooks ext) fuel
      = (Except.ok (), (pop.crossOver ext (self.hooks ext) fuel).2) := by
    rw [← h]
  obtain ⟨_, groups, g, hgroups, hp1⟩ := crossOver_ok ext (self.hooks ext) fuel pop _ h2
  obtain ⟨hlen, hspec⟩ := parentsFor_spec ext fuel _ _ _ _ _ _ hgroups
  rw [hp1] at hgroup ⊢
  simp only at hgroup ⊢
  rw [hgroups]
  simp only
  obtain ⟨hzero, hpos⟩ := hspec i _ hgroup
  have hi1 : 1 ≤ 0 + i := by
    by_contra hc
    obtain ⟨m, hm, _⟩ := hzero (by omega)
    simp at hm
  obtain ⟨p1, p2, m1, m2, hne, hm1, hm2, hgr⟩ := hpos hi1
  simp only [List.cons.injEq, and_true] at hgr
  obtain ⟨e1, e2⟩ := hgr
  subst e1 e2
  refine ⟨⟨p1, p2, hne, hm1, hm2⟩, ?_⟩
  have hi : i < pop.sort.2.m_individuals.length := by
    have := (List.getElem?_eq_some.mp hgroup).1
    simp only [IPopulation.size] at hlen
    omega
  obtain ⟨m3, hres, hscore, hpar⟩ := parametric_doCrossOver_slot ext groups
    pop.sort.2.m_individuals g i parent1 parent2 pop.sort.2.m_individuals[i] hgroup
    (List.getElem?_eq_getElem hi)
  exact ⟨_, m3, List.getElem?_eq_getElem hi, hres, hscore, hpar⟩

/-- C22 on `crossingPopulation`, three models of parameters `(5, 6)`, `(3, 4)`,
`(1, 2)` in that order of rank: the parents drawn are the positions `(2, 0)` for
slot 1 and `(1, 0)` for slot 2, and the coins are all 1. Slot 2 receives
`(3, 4)`, the parameters that its first parent, the individual of slot 1, had
before the hook ran, although slot 1 is itself overwritten with `(1, 2)`. -/
theorem doCrossOver_mixes_parent_genes_witness :
    ((crossingPopulation.crossOver tapeExternals (linePopulation.hooks tapeExternals) 2).1
        = Except.ok ()
      ∧ ((crossingPopulation.crossOver tapeExternals (linePopulation.hooks tapeExternals)
          2).2.m_parents.map (fun group => group.map (fun m => m.derived.fParams)))[2]?
        = some [[3, 4], [5, 6]])
    ∧ (crossingPopulation.crossOver tapeExternals (linePopulation.hooks tapeExternals)
        2).2.m_individuals.map (fun m => m.derived.fParams) = [[5, 6], [1, 2], [3, 4]]
    ∧ ∃ p1 p2 : Nat, p1 ≠ p2 ∧ crossingPopulation.sort.2.m_individuals[p1]? = some (lineModel 3 3 4)
      ∧ crossingPopulation.sort.2.m_individuals[p2]? = some (lineModel 5 5 6) :=
  ⟨⟨by decide, by decide⟩, by decide,
    (doCrossOver_mixes_parent_genes tapeExternals linePopulation 2 crossingPopulation 2
      (lineModel 3 3 4) (lineModel 5 5 6) (by decide) rfl).1⟩

/-- A `score()` on a population flagged unsorted, with a comparator that is a
strict weak order and a scorer that depends on the derived part of a model
only: the call returns, the population is flagged sorted unless it is empty,
the stored scores are those of the scorer and no individual is better than one
before it. -/
theorem score_ranks [Zero S] [Add S] [Sub S] [Mul S] [Div S] [NatCast S] [LT S]
    [DecidableRel (fun a b : S => a < b)] (ext : Externals G S) (p : IPopulation S D G)
    (fom : IFigureOfMerit S D) (hfom : p.m_fom = some fom) (hflag : p.m_sorted = false)
    (hswo : StrictWeakOrder fom.isBetterThanScore)
    (hdet : ∀ m1 m2 : IModel S D, m1.derived = m2.derived → fom.evaluate m1 = fom.evaluate m2) :
    (p.score ext).1 = Except.ok () ∧ (p.score ext).2.m_fom = some fom ∧
      ((p.score ext).2.size ≠ 0 → (p.score ext).2.m_sorted = true) ∧
      (∀ m ∈ (p.score ext).2.m_individuals, m.m_score = fom.evaluate m) ∧
      (p.score ext).2.m_individuals.Pairwise (fun x y => fom.isBetterThan y x = false) := by
  have hempty : p.size = 0 → p.m_individuals = [] := fun h0 =>
    List.length_eq_zero.mp (by simpa [IPopulation.size] using h0)
  obtain ⟨h1, h2, _, h4, h5⟩ := score_establishes ext p fom hfom hdet
    (fun h0 m hm => by rw [hempty h0] at hm; simp at hm)
  refine ⟨h1, h2, h4, h5, ?_⟩
  by_cases hsz : p.size = 0
  · rw [score_empty_with_fom ext p fom hfom hsz, hempty hsz]
    exact List.Pairwise.nil
  · obtain ⟨q, hscore, hqfom, hqsorted, _, _, _, _⟩ := score_as_sort ext p fom hfom hsz
    rw [hscore]
    exact sort_pairwise q fom (by rw [hqfom, hfom]) (by rw [hqsorted, hflag]) hswo

/-- One call of `nextGeneration()` that returns, whatever the hooks, from a
population that is flagged sorted unless empty, whose stored scores are those
of the scorer and in which no individual is better than one before it: the
population is again such a population. -/
theorem nextGeneration_ranks [Zero S] [One S] [Add S] [Sub S] [Mul S] [Div S] [NatCast S]
    [LT S] [DecidableRel (fun a b : S => a < b)]
    (ext : Externals G S) (hooks : Hooks S D G) (fuel : Nat)
    (ga ga2 : GeneticAlgorithm) (p p2 : IPopulation S D G) (fom : IFigureOfMerit S D) (b : Bool)
    (hswo : StrictWeakOrder fom.isBetterThanScore)
    (hdet : ∀ m1 m2 : IModel S D, m1.derived = m2.derived → fom.evaluate m1 = fom.evaluate m2)
    (hfom : p.m_fom = some fom)
    (hsorted : p.size ≠ 0 → p.m_sorted = true)
    (hscored : ∀ m ∈ p.m_individuals, m.m_score = fom.evaluate m)
    (hranked : p.m_individuals.Pairwise (fun x y => fom.isBetterThan y x = false))
    (hnext : ga.nextGeneration ext hooks fuel p = (Except.ok b, ga2, p2)) :
    p2.m_fom = some fom ∧ (p2.size ≠ 0 → p2.m_sorted = true) ∧
      (∀ m ∈ p2.m_individuals, m.m_score = fom.evaluate m) ∧
      p2.m_individuals.Pairwise (fun x y => fom.isBetterThan y x = false) := by
  unfold GeneticAlgorithm.nextGeneration at hnext
  split at hnext
  · simp at hnext
  · by_cases hsz : p.size = 0
    · rw [getBestFitted_out_of_range p 0 (by simp [hsz])] at hnext
      simp at hnext
    · have hs := hsorted hsz
      have hlt : 0 < p.m_individuals.length := by
        simp only [IPopulation.size] at hsz; omega
      have hbest : p.m_individuals[0]? = some p.m_individuals[0] := List.getElem?_eq_getElem hlt
      rw [getBestFitted_of_sorted p hs _ hbest] at hnext
      simp only [IPopulation.getFigureOfMerit, hfom] at hnext
      have hsame : ((Except.ok false, ga, p) : Except Error Bool × GeneticAlgorithm ×
          IPopulation S D G) = (Except.ok b, ga2, p2) →
          p2.m_fom = some fom ∧ (p2.size ≠ 0 → p2.m_sorted = true) ∧
            (∀ m ∈ p2.m_individuals, m.m_score = fom.evaluate m) ∧
            p2.m_individuals.Pairwise (fun x y => fom.isBetterThan y x = false) := by
        intro h
        simp only [Prod.mk.injEq] at h
        obtain ⟨_, _, hp⟩ := h
        subst hp
        exact ⟨hfom, hsorted, hscored, hranked⟩
      split at hnext
      · exact hsame hnext
      · split at hnext
        · exact hsame hnext
        · rcases hc : p.crossOver ext hooks fuel with ⟨rc, p1⟩
          rw [hc] at hnext
          cases rc with
          | error e => simp at hnext
          | ok u =>
            simp only at hnext
            have hfom1 : p1.m_fom = some fom := by
              have := crossOver_m_fom ext hooks fuel p
              rw [hc] at this
              rw [this, hfom]
            have hfom3 : (p1.mutate ext hooks).m_fom = some fom := hfom1
            have h := score_ranks ext (p1.mutate ext hooks) fom hfom3 rfl hswo hdet
            rcases hsc : (p1.mutate ext hooks).score ext with ⟨rs, p3⟩
            rw [hsc] at hnext h
            simp only at h
            obtain ⟨hok, hrest⟩ := h
            subst hok
            simp only [Prod.mk.injEq] at hnext
            obtain ⟨_, _, hp⟩ := hnext
            subst hp
            exact hrest

/-- C30, at an empty population. With `setPopulationSize(0)` the call
`initialize(population)` returns and leaves the population empty and flagged
unsorted: `score()` returns before `sort()` when there is no individual. -/
theorem empty_run_is_not_flagged_sorted :
    (emptyRun 10 0).1 = Except.ok true
    ∧ (emptyRun 10 0).2.2.size = 0
    ∧ (emptyRun 10 0).2.2.m_sorted = false := by
  decide

/-- C30, amended. In a run driven through `GeneticAlgorithm`, whatever the
hooks of the population, with a figure of merit whose `evaluate` is a function
of the derived part of a model and whose comparator is a strict weak order:
after `initialize(population)` and after every later call of
`nextGeneration()` that returns, true or false, every stored score is
`evaluate` of its individual, no individual is better than one before it, and
the population is flagged sorted provided it is not empty. -/
theorem generations_keep_ranking_fresh [Zero S] [One S] [Add S] [Sub S] [Mul S] [Div S]
    [NatCast S] [LT S] [DecidableRel (fun a b : S => a < b)]
    (ext : Externals G S) (hooks : Hooks S D G) (fuel : Nat)
    (ga : GeneticAlgorithm) (population : IPopulation S D G) (fom : IFigureOfMerit S D)
    (hswo : StrictWeakOrder fom.isBetterThanScore)
    (hdet : ∀ m1 m2 : IModel S D, m1.derived = m2.derived → fom.evaluate m1 = fom.evaluate m2)
    (hfom : population.m_fom = some fom) (calls : Nat) (b : Bool)
    (hcall : (ga.generations ext hooks fuel population calls).1 = Except.ok b) :
    ((ga.generations ext hooks fuel population calls).2.2.size ≠ 0 →
        (ga.generations ext hooks fuel population calls).2.2.m_sorted = true)
    ∧ (∀ m ∈ (ga.generations ext hooks fuel population calls).2.2.m_individuals,
        m.m_score = fom.evaluate m)
    ∧ (ga.generations ext hooks fuel population calls).2.2.m_individuals.Pairwise
        (fun x y => fom.isBetterThan y x = false) := by
  suffices hall : ∀ (calls : Nat) (b : Bool),
      (ga.generations ext hooks fuel population calls).1 = Except.ok b →
      (ga.generations ext hooks fuel population calls).2.2.m_fom = some fom ∧
      ((ga.generations ext hooks fuel population calls).2.2.size ≠ 0 →
        (ga.generations ext hooks fuel population calls).2.2.m_sorted = true) ∧
      (∀ m ∈ (ga.generations ext hooks fuel population calls).2.2.m_individuals,
        m.m_score = fom.evaluate m) ∧
      (ga.generations ext hooks fuel population calls).2.2.m_individuals.Pairwise
        (fun x y => fom.isBetterThan y x = false) from (hall calls b hcall).2
  intro calls
  induction calls with
  | zero =>
    intro b hb
    have hinit := score_ranks ext (population.initializeN hooks ga.m_populationSize) fom hfom
      rfl hswo hdet
    simp only [GeneticAlgorithm.generations, GeneticAlgorithm.initializeRun] at hb ⊢
    rcases hsc : (population.initializeN hooks ga.m_populationSize).score ext with ⟨r, p1⟩
    rw [hsc] at hinit hb
    cases r with
    | error e => simp at hb
    | ok u =>
      simp only at hinit ⊢
      exact hinit.2
  | succ k ih =>
    intro b hb
    rw [GeneticAlgorithm.generations] at hb ⊢
    rcases hprev : ga.generations ext hooks fuel population k with ⟨r, ga1, p1⟩
    rw [hprev] at hb ih
    cases r with
    | error e => simp at hb
    | ok b1 =>
      simp only at hb ih ⊢
      obtain ⟨hf1, hs1, hsc1, hr1⟩ := ih b1 rfl
      rcases hnext : ga1.nextGeneration ext hooks fuel p1 with ⟨r2, ga2, p2⟩
      rw [hnext] at hb
      simp only at hb ⊢
      subst hb
      exact nextGeneration_ranks ext hooks fuel ga1 ga2 p1 p2 fom b hswo hdet hf1 hs1 hsc1 hr1
        hnext

/-- C30 amended, on `elitistRun 10`: after `initialize` and one
`nextGeneration()`, which returns true, the two individuals hold the
parameter 7 and carry the score 7 of that parameter, and the population is
flagged sorted. -/
theorem generations_keep_ranking_fresh_witness :
    ((emptyPopulation [3, 7, 1, 0, 1, 1, 1, 0, 0] 0).m_fom = some valueFigureOfMerit
      ∧ (elitistRun 10 1).1 = Except.ok true)
    ∧ (elitistRun 10 1).2.2.m_individuals.map (fun m => (m.m_score, m.derived.fParams))
        = [(7, [7]), (7, [7])]
    ∧ (elitistRun 10 1).2.2.m_sorted = true
    ∧ ∀ m ∈ (elitistRun 10 1).2.2.m_individuals, m.m_score = valueFigureOfMerit.evaluate m :=
  have hcall : (elitistRun 10 1).1 = Except.ok true := by decide
  ⟨⟨rfl, hcall⟩, by decide, by decide,
    (generations_keep_ranking_fresh tapeExternals constantHooks 2 (configured 10 2)
      (emptyPopulation [3, 7, 1, 0, 1, 1, 1, 0, 0] 0) valueFigureOfMerit
      defaultIsBetterThan_strictWeakOrder value_deterministic rfl 1 true hcall).2.1⟩

theorem recording_Integer (ext : Externals G S) (g : G × List (Draw S)) (imax : Nat) :
    (ext.recording.Integer g imax).2.2 = g.2 ++ [Draw.integer imax] := rfl

theorem recording_Uniform (ext : Externals G S) (g : G × List (Draw S)) (a b : S) :
    (ext.recording.Uniform g a b).2.2 = g.2 ++ [Draw.uniform a b] := rfl

theorem recording_Gaus (ext : Externals G S) (g : G × List (Draw S)) (mean sigma : S) :
    (ext.recording.Gaus g mean sigma).2.2 = g.2 ++ [Draw.gaus mean sigma] := rfl

/-- The first rejection loop of `selectParents` only makes calls
`Integer(size())`. -/
theorem selectFirst_record (ext : Externals G S) (n : Nat) :
    ∀ (fuel : Nat) (g : G × List (Draw S)),
      ∃ ds, (selectFirst ext.recording n fuel g).2.2 = g.2 ++ ds ∧
        ∀ d ∈ ds, d = Draw.integer n := by
  intro fuel
  induction fuel with
  | zero => intro g; exact ⟨[], by simp [selectFirst], by simp⟩
  | succ k ih =>
    intro g
    rw [selectFirst]
    split
    · obtain ⟨ds, h1, h2⟩ := ih (ext.recording.Integer (ext.recording.Integer g n).2 n).2
      refine ⟨[Draw.integer n, Draw.integer n] ++ ds, ?_, ?_⟩
      · rw [h1, recording_Integer, recording_Integer]
        simp
      · intro d hd
        simp only [List.cons_append, List.nil_append, List.mem_cons] at hd
        rcases hd with hd | hd | hd
        · exact hd
        · exact hd
        · exact h2 d hd
    · refine ⟨[Draw.integer n, Draw.integer n], ?_, by simp⟩
      show (ext.recording.Integer (ext.recording.Integer g n).2 n).2.2 = _
      rw [recording_Integer, recording_Integer]
      simp

/-- The second rejection loop of `selectParents` only makes calls
`Integer(size())`. -/
theorem selectSecond_record (ext : Externals G S) (n p1 : Nat) :
    ∀ (fuel : Nat) (g : G × List (Draw S)),
      ∃ ds, (selectSecond ext.recording n p1 fuel g).2.2 = g.2 ++ ds ∧
        ∀ d ∈ ds, d = Draw.integer n := by
  intro fuel
  induction fuel with
  | zero => intro g; exact ⟨[], by simp [selectSecond], by simp⟩
  | succ k ih =>
    intro g
    rw [selectSecond]
    split
    · obtain ⟨ds, h1, h2⟩ := ih (ext.recording.Integer (ext.recording.Integer g n).2 n).2
      refine ⟨[Draw.integer n, Draw.integer n] ++ ds, ?_, ?_⟩
      · rw [h1, recording_Integer, recording_Integer]
        simp
      · intro d hd
        simp only [List.cons_append, List.nil_append, List.mem_cons] at hd
        rcases hd with hd | hd | hd
        · exact hd
        · exact hd
        · exact h2 d hd
    · refine ⟨[Draw.integer n, Draw.integer n], ?_, by simp⟩
      show (ext.recording.Integer (ext.recording.Integer g n).2 n).2.2 = _
      rw [recording_Integer, recording_Integer]
      simp

/-- The method `selectParents` only makes calls `Integer(size())`. -/
theorem selectParents_record (ext : Externals G S) (n fuel : Nat) (g : G × List (Draw S)) :
    ∃ ds, (IPopulation.selectParents ext.recording n fuel g).2.2 = g.2 ++ ds ∧
      ∀ d ∈ ds, d = Draw.integer n := by
  unfold IPopulation.selectParents selectParentsLocals
  obtain ⟨ds1, h1, h2⟩ := selectFirst_record ext n fuel g
  rcases hf : selectFirst ext.recording n fuel g with ⟨r1, g1⟩
  rw [hf] at h1
  cases r1 with
  | error e => exact ⟨ds1, h1, h2⟩
  | ok fp1 =>
    simp only
    obtain ⟨ds2, h3, h4⟩ := selectSecond_record ext n fp1.2 fuel g1
    rcases hs : selectSecond ext.recording n fp1.2 fuel g1 with ⟨r2, g2⟩
    rw [hs] at h3
    simp only at h1 h3
    have hall : ∀ d ∈ ds1 ++ ds2, d = Draw.integer n := by
      intro d hd
      rcases List.mem_append.mp hd with hd | hd
      · exact h2 d hd
      · exact h4 d hd
    cases r2 with
    | error e => exact ⟨ds1 ++ ds2, by simp only; rw [h3, h1, List.append_assoc], hall⟩
    | ok fp2 => exact ⟨ds1 ++ ds2, by simp only; rw [h3, h1, List.append_assoc], hall⟩

/-- The parent loop of `crossOver` only makes calls `Integer(size())`. -/
theorem parentsFor_record (ext : Externals G S) (fuel : Nat) (individuals : List (IModel S D)) :
    ∀ (steps i : Nat) (g : G × List (Draw S)),
      ∃ ds, (parentsFor ext.recording fuel individuals steps i g).2.2 = g.2 ++ ds ∧
        ∀ d ∈ ds, d = Draw.integer individuals.length := by
  intro steps
  induction steps with
  | zero => intro i g; exact ⟨[], by simp [parentsFor], by simp⟩
  | succ k ih =>
    intro i g
    rw [parentsFor]
    split
    · split
      · exact ⟨[], by simp, by simp⟩
      · obtain ⟨ds, h1, h2⟩ := ih (i + 1) g
        rcases hrec : parentsFor ext.recording fuel individuals k (i + 1) g with ⟨r, g1⟩
        rw [hrec] at h1
        cases r with
        | error e => exact ⟨ds, h1, h2⟩
        | ok groups => exact ⟨ds, h1, h2⟩
    · obtain ⟨ds1, h1, h2⟩ := selectParents_record ext individuals.length fuel g
      rcases hsel : IPopulation.selectParents ext.recording individuals.length fuel g
        with ⟨r, g1⟩
      rw [hsel] at h1
      simp only at h1
      cases r with
      | error e => exact ⟨ds1, h1, h2⟩
      | ok p12 =>
        simp only
        split
        · obtain ⟨ds2, h3, h4⟩ := ih (i + 1) g1
          have hall : ∀ d ∈ ds1 ++ ds2, d = Draw.integer individuals.length := by
            intro d hd
            rcases List.mem_append.mp hd with hd | hd
            · exact h2 d hd
            · exact h4 d hd
          rcases hrec : parentsFor ext.recording fuel individuals k (i + 1) g1 with ⟨r2, g2⟩
          rw [hrec] at h3
          simp only at h3
          cases r2 with
          | error e => exact ⟨ds1 ++ ds2, by simp only; rw [h3, h1, List.append_assoc], hall⟩
          | ok groups => exact ⟨ds1 ++ ds2, by simp only; rw [h3, h1, List.append_assoc], hall⟩
        · exact ⟨ds1, h1, h2⟩

/-- The loop of `doCrossOver` for two parents only makes calls `Integer(2)`. -/
theorem mixGenes_record [Zero S] (ext : Externals G S) (formula1 formula2 : TF1 S) :
    ∀ (steps p : Nat) (g : G × List (Draw S)),
      ∃ ds, (mixGenes ext.recording formula1 formula2 steps p g).2.2 = g.2 ++ ds ∧
        ∀ d ∈ ds, d = Draw.integer 2 := by
  intro steps
  induction steps with
  | zero => intro p g; exact ⟨[], by simp [mixGenes], by simp⟩
  | succ k ih =>
    intro p g
    rw [mixGenes]
    obtain ⟨ds, h1, h2⟩ := ih (p + 1) (ext.recording.Integer g 2).2
    refine ⟨Draw.integer 2 :: ds, ?_, ?_⟩
    · show (mixGenes ext.recording formula1 formula2 k (p + 1)
        (ext.recording.Integer g 2).2).2.2 = _
      rw [h1, recording_Integer]
      simp
    · intro d hd
      rcases List.mem_cons.mp hd with hd | hd
      · exact hd
      · exact h2 d hd

/-- The first loop of `doCrossOver` only makes calls `Integer(2)`. -/
theorem offspringGenesFor_record [Zero S] (ext : Externals G S) :
    ∀ (steps : Nat) (parents : List (List (IModel S (TF1 S)))) (g : G × List (Draw S)),
      ∃ ds, (offspringGenesFor ext.recording steps parents g).2.2 = g.2 ++ ds ∧
        ∀ d ∈ ds, d = Draw.integer 2 := by
  intro steps
  induction steps with
  | zero => intro parents g; exact ⟨[], by simp [offspringGenesFor], by simp⟩
  | succ k ih =>
    intro parents g
    cases parents with
    | nil => exact ⟨[], by simp [offspringGenesFor], by simp⟩
    | cons group rest =>
      rw [offspringGenesFor]
      have hone : ∃ ds, (offspringOf ext.recording group g).2.2 = g.2 ++ ds ∧
          ∀ d ∈ ds, d = Draw.integer 2 := by
        unfold offspringOf
        split
        · exact ⟨[], by simp, by simp⟩
        · exact mixGenes_record ext _ _ _ _ _
        · exact ⟨[], by simp, by simp⟩
      obtain ⟨ds1, h1, h2⟩ := hone
      obtain ⟨ds2, h3, h4⟩ := ih rest (offspringOf ext.recording group g).2
      refine ⟨ds1 ++ ds2, ?_, ?_⟩
      · show (offspringGenesFor ext.recording k rest (offspringOf ext.recording group g).2).2.2
          = _
        rw [h3, h1, List.append_assoc]
      · intro d hd
        rcases List.mem_append.mp hd with hd | hd
        · exact h2 d hd
        · exact h4 d hd

/-- The hook `doMutate` makes the call `Integer(Npar)`, followed by one call
`Gaus(0, sigma)` when the parameter drawn has `min < max`. -/
theorem doMutate_record [Zero S] [Add S] [Mul S] [LT S] [DecidableRel (fun a b : S => a < b)]
    [DecidableEq S] (ext : Externals G S) (self : ParametricModelPopulation S)
    (model : IModel S (TF1 S)) (g : G × List (Draw S)) :
    (ParametricModelPopulation.doMutate ext.recording self model g).2.2
        = g.2 ++ [Draw.integer model.derived.GetNpar]
    ∨ ∃ sigma, (ParametricModelPopulation.doMutate ext.recording self model g).2.2
        = g.2 ++ [Draw.integer model.derived.GetNpar, Draw.gaus 0 sigma] := by
  unfold ParametricModelPopulation.doMutate
  simp only
  split
  · right
    refine ⟨if model.derived.GetParameter (ext.recording.Integer g model.derived.GetNpar).1 = 0
      then self.m_mutationSize
      else model.derived.GetParameter (ext.recording.Integer g model.derived.GetNpar).1
        * self.m_mutationSize, ?_⟩
    simp only
    rw [recording_Gaus, recording_Integer]
    simp
  · left
    rfl

/-- The loop of `mutate` makes, slot by slot, the gating call `Uniform(0, 1)`
of the slot followed at once by the calls of the hook when the slot is
selected. -/
theorem mutateFor_record [Zero S] [One S] [Add S] [Mul S] [LT S]
    [DecidableRel (fun a b : S => a < b)] [DecidableEq S]
    (ext : Externals G S) (self : ParametricModelPopulation S) (rate : S) :
    ∀ (models : List (IModel S (TF1 S))) (g : G × List (Draw S)),
      ∃ blocks : List (List (Draw S)), blocks.length = models.length ∧
        (mutateFor ext.recording (self.hooks ext.recording) rate models g).2.2
          = g.2 ++ blocks.flatten ∧
        ∀ b ∈ blocks, b = [Draw.uniform 0 1] ∨ (∃ np, b = [Draw.uniform 0 1, Draw.integer np])
          ∨ ∃ np sigma, b = [Draw.uniform 0 1, Draw.integer np, Draw.gaus 0 sigma] := by
  intro models
  induction models with
  | nil => intro g; exact ⟨[], rfl, by simp [mutateFor], by simp⟩
  | cons m rest ih =>
    intro g
    rw [mutateFor]
    simp only
    split
    · obtain ⟨blocks, h1, h2, h3⟩ := ih
        ((self.hooks ext.recording).doMutate m (ext.recording.Uniform g 0 1).2).2
      rw [h2]
      have hm := doMutate_record ext self m (ext.recording.Uniform g 0 1).2
      rw [recording_Uniform] at hm
      rcases hm with hm | ⟨sigma, hm⟩
      · refine ⟨[Draw.uniform 0 1, Draw.integer m.derived.GetNpar] :: blocks, by simp [h1],
          ?_, ?_⟩
        · show (ParametricModelPopulation.doMutate ext.recording self m _).2.2 ++ _ = _
          rw [hm]
          simp
        · intro b hb
          rcases List.mem_cons.mp hb with hb | hb
          · exact Or.inr (Or.inl ⟨_, hb⟩)
          · exact h3 b hb
      · refine ⟨[Draw.uniform 0 1, Draw.integer m.derived.GetNpar, Draw.gaus 0 sigma] :: blocks,
          by simp [h1], ?_, ?_⟩
        · show (ParametricModelPopulation.doMutate ext.recording self m _).2.2 ++ _ = _
          rw [hm]
          simp
        · intro b hb
          rcases List.mem_cons.mp hb with hb | hb
          · exact Or.inr (Or.inr ⟨_, _, hb⟩)
          · exact h3 b hb
    · obtain ⟨blocks, h1, h2, h3⟩ := ih (ext.recording.Uniform g 0 1).2
      rw [h2, recording_Uniform]
      refine ⟨[Draw.uniform 0 1] :: blocks, by simp [h1], by simp, ?_⟩
      intro b hb
      rcases List.mem_cons.mp hb with hb | hb
      · exact Or.inl hb
      · exact h3 b hb

/-- The method `score()` makes no call on the generator. -/
theorem score_m_random [Zero S] [Add S] [Sub S] [Mul S] [Div S] [NatCast S] [LT S]
    [DecidableRel (fun a b : S => a < b)] (ext : Externals G S) (p : IPopulation S D G) :
    (p.score ext).2.m_random = p.m_random := by
  unfold IPopulation.score
  cases p.m_fom with
  | none => rfl
  | some fom =>
    simp only
    split
    · rfl
    · rw [(sort_frame _).2.1]

/-- C26, at a run with mutation rate 1. One `nextGeneration()` on two
individuals with the recording tape generator returns true and has made, in
this order: four calls `Integer(2)` of the parent selection of slot 1, the coin
`Integer(2)` of slot 1, then the gating call `Uniform(0, 1)` of slot 0, the
calls `Integer(1)` and `Gaus(0, 7)` of the mutation hook on slot 0, and only
then the gating call `Uniform(0, 1)` of slot 1, followed by the calls
`Integer(1)` and `Gaus(0, 3)` of the hook on slot 1. The draws of the hook for
slot 0 come before the gating draw of slot 1. -/
theorem mutation_draws_interleave_with_gating :
    (boundAlgorithm.nextGeneration tapeExternals.recording
        (constantPopulation.hooks tapeExternals.recording) 2
        (recordingPopulation [1, 1, 0, 0, 1, 0, 0, 3, 0, 0, 3] 1)).1 = Except.ok true
    ∧ (boundAlgorithm.nextGeneration tapeExternals.recording
        (constantPopulation.hooks tapeExternals.recording) 2
        (recordingPopulation [1, 1, 0, 0, 1, 0, 0, 3, 0, 0, 3] 1)).2.2.m_random.2
      = [Draw.integer 2, Draw.integer 2, Draw.integer 2, Draw.integer 2, Draw.integer 2,
          Draw.uniform 0 1, Draw.integer 1, Draw.gaus 0 7,
          Draw.uniform 0 1, Draw.integer 1, Draw.gaus 0 3] := by
  decide

/-- C26, amended. On a `ParametricModelPopulation` whose generator records
its calls, when `crossOver()` returns, the calls made by `crossOver()`,
`mutate()` and `score()` on the generator are, in this order: the calls `sel`
of the parent selection loop, all `Integer(size())`; then the calls `coins` of
the crossover hook, all `Integer(2)`; then one block of calls per slot, in slot
order, each block being the gating call `Uniform(0, 1)` of the slot followed at
once by the calls of the mutation hook on that slot, `Integer(Npar)` and
possibly `Gaus(0, sigma)`, when the hook is applied; `score()` makes no call. -/
theorem generation_draw_order [Zero S] [One S] [Add S] [Sub S] [Mul S] [Div S] [NatCast S]
    [LT S] [DecidableRel (fun a b : S => a < b)] [DecidableEq S]
    (ext : Externals G S) (self : ParametricModelPopulation S) (fuel : Nat)
    (pop : IPopulation S (TF1 S) (G × List (Draw S)))
    (h : (pop.crossOver ext.recording (self.hooks ext.recording) fuel).1 = Except.ok ()) :
    ∃ (sel coins : List (Draw S)) (blocks : List (List (Draw S))),
      (parentsFor ext.recording fuel pop.sort.2.m_individuals pop.sort.2.size 0
          pop.sort.2.m_random).2.2 = pop.m_random.2 ++ sel
      ∧ (pop.crossOver ext.recording (self.hooks ext.recording) fuel).2.m_random.2
          = pop.m_random.2 ++ sel ++ coins
      ∧ ((pop.crossOver ext.recording (self.hooks ext.recording) fuel).2.mutate ext.recording
          (self.hooks ext.recording)).m_random.2
          = pop.m_random.2 ++ sel ++ coins ++ blocks.flatten
      ∧ ((((pop.crossOver ext.recording (self.hooks ext.recording) fuel).2.mutate ext.recording
          (self.hooks ext.recording)).score ext.recording).2.m_random.2
          = pop.m_random.2 ++ sel ++ coins ++ blocks.flatten)
      ∧ (∀ d ∈ sel, d = Draw.integer pop.size)
      ∧ (∀ d ∈ coins, d = Draw.integer 2)
      ∧ blocks.length = pop.size
      ∧ ∀ b ∈ blocks, b = [Draw.uniform 0 1] ∨ (∃ np, b = [Draw.uniform 0 1, Draw.integer np])
          ∨ ∃ np sigma, b = [Draw.uniform 0 1, Draw.integer np, Draw.gaus 0 sigma] := by
  have h2 : pop.crossOver ext.recording (self.hooks ext.recording) fuel
      = (Except.ok (), (pop.crossOver ext.recording (self.hooks ext.recording) fuel).2) := by
    rw [← h]
  obtain ⟨_, groups, g, hgroups, hp1⟩ :=
    crossOver_ok ext.recording (self.hooks ext.recording) fuel pop _ h2
  obtain ⟨sel, hs1, hs2⟩ := parentsFor_record ext fuel pop.sort.2.m_individuals
    pop.sort.2.size 0 pop.sort.2.m_random
  obtain ⟨coins, hc1, hc2⟩ := offspringGenesFor_record ext pop.sort.2.m_individuals.length
    groups g
  have hsize : pop.sort.2.m_individuals.length = pop.size := sort_size pop
  have hs3 : (parentsFor ext.recording fuel pop.sort.2.m_individuals pop.sort.2.size 0
      pop.sort.2.m_random).2.2 = pop.m_random.2 ++ sel :=
    hs1.trans (by rw [(sort_frame pop).2.1])
  rw [hsize] at hs2
  have hg : g.2 = pop.m_random.2 ++ sel := by
    rw [← hs3, hgroups]
  have hcross : (pop.crossOver ext.recording (self.hooks ext.recording) fuel).2.m_random.2
      = pop.m_random.2 ++ sel ++ coins := by
    rw [hp1]
    show (offspringGenesFor ext.recording pop.sort.2.m_individuals.length groups g).2.2 = _
    rw [hc1, hg]
  obtain ⟨blocks, hb1, hb2, hb3⟩ := mutateFor_record ext self
    (pop.crossOver ext.recording (self.hooks ext.recording) fuel).2.m_mutateRate
    (pop.crossOver ext.recording (self.hooks ext.recording) fuel).2.m_individuals
    (pop.crossOver ext.recording (self.hooks ext.recording) fuel).2.m_random
  have hmut : ((pop.crossOver ext.recording (self.hooks ext.recording) fuel).2.mutate
      ext.recording (self.hooks ext.recording)).m_random.2
      = pop.m_random.2 ++ sel ++ coins ++ blocks.flatten := by
    show (mutateFor ext.recording (self.hooks ext.recording) _ _ _).2.2 = _
    rw [hb2, hcross]
  have hlen : (pop.crossOver ext.recording (self.hooks ext.recording) fuel).2.m_individuals.length
      = pop.size := by
    rw [hp1]
    show (ParametricModelPopulation.doCrossOver ext.recording groups
      pop.sort.2.m_individuals g).1.length = _
    rw [parametric_doCrossOver_length, hsize]
  refine ⟨sel, coins, blocks, hs3, hcross, hmut, ?_, hs2, hc2, by rw [hb1, hlen], hb3⟩
  rw [score_m_random, hmut]

/-- C26 amended, on `recordingPopulation` with mutation rate 1: `crossOver()`
returns, and the record after `mutate()` is the four calls of the selection,
the coin, and one block `Uniform(0, 1)`, `Integer(1)`, `Gaus(0, sigma)` per
slot. -/
theorem generation_draw_order_witness :
    ((recordingPopulation [1, 1, 0, 0, 1, 0, 0, 3, 0, 0, 3] 1).crossOver tapeExternals.recording
        (constantPopulation.hooks tapeExternals.recording) 2).1 = Except.ok ()
    ∧ (((recordingPopulation [1, 1, 0, 0, 1, 0, 0, 3, 0, 0, 3] 1).crossOver
        tapeExternals.recording (constantPopulation.hooks tapeExternals.recording) 2).2.mutate
        tapeExternals.recording (constantPopulation.hooks tapeExternals.recording)).m_random.2
      = [Draw.integer 2, Draw.integer 2, Draw.integer 2, Draw.integer 2] ++ [Draw.integer 2]
          ++ [[Draw.uniform 0 1, Draw.integer 1, Draw.gaus 0 7],
              [Draw.uniform 0 1, Draw.integer 1, Draw.gaus 0 3]].flatten
    ∧ ∃ (sel coins : List (Draw Int)) (blocks : List (List (Draw Int))),
      (((recordingPopulation [1, 1, 0, 0, 1, 0, 0, 3, 0, 0, 3] 1).crossOver
        tapeExternals.recording (constantPopulation.hooks tapeExternals.recording) 2).2.mutate
        tapeExternals.recording (constantPopulation.hooks tapeExternals.recording)).m_random.2
        = (recordingPopulation [1, 1, 0, 0, 1, 0, 0, 3, 0, 0, 3] 1).m_random.2
            ++ sel ++ coins ++ blocks.flatten
      ∧ blocks.length = (recordingPopulation [1, 1, 0, 0, 1, 0, 0, 3, 0, 0, 3] 1).size :=
  have hcross : ((recordingPopulation [1, 1, 0, 0, 1, 0, 0, 3, 0, 0, 3] 1).crossOver
      tapeExternals.recording (constantPopulation.hooks tapeExternals.recording) 2).1
      = Except.ok () := by decide
  ⟨hcross, by decide,
    (generation_draw_order tapeExternals constantPopulation 2
      (recordingPopulation [1, 1, 0, 0, 1, 0, 0, 3, 0, 0, 3] 1) hcross).imp
      (fun _ h1 => h1.imp (fun _ h2 => h2.imp (fun _ h3 => ⟨h3.2.2.1, h3.2.2.2.2.2.2.1⟩)))⟩

/-- The call `GeneticAlgorithm::initialize` with a population size that is
not positive, on a `ParametricModelPopulation` with a figure of merit: it
returns, the counter is 0, the population is bound, empty, and its generator
and its figure of merit are those it had. -/
theorem initializeRun_not_positive [Zero S] [One S] [Add S] [Sub S] [Mul S] [Div S]
    [NatCast S] [LT S] [DecidableRel (fun a b : S => a < b)] [DecidableEq S]
    (ext : Externals G S) (self : ParametricModelPopulation S) (ga : GeneticAlgorithm)
    (population : IPopulation S (TF1 S) G) (fom : IFigureOfMerit S (TF1 S))
    (hn : ga.m_populationSize ≤ 0) (hfom : population.m_fom = some fom) :
    ga.initializeRun ext (self.hooks ext) population
      = (Except.ok (), { ga with m_currentGeneration := 0, m_population := true },
          { population with m_individuals := [], m_sorted := false }) := by
  have hz : ga.m_populationSize.toNat = 0 := Int.toNat_eq_zero.mpr hn
  have hi : population.initializeN (self.hooks ext) ga.m_populationSize
      = { population with m_individuals := [], m_sorted := false } := by
    show ({ population with
      m_individuals := (doInitializeFor ext self.m_formula ga.m_populationSize.toNat
        population.m_random).1
      m_random := (doInitializeFor ext self.m_formula ga.m_populationSize.toNat
        population.m_random).2
      m_sorted := false } : IPopulation S (TF1 S) G) = _
    rw [hz]
    rfl
  have hs := score_empty_with_fom ext
    ({ population with m_individuals := [], m_sorted := false } : IPopulation S (TF1 S) G)
    fom hfom rfl
  unfold GeneticAlgorithm.initializeRun
  rw [hi, hs]

/-- The call `nextGeneration()` on a bound population that is empty raises the
range error of `getBestFitted(0)` and changes neither the algorithm object nor
the population. -/
theorem nextGeneration_empty [Zero S] [One S] [Add S] [Sub S] [Mul S] [Div S] [NatCast S]
    [LT S] [DecidableRel (fun a b : S => a < b)]
    (ext : Externals G S) (hooks : Hooks S D G) (fuel : Nat)
    (ga : GeneticAlgorithm) (p : IPopulation S D G) (hbound : ga.m_population = true)
    (hsize : p.size = 0) :
    ga.nextGeneration ext hooks fuel p = (Except.error Error.rankOutOfRange, ga, p) := by
  unfold GeneticAlgorithm.nextGeneration
  rw [if_neg (by simp [hbound]), getBestFitted_out_of_range p 0 (by simp [hsize])]

/-- C31. For every population size that is not positive,
`GeneticAlgorithm::optimize` on a `ParametricModelPopulation` with a figure of
merit set does not return a model. `initialize` returns and leaves the
population empty with the counter at 0; the first `nextGeneration()` raises the
range error of `getBestFitted(0)` and leaves the algorithm object and the
population as they were, so no generation is performed and the counter stays
0; `optimize` ends with that error, for every bound on the number of calls
that allows one call of `nextGeneration()`. -/
theorem optimize_raises_on_empty_population [Zero S] [One S] [Add S] [Sub S] [Mul S] [Div S]
    [NatCast S] [LT S] [DecidableRel (fun a b : S => a < b)] [DecidableEq S]
    (ext : Externals G S) (self : ParametricModelPopulation S) (fuel : Nat)
    (ga : GeneticAlgorithm) (population : IPopulation S (TF1 S) G)
    (fom : IFigureOfMerit S (TF1 S))
    (hn : ga.m_populationSize ≤ 0) (hfom : population.m_fom = some fom) (hfuel : 0 < fuel) :
    (ga.initializeRun ext (self.hooks ext) population).1 = Except.ok ()
    ∧ (ga.initializeRun ext (self.hooks ext) population).2.2.size = 0
    ∧ (ga.initializeRun ext (self.hooks ext) population).2.1.m_currentGeneration = 0
    ∧ GeneticAlgorithm.nextGeneration ext (self.hooks ext) fuel
        (ga.initializeRun ext (self.hooks ext) population).2.1
        (ga.initializeRun ext (self.hooks ext) population).2.2
      = (Except.error Error.rankOutOfRange,
          (ga.initializeRun ext (self.hooks ext) population).2.1,
          (ga.initializeRun ext (self.hooks ext) population).2.2)
    ∧ (ga.optimize ext (self.hooks ext) fuel population).1
        = Except.error Error.rankOutOfRange
    ∧ (ga.optimize ext (self.hooks ext) fuel population).2.1.m_currentGeneration = 0
    ∧ (ga.optimize ext (self.hooks ext) fuel population).2.2.size = 0 := by
  have hinit := initializeRun_not_positive ext self ga population fom hn hfom
  have hnext := nextGeneration_empty ext (self.hooks ext) fuel
    ({ ga with m_currentGeneration := 0, m_population := true } : GeneticAlgorithm)
    ({ population with m_individuals := [], m_sorted := false } : IPopulation S (TF1 S) G)
    rfl rfl
  obtain ⟨k, rfl⟩ : ∃ k, fuel = k + 1 := ⟨fuel - 1, by omega⟩
  have hopt : ga.optimize ext (self.hooks ext) (k + 1) population
      = (Except.error Error.rankOutOfRange,
          ({ ga with m_currentGeneration := 0, m_population := true } : GeneticAlgorithm),
          ({ population with m_individuals := [], m_sorted := false } :
            IPopulation S (TF1 S) G)) := by
    unfold GeneticAlgorithm.optimize
    rw [hinit]
    simp only [optimizeWhile, hnext]
  rw [hinit, hopt]
  exact ⟨rfl, rfl, rfl, hnext, rfl, rfl, rfl⟩

/-- C31 with `setPopulationSize(-3)` on `constantPopulation`: the population
size is not positive, a figure of merit is set, and `optimize` ends with the
range error, the counter at 0. -/
theorem optimize_raises_on_empty_population_witness :
    ((configured 10 (-3)).m_populationSize ≤ 0
      ∧ (emptyPopulation [4, 8] 0).m_fom = some valueFigureOfMerit ∧ 0 < 2)
    ∧ ((configured 10 (-3)).optimize tapeExternals (constantPopulation.hooks tapeExternals) 2
        (emptyPopulation [4, 8] 0)).1 = Except.error Error.rankOutOfRange
    ∧ ((configured 10 (-3)).optimize tapeExternals (constantPopulation.hooks tapeExternals) 2
        (emptyPopulation [4, 8] 0)).2.1.m_currentGeneration = 0 :=
  ⟨⟨by decide, rfl, by decide⟩,
    (optimize_raises_on_empty_population tapeExternals constantPopulation 2 (configured 10 (-3))
      (emptyPopulation [4, 8] 0) valueFigureOfMerit (by decide) rfl (by decide)).2.2.2.2.1,
    (optimize_raises_on_empty_population tapeExternals constantPopulation 2 (configured 10 (-3))
      (emptyPopulation [4, 8] 0) valueFigureOfMerit (by decide) rfl (by decide)).2.2.2.2.2.1⟩

/-- The first loop of `selectParents` returns at the first iteration whose
pair satisfies `p1 <= f1`, when the bound on the iterations allows that many. -/
theorem selectFirst_returns_at (ext : Externals G S) (n : Nat) :
    ∀ (k fuel : Nat) (g : G), k < fuel →
      (∀ j, j < k → (drawPair ext n ((afterPair ext n)^[j] g)).1.2
        > (drawPair ext n ((afterPair ext n)^[j] g)).1.1) →
      ¬ ((drawPair ext n ((afterPair ext n)^[k] g)).1.2
        > (drawPair ext n ((afterPair ext n)^[k] g)).1.1) →
      selectFirst ext n fuel g
        = (Except.ok (drawPair ext n ((afterPair ext n)^[k] g)).1,
            (afterPair ext n)^[k + 1] g) := by
  intro k
  induction k with
  | zero =>
    intro fuel g hf _ hacc
    obtain ⟨f, rfl⟩ : ∃ f, fuel = f + 1 := ⟨fuel - 1, by omega⟩
    rw [selectFirst]
    simp only [Function.iterate_zero, id_eq, drawPair] at hacc
    rw [if_neg hacc]
    rfl
  | succ k ih =>
    intro fuel g hf hrej hacc
    obtain ⟨f, rfl⟩ : ∃ f, fuel = f + 1 := ⟨fuel - 1, by omega⟩
    rw [selectFirst]
    have h0 := hrej 0 (by omega)
    simp only [Function.iterate_zero, id_eq, drawPair] at h0
    rw [if_pos h0]
    have := ih f (afterPair ext n g) (by omega)
      (fun j hj => by
        have := hrej (j + 1) (by omega)
        rwa [Function.iterate_succ_apply] at this)
      (by rwa [Function.iterate_succ_apply] at hacc)
    rw [Function.iterate_succ_apply (afterPair ext n) (k + 1) g]
    exact this

/-- The second loop of `selectParents` returns at the first iteration whose
pair satisfies `p2 <= f2` and `p2 != p1`, when the bound on the iterations
allows that many. -/
theorem selectSecond_returns_at (ext : Externals G S) (n p1 : Nat) :
    ∀ (k fuel : Nat) (g : G), k < fuel →
      (∀ j, j < k → (p1 = (drawPair ext n ((afterPair ext n)^[j] g)).1.2
        ∨ (drawPair ext n ((afterPair ext n)^[j] g)).1.2
          > (drawPair ext n ((afterPair ext n)^[j] g)).1.1)) →
      ¬ (p1 = (drawPair ext n ((afterPair ext n)^[k] g)).1.2
        ∨ (drawPair ext n ((afterPair ext n)^[k] g)).1.2
          > (drawPair ext n ((afterPair ext n)^[k] g)).1.1) →
      selectSecond ext n p1 fuel g
        = (Except.ok (drawPair ext n ((afterPair ext n)^[k] g)).1,
            (afterPair ext n)^[k + 1] g) := by
  intro k
  induction k with
  | zero =>
    intro fuel g hf _ hacc
    obtain ⟨f, rfl⟩ : ∃ f, fuel = f + 1 := ⟨fuel - 1, by omega⟩
    rw [selectSecond]
    simp only [Function.iterate_zero, id_eq, drawPair] at hacc
    rw [if_neg hacc]
    rfl
  | succ k ih =>
    intro fuel g hf hrej hacc
    obtain ⟨f, rfl⟩ : ∃ f, fuel = f + 1 := ⟨fuel - 1, by omega⟩
    rw [selectSecond]
    have h0 := hrej 0 (by omega)
    simp only [Function.iterate_zero, id_eq, drawPair] at h0
    rw [if_pos h0]
    have := ih f (afterPair ext n g) (by omega)
      (fun j hj => by
        have := hrej (j + 1) (by omega)
        rwa [Function.iterate_succ_apply] at this)
      (by rwa [Function.iterate_succ_apply] at hacc)
    rw [Function.iterate_succ_apply (afterPair ext n) (k + 1) g]
    exact this

/-- On a population of size 1, where every draw is 0, the second loop of
`selectParents` entered with `p1 = 0` exhausts every bound on its
iterations. -/
theorem selectSecond_one (ext : Externals G S) (hone : ∀ g, (ext.Integer g 1).1 < 1) :
    ∀ (fuel : Nat) (g : G), (selectSecond ext 1 0 fuel g).1 = Except.error Error.outOfFuel := by
  intro fuel
  induction fuel with
  | zero => intro g; rfl
  | succ k ih =>
    intro g
    rw [selectSecond]
    have h : 0 = (ext.Integer (ext.Integer g 1).2 1).1 := by
      have := hone (ext.Integer g 1).2
      omega
    rw [if_pos (Or.inl h)]
    exact ih _

/-- The parent loop of `crossOver` on at most one individual builds the groups
without a call of `selectParents`: the generator is left as it was, whatever
the bound on the iterations of the rejection loops. -/
theorem parentsFor_at_most_one (ext : Externals G S) (fuel : Nat)
    (individuals : List (IModel S D)) (g : G) (h : individuals.length ≤ 1) :
    parentsFor ext fuel individuals individuals.length 0 g
      = (Except.ok (individuals.map (fun m => [m])), g) := by
  rcases individuals with _ | ⟨m, _ | ⟨m2, rest⟩⟩
  · rfl
  · simp [parentsFor]
  · simp at h

/-- The first loop of `selectParents` raises nothing: the only failure of its
embedding is the exhaustion of the bound. -/
theorem selectFirst_error (ext : Externals G S) (n : Nat) :
    ∀ (fuel : Nat) (g : G) (e : Error) (g1 : G),
      selectFirst ext n fuel g = (Except.error e, g1) → e = Error.outOfFuel := by
  intro fuel
  induction fuel with
  | zero =>
    intro g e g1 h
    simp only [selectFirst, Prod.mk.injEq, Except.error.injEq] at h
    exact h.1.symm
  | succ k ih =>
    intro g e g1 h
    rw [selectFirst] at h
    split at h
    · exact ih _ e g1 h
    · simp at h

/-- On a population of size 1, where every draw is 0, `selectParents` exhausts
every bound on the iterations of its loops. -/
theorem selectParents_one (ext : Externals G S) (hone : ∀ g, (ext.Integer g 1).1 < 1)
    (fuel : Nat) (g : G) :
    (IPopulation.selectParents ext 1 fuel g).1 = Except.error Error.outOfFuel := by
  unfold IPopulation.selectParents selectParentsLocals
  rcases hf : selectFirst ext 1 fuel g with ⟨r1, g1⟩
  cases r1 with
  | error e =>
    simp only
    rw [selectFirst_error ext 1 fuel g e g1 hf]
  | ok fp1 =>
    obtain ⟨_, g0, _, hp1, _⟩ := selectFirst_spec ext 1 fuel g fp1.1 fp1.2 g1 hf
    have hz : fp1.2 = 0 := by
      have := hone (ext.Integer g0 1).2
      omega
    simp only
    have h2 := selectSecond_one ext hone fuel g1
    rw [hz]
    rcases hs : selectSecond ext 1 0 fuel g1 with ⟨r2, g2⟩
    rw [hs] at h2
    simp only at h2
    subst h2
    rfl

/-- On the tape generator with `size() >= 2`, the raw draws `0, 0, 1, 1` are
accepted at once: `selectParents` returns `(p1, p2) = (0, 1)` after four
calls. -/
theorem selectParents_on_tape (n fuel : Nat) (rest : List Nat) (hn : 2 ≤ n) (hfuel : 0 < fuel) :
    IPopulation.selectParents tapeExternals n fuel (0 :: 0 :: 1 :: 1 :: rest)
      = (Except.ok (0, 1), rest) := by
  obtain ⟨f, rfl⟩ : ∃ f, fuel = f + 1 := ⟨fuel - 1, by omega⟩
  have h1 : 1 % n = 1 := Nat.mod_eq_of_lt (by omega)
  simp [IPopulation.selectParents, selectParentsLocals, selectFirst, selectSecond,
    tapeExternals, h1]

/-- The method `selectParents` returns on the first pair with `p1 <= f1`
followed by the first later pair with `p2 <= f2` and `p2 != p1`, when the bound
on the iterations allows that many. -/
theorem selectParents_returns_at (ext : Externals G S) (n fuel : Nat) (g : G) (k1 k2 : Nat)
    (hk1 : k1 < fuel) (hk2 : k2 < fuel)
    (hrej1 : ∀ j, j < k1 → (drawPair ext n ((afterPair ext n)^[j] g)).1.2
      > (drawPair ext n ((afterPair ext n)^[j] g)).1.1)
    (hacc1 : (drawPair ext n ((afterPair ext n)^[k1] g)).1.2
      ≤ (drawPair ext n ((afterPair ext n)^[k1] g)).1.1)
    (hrej2 : ∀ j, j < k2 →
      ((drawPair ext n ((afterPair ext n)^[k1] g)).1.2
          = (drawPair ext n ((afterPair ext n)^[j] ((afterPair ext n)^[k1 + 1] g))).1.2
        ∨ (drawPair ext n ((afterPair ext n)^[j] ((afterPair ext n)^[k1 + 1] g))).1.2
          > (drawPair ext n ((afterPair ext n)^[j] ((afterPair ext n)^[k1 + 1] g))).1.1))
    (hacc2 : (drawPair ext n ((afterPair ext n)^[k2] ((afterPair ext n)^[k1 + 1] g))).1.2
        ≤ (drawPair ext n ((afterPair ext n)^[k2] ((afterPair ext n)^[k1 + 1] g))).1.1
      ∧ (drawPair ext n ((afterPair ext n)^[k2] ((afterPair ext n)^[k1 + 1] g))).1.2
        ≠ (drawPair ext n ((afterPair ext n)^[k1] g)).1.2) :
    IPopulation.selectParents ext n fuel g
      = (Except.ok ((drawPair ext n ((afterPair ext n)^[k1] g)).1.2,
          (drawPair ext n ((afterPair ext n)^[k2] ((afterPair ext n)^[k1 + 1] g))).1.2),
        (afterPair ext n)^[k2 + 1] ((afterPair ext n)^[k1 + 1] g)) := by
  have h1 := selectFirst_returns_at ext n k1 fuel g hk1 hrej1 (by omega)
  have h2 := selectSecond_returns_at ext n (drawPair ext n ((afterPair ext n)^[k1] g)).1.2 k2
    fuel ((afterPair ext n)^[k1 + 1] g) hk2 hrej2
    (by
      rintro (h | h)
      · exact hacc2.2 h.symm
      · omega)
  unfold IPopulation.selectParents selectParentsLocals
  rw [h1]
  simp only
  rw [h2]

/-- C32. On a population of size 1, where every draw `Integer(1)` is 0,
`selectParents` does not return: it exhausts every bound on the iterations of
its loops, from every generator state. The parent loop of `crossOver()` on a
population of size at most 1 builds its groups without a call of
`selectParents`, leaving the generator as it was, so `crossOver()` does not
depend on that bound and its outcome is the outcome of `sort()`: it returns
when a figure of merit is set. For any size, `selectParents` returns on the
first pair with `p1 <= f1` followed by the first later pair with `p2 <= f2` and
`p2 != p1`; when the size is at least 2 such draws exist, and on the tape
generator the raw draws `0, 0, 1, 1` make the call return at once. -/
theorem selectParents_returns_from_size_two (ext : Externals G S) (hooks : Hooks S D G) :
    ((∀ g, (ext.Integer g 1).1 < 1) →
      ∀ (fuel : Nat) (g : G),
        (IPopulation.selectParents ext 1 fuel g).1 = Except.error Error.outOfFuel)
    ∧ (∀ (p : IPopulation S D G) (fuel : Nat), p.size ≤ 1 →
        parentsFor ext fuel p.sort.2.m_individuals p.sort.2.size 0 p.sort.2.m_random
          = (Except.ok (p.sort.2.m_individuals.map (fun m => [m])), p.sort.2.m_random)
        ∧ p.crossOver ext hooks fuel = p.crossOver ext hooks 0
        ∧ (p.crossOver ext hooks fuel).1 = p.sort.1
        ∧ ∀ fom, p.m_fom = some fom → (p.crossOver ext hooks fuel).1 = Except.ok ())
    ∧ (∀ (n fuel : Nat) (g : G) (k1 k2 : Nat), k1 < fuel → k2 < fuel →
        (∀ j, j < k1 → (drawPair ext n ((afterPair ext n)^[j] g)).1.2
          > (drawPair ext n ((afterPair ext n)^[j] g)).1.1) →
        (drawPair ext n ((afterPair ext n)^[k1] g)).1.2
          ≤ (drawPair ext n ((afterPair ext n)^[k1] g)).1.1 →
        (∀ j, j < k2 →
          ((drawPair ext n ((afterPair ext n)^[k1] g)).1.2
              = (drawPair ext n ((afterPair ext n)^[j] ((afterPair ext n)^[k1 + 1] g))).1.2
            ∨ (drawPair ext n ((afterPair ext n)^[j] ((afterPair ext n)^[k1 + 1] g))).1.2
              > (drawPair ext n ((afterPair ext n)^[j] ((afterPair ext n)^[k1 + 1] g))).1.1)) →
        ((drawPair ext n ((afterPair ext n)^[k2] ((afterPair ext n)^[k1 + 1] g))).1.2
            ≤ (drawPair ext n ((afterPair ext n)^[k2] ((afterPair ext n)^[k1 + 1] g))).1.1
          ∧ (drawPair ext n ((afterPair ext n)^[k2] ((afterPair ext n)^[k1 + 1] g))).1.2
            ≠ (drawPair ext n ((afterPair ext n)^[k1] g)).1.2) →
        IPopulation.selectParents ext n fuel g
          = (Except.ok ((drawPair ext n ((afterPair ext n)^[k1] g)).1.2,
              (drawPair ext n ((afterPair ext n)^[k2] ((afterPair ext n)^[k1 + 1] g))).1.2),
            (afterPair ext n)^[k2 + 1] ((afterPair ext n)^[k1 + 1] g)))
    ∧ (∀ n : Nat, 2 ≤ n → ∃ f1 p1 f2 p2 : Nat,
        f1 < n ∧ p1 < n ∧ f2 < n ∧ p2 < n ∧ p1 ≤ f1 ∧ p2 ≤ f2 ∧ p2 ≠ p1)
    ∧ (∀ (n fuel : Nat) (rest : List Nat), 2 ≤ n → 0 < fuel →
        IPopulation.selectParents tapeExternals n fuel (0 :: 0 :: 1 :: 1 :: rest)
          = (Except.ok (0, 1), rest)) := by
  refine ⟨fun hone fuel g => selectParents_one ext hone fuel g, ?_,
    fun n fuel g k1 k2 => selectParents_returns_at ext n fuel g k1 k2,
    fun n hn => ⟨0, 0, 1, 1, by omega, by omega, by omega, by omega, by omega, by omega,
      by omega⟩,
    fun n fuel rest => selectParents_on_tape n fuel rest⟩
  intro p fuel hsize
  have hlen : p.sort.2.m_individuals.length ≤ 1 := by
    have := sort_size p
    simp only [IPopulation.size] at this hsize
    omega
  have hpar : ∀ fuel0, parentsFor ext fuel0 p.sort.2.m_individuals p.sort.2.size 0
      p.sort.2.m_random
      = (Except.ok (p.sort.2.m_individuals.map (fun m => [m])), p.sort.2.m_random) :=
    fun fuel0 => parentsFor_at_most_one ext fuel0 p.sort.2.m_individuals p.sort.2.m_random hlen
  have hcross : ∀ fuel0, p.crossOver ext hooks fuel0 = p.crossOver ext hooks 0 := by
    intro fuel0
    have ha := hpar fuel0
    have hb := hpar 0
    unfold IPopulation.crossOver
    rcases hs : p.sort with ⟨r, q⟩
    rw [hs] at ha hb
    simp only at ha hb
    cases r with
    | error e => rfl
    | ok u => simp only [ha, hb]
  have hout : (p.crossOver ext hooks fuel).1 = p.sort.1 := by
    have ha := hpar fuel
    unfold IPopulation.crossOver
    rcases hs : p.sort with ⟨r, q⟩
    rw [hs] at ha
    simp only at ha
    cases r with
    | error e => rfl
    | ok u => simp only [ha]
  refine ⟨hpar fuel, hcross fuel, hout, ?_⟩
  intro fom hfom
  rw [hout]
  exact sort_ok p fom hfom

/-- C32 on the tape generator, whose draws `Integer(1)` are all 0: on a
population of size 1 `selectParents` exhausts the bound 5, `crossOver()` on
the one individual of score 7 returns, and on a population of size 3 the raw
draws `0, 0, 1, 1` give the parents `(0, 1)`. -/
theorem selectParents_returns_from_size_two_witness :
    (∀ g : List Nat, (tapeExternals.Integer g 1).1 < 1)
    ∧ (IPopulation.selectParents tapeExternals 1 5 [0, 0, 0, 0, 0, 0, 0, 0, 0, 0]).1
        = Except.error Error.outOfFuel
    ∧ (({ emptyPopulation [] 0 with m_individuals := [constantModel 7 7] } :
        IPopulation Int (TF1 Int) (List Nat)).crossOver tapeExternals constantHooks 0).1
        = Except.ok ()
    ∧ IPopulation.selectParents tapeExternals 3 1 [0, 0, 1, 1, 9] = (Except.ok (0, 1), [9]) :=
  have hone : ∀ g : List Nat, (tapeExternals.Integer g 1).1 < 1 := fun g => Nat.mod_lt _ (by decide)
  ⟨hone,
    (selectParents_returns_from_size_two tapeExternals constantHooks).1 hone 5
      [0, 0, 0, 0, 0, 0, 0, 0, 0, 0],
    by decide,
    (selectParents_returns_from_size_two tapeExternals constantHooks).2.2.2.2 3 1 [9]
      (by decide) (by decide)⟩

end Claims

end GA
